import Mathlib

/-!
# A tree-walking interpreter for a small Python subset: BigInt and evaluator

Shallow embedding of `src/src/Evalvisitor.cpp` / `Evalvisitor.h`.

* `std::string` is modelled as `List Char` (`Str`); identifiers as `String`.
* A thrown C++ exception is an explicit result (`none` for the BigInt
  `division by zero`, a `Thrown` value in the evaluator).
* Arithmetic on digit characters (`c - '0'`, `char('0' + d)`) is modelled on
  code points; every string stored in a `BigInt` by the program is a digit
  string, on which the two coincide.
-/

/-- The model of `std::string`. -/
abbrev Str := List Char

/-- Model of `c - '0'` for a digit character `c`. -/
def dval (c : Char) : Nat := c.toNat - 48

/-- Model of `char('0' + d)`. -/
def dchar (d : Nat) : Char := Char.ofNat (48 + d)

namespace BigInt

/-- Embedding of `BigInt::trimZeros`: drop leading `'0'` characters, `"0"` when nothing is left. -/
def trimZeros (s : Str) : Str :=
  match s.dropWhile (fun c => c == '0') with
  | [] => ['0']
  | t => t

/-- The `for` loop of `BigInt::compare` on the remaining characters of both strings. -/
def compareLoop : Str → Str → Int
  | x :: xs, y :: ys => if x ≠ y then (if x.toNat < y.toNat then -1 else 1) else compareLoop xs ys
  | _, _ => 0

/-- Embedding of `BigInt::compare`: by length first, then by the first differing character. -/
def compare (a b : Str) : Int :=
  if a.length ≠ b.length then (if a.length < b.length then -1 else 1)
  else compareLoop a b

/-- The tail of the `while (i || j || carry)` loop of `BigInt::add` once both strings are
used up: it keeps emitting digits while the carry is non-zero. -/
def addCarry : Nat → Nat → Str
  | 0, _ => []
  | fuel + 1, carry => if carry = 0 then [] else dchar (carry % 10) :: addCarry fuel (carry / 10)

/-- The `while (i || j || carry)` loop of `BigInt::add` once `i` has reached zero: only
the (reversed) second string has characters left. -/
def addTail : Str → Nat → Str
  | [], carry => addCarry carry carry
  | y :: ys, carry =>
      let sum := carry + dval y
      dchar (sum % 10) :: addTail ys (sum / 10)

/-- The `while (i || j || carry)` loop of `BigInt::add`. The two strings are given
reversed (the loop reads them from their last character); the result is `res` before
`std::reverse`. -/
def addLoop : Str → Str → Nat → Str
  | [], ys, carry => addTail ys carry
  | x :: xs, [], carry =>
      let sum := carry + dval x
      dchar (sum % 10) :: addLoop xs [] (sum / 10)
  | x :: xs, y :: ys, carry =>
      let sum := carry + dval x + dval y
      dchar (sum % 10) :: addLoop xs ys (sum / 10)

/-- Embedding of `BigInt::add`. -/
def add (a b : Str) : Str :=
  trimZeros (addLoop a.reverse b.reverse 0).reverse

/-- The `while (i)` loop of `BigInt::sub`, on the reversed strings, with the borrow. -/
def subLoop : Str → Str → Int → Str
  | [], _, _ => []
  | x :: xs, ys, borrow =>
      let d0 : Int := (dval x : Int) - borrow
      let d1 : Int := match ys with
        | [] => d0
        | y :: _ => d0 - (dval y : Int)
      if d1 < 0 then dchar (d1 + 10).toNat :: subLoop xs ys.tail 1
      else dchar d1.toNat :: subLoop xs ys.tail 0

/-- Embedding of `BigInt::sub`. -/
def sub (a b : Str) : Str :=
  if compare a b < 0 then ['0']
  else trimZeros (subLoop a.reverse b.reverse 0).reverse

/-- The update `v[k] += x` of a cell of the accumulator vector. -/
def addAt : List Nat → Nat → Nat → List Nat
  | [], _, _ => []
  | c :: cs, 0, x => (c + x) :: cs
  | c :: cs, k + 1, x => c :: addAt cs k x

/-- Inner loop of `BigInt::mul`: for the digit `ai` at index `i` of `a`, and the
characters of `b` from index `j` on, `v[i + j + 1] += ai * (b[j] - '0')`. -/
def mulRow (ai i : Nat) : Str → Nat → List Nat → List Nat
  | [], _, v => v
  | y :: ys, j, v => mulRow ai i ys (j + 1) (addAt v (i + j + 1) (ai * dval y))

/-- Outer loop of `BigInt::mul` over the characters of `a` from index `i` on. -/
def mulRows (b : Str) : Str → Nat → List Nat → List Nat
  | [], _, v => v
  | x :: xs, i, v => mulRows b xs (i + 1) (mulRow (dval x) i b 0 v)

/-- The carry loop of `BigInt::mul`: `for (k = size - 1; k; k--)`
`{ v[k-1] += v[k] / 10; v[k] %= 10; }`, started at `k`. -/
def mulCarry : Nat → List Nat → List Nat
  | 0, v => v
  | k + 1, v =>
      mulCarry k ((addAt v k (v.getD (k + 1) 0 / 10)).set (k + 1) (v.getD (k + 1) 0 % 10))

/-- Embedding of `BigInt::mul`. The cells of `v` are `int` in the source; a cell holds at
most `81 * min(|a|, |b|)` plus a carry, which stays below `2^31` for operands of fewer than
26 million digits, and is modelled as a natural number. -/
def mul (a b : Str) : Str :=
  if a = ['0'] ∨ b = ['0'] then ['0']
  else
    let v0 := List.replicate (a.length + b.length) 0
    let v1 := mulRows b a 0 v0
    let v := mulCarry (v1.length - 1) v1
    (if v.getD 0 0 = 0 then v.drop 1 else v).map dchar

/-- The `for (digit = 9; digit >= 0; digit--)` search of `BigInt::divmod`, started at
`digit`: the digit found and the new remainder. -/
def divDigit (r b : Str) : Nat → Nat × Str
  | 0 =>
      let prod := mul b [dchar 0]
      if compare r prod ≥ 0 then (0, sub r prod) else (0, r)
  | digit + 1 =>
      let prod := mul b [dchar (digit + 1)]
      if compare r prod ≥ 0 then (digit + 1, sub r prod) else divDigit r b digit

/-- The long-division loop of `BigInt::divmod` over the remaining characters of `a`,
with the quotient `q` and the running remainder `r`. -/
def divLoop (b : Str) : Str → Str → Str → Str × Str
  | [], q, r => (q, r)
  | c :: cs, q, r =>
      let r1 := trimZeros (r ++ [c])
      let dr := divDigit r1 b 9
      divLoop b cs (q ++ [dchar dr.1]) dr.2

/-- Embedding of `BigInt::divmod`: `none` is the thrown `division by zero`; otherwise the
returned quotient and the remainder written to `rem`. -/
def divmod (a b : Str) : Option (Str × Str) :=
  if b = ['0'] then none
  else if compare a b < 0 then some (['0'], a)
  else if compare a b = 0 then some (['1'], ['0'])
  else
    let qr := divLoop b a [] []
    some (trimZeros qr.1, trimZeros qr.2)

end BigInt

/-- Embedding of `class BigInt`: a sign flag and the decimal magnitude string. -/
structure BigInt where
  negative : Bool
  digits : Str
  deriving DecidableEq, Repr

namespace BigInt

/-- The default constructor `BigInt()` and `BigInt(0)`. -/
def zero : BigInt := ⟨false, ['0']⟩

/-- Embedding of `BigInt::operator-() const` (unary minus). -/
def opNeg (a : BigInt) : BigInt :=
  if a.digits ≠ ['0'] then { a with negative := !a.negative } else a

/-- Embedding of `BigInt::operator+`. -/
def opAdd (a o : BigInt) : BigInt :=
  if a.negative = o.negative then ⟨a.negative, add a.digits o.digits⟩
  else
    let c := compare a.digits o.digits
    if c = 0 then zero
    else if c > 0 then ⟨a.negative, sub a.digits o.digits⟩
    else ⟨o.negative, sub o.digits a.digits⟩

/-- Embedding of the binary `BigInt::operator-`: `*this + (-o)`. -/
def opSub (a o : BigInt) : BigInt := opAdd a (opNeg o)

/-- Embedding of `BigInt::operator*`. -/
def opMul (a o : BigInt) : BigInt :=
  let digits := mul a.digits o.digits
  if digits = ['0'] then ⟨false, digits⟩ else ⟨a.negative != o.negative, digits⟩

/-- Embedding of `BigInt::operator/`; `none` is the thrown `division by zero`. -/
def opDiv (a o : BigInt) : Option BigInt :=
  if o.digits = ['0'] then none
  else
    match divmod a.digits o.digits with
    | none => none
    | some (q0, rem) =>
        let neg := a.negative != o.negative
        let q := if neg && rem != ['0'] then add q0 ['1'] else q0
        some (if q = ['0'] then ⟨false, q⟩ else ⟨neg, q⟩)

/-- Embedding of `BigInt::operator%`; `none` is the thrown `division by zero`. -/
def opMod (a o : BigInt) : Option BigInt :=
  if o.digits = ['0'] then none
  else
    match divmod a.digits o.digits with
    | none => none
    | some (_, rem) => some (if rem = ['0'] then ⟨false, rem⟩ else ⟨a.negative, rem⟩)

/-- Embedding of `BigInt::operator<`. -/
def opLt (a o : BigInt) : Bool :=
  if a.negative ≠ o.negative then a.negative
  else
    let c := compare a.digits o.digits
    if a.negative then decide (c > 0) else decide (c < 0)

/-- Embedding of `BigInt::operator>`. -/
def opGt (a o : BigInt) : Bool := opLt o a

/-- Embedding of `BigInt::operator<=`. -/
def opLe (a o : BigInt) : Bool := !opLt o a

/-- Embedding of `BigInt::operator>=`. -/
def opGe (a o : BigInt) : Bool := !opLt a o

/-- Embedding of `BigInt::operator==`. -/
def opEq (a o : BigInt) : Bool := a.negative == o.negative && a.digits == o.digits

/-- Embedding of `BigInt::operator!=`. -/
def opNe (a o : BigInt) : Bool := !opEq a o

/-- Embedding of `BigInt::toString`. -/
def toString (a : BigInt) : Str := if a.negative then '-' :: a.digits else a.digits

end BigInt

/-- Embedding of the static helper `floorDiv`: `a / b`. -/
def floorDiv (a b : BigInt) : Option BigInt := BigInt.opDiv a b

/-- Embedding of the static helper `floorMod`: `a - (a / b) * b`. -/
def floorMod (a b : BigInt) : Option BigInt :=
  match BigInt.opDiv a b with
  | none => none
  | some q => some (BigInt.opSub a (BigInt.opMul q b))

/-! ## Specification-side notions for BigInt -/

/-- The number denoted by a string of decimal digits (most significant first). -/
def toNum (s : Str) : Nat := s.foldl (fun n c => 10 * n + dval c) 0

/-- Every character is a decimal digit. -/
def IsDigits (s : Str) : Prop := ∀ c ∈ s, 48 ≤ c.toNat ∧ c.toNat ≤ 57

/-- A magnitude in canonical form: a non-empty digit string without a leading zero,
except for the single digit `"0"`. -/
def Canon (s : Str) : Prop := s ≠ [] ∧ IsDigits s ∧ (s.head? = some '0' → s = ['0'])

namespace BigInt

/-- The representation invariant of `BigInt`: canonical magnitude, and zero is non-negative. -/
def WF (a : BigInt) : Prop := Canon a.digits ∧ (a.digits = ['0'] → a.negative = false)

/-- The integer denoted by a `BigInt`. -/
def val (a : BigInt) : Int := if a.negative then -(toNum a.digits : Int) else (toNum a.digits : Int)

/-- The `BigInt` written with an optional sign and a digit string, for stating examples. -/
def lit (negative : Bool) (s : String) : BigInt := ⟨negative, s.toList⟩

end BigInt


instance (s : Str) : Decidable (IsDigits s) := by
  unfold IsDigits; infer_instance

instance (s : Str) : Decidable (Canon s) := by
  unfold Canon; infer_instance

instance (a : BigInt) : Decidable a.WF := by
  unfold BigInt.WF; infer_instance

/-- The number denoted by a vector of cells, most significant first; a cell may exceed 9. -/
def cellsVal : List Nat → Nat
  | [] => 0
  | x :: v => x * 10 ^ v.length + cellsVal v

/-! ## Values -/

/-- An IEEE-754 `double`, as its bit pattern. Floating-point arithmetic is not modelled:
the operations the evaluator uses are the fields of `FloatOps`. -/
structure Double where
  bits : Nat
  deriving DecidableEq, Repr

/-- The floating-point operations used by the evaluator, taken as parameters. -/
structure FloatOps where
  /-- The conversion `(double)n` of a `long long`. -/
  ofLong : Int → Double
  /-- The conversion `(long long)d`. -/
  toLong : Double → Int
  /-- The parser `std::stod`; `none` when it throws. -/
  stod : Str → Option Double
  add : Double → Double → Double
  sub : Double → Double → Double
  mul : Double → Double → Double
  div : Double → Double → Double
  fmod : Double → Double → Double
  neg : Double → Double
  /-- The comparison `x < y`. -/
  lt : Double → Double → Bool
  /-- The test `d != 0.0`. -/
  nonZero : Double → Bool
  /-- The function `EvalVisitor::formatFloat`. -/
  formatFloat : Double → Str

/-- Embedding of `Value`: the variant over `PyNone`, `BigInt`, `double`, `bool`,
`std::string` and `std::shared_ptr<PyTuple>`. -/
inductive Value where
  | none
  | int (b : BigInt)
  | float (d : Double)
  | bool (b : Bool)
  | str (s : Str)
  | tuple (elts : List Value)

/-- What a C++ `throw` carries out of a visitor. -/
inductive Thrown where
  /-- The signal `throw FlowType::Break`. -/
  | flowBreak
  /-- The signal `throw FlowType::Continue`. -/
  | flowContinue
  /-- The signal `throw std::make_pair(FlowType::Return, v)`. -/
  | flowReturn (v : Value)
  /-- A `std::runtime_error` with its message. -/
  | runtimeError (msg : String)
  /-- The `std::bad_any_cast` of `std::any_cast<Value>` on a `std::any` holding `nullptr`. -/
  | badAnyCast
  /-- An exception thrown by `std::stod`. -/
  | stodError
  /-- A null-pointer dereference or an out-of-range access (undefined behaviour). -/
  | undefinedBehaviour

/-! ## Syntax tree -/

/-- The node `comp_op`. -/
inductive CompOp where
  | lt | gt | le | ge | eq | ne
  deriving DecidableEq, Repr

/-- The node `muldivmod_op`. -/
inductive MulOp where
  | star | div | idiv | mod
  deriving DecidableEq, Repr

/-- The node `augassign`. -/
inductive AugOp where
  | add | sub | mul | div | idiv | mod
  deriving DecidableEq, Repr

mutual
/-- The node `test`. -/
inductive Test where
  | mk (orTest : OrTest)
/-- The node `or_test`: its `and_test` children. -/
inductive OrTest where
  | mk (andTests : List AndTest)
/-- The node `and_test`: its `not_test` children. -/
inductive AndTest where
  | mk (notTests : List NotTest)
/-- The node `not_test`. -/
inductive NotTest where
  | not (x : NotTest)
  | comparison (c : Comparison)
/-- The node `comparison`: `arith_expr (comp_op arith_expr)*`. -/
inductive Comparison where
  | mk (first : ArithExpr) (rest : List (CompOp × ArithExpr))
/-- The node `arith_expr`: `term (addorsub_op term)*`; the flag is `MINUS()`. -/
inductive ArithExpr where
  | mk (first : Term) (rest : List (Bool × Term))
/-- The node `term`: `factor (muldivmod_op factor)*`. -/
inductive Term where
  | mk (first : Factor) (rest : List (MulOp × Factor))
/-- The node `factor`. -/
inductive Factor where
  | minus (f : Factor)
  | plus (f : Factor)
  | atomExpr (a : AtomExpr)
/-- The node `atom_expr`: an atom and an optional call trailer with its arguments. -/
inductive AtomExpr where
  | mk (atom : Atom) (trailer : Option (List Argument))
/-- The node `atom`. -/
inductive Atom where
  | name (n : String)
  | number (text : Str)
  | strings (tokens : List Str)
  | none
  | true
  | false
  | paren (t : Test)
  | formatString (parts : List FPart)
/-- A child of `format_string`: a `FORMAT_STRING_LITERAL` token or a `testlist`. -/
inductive FPart where
  | literal (text : Str)
  | expr (tl : Testlist)
/-- The node `testlist`. -/
inductive Testlist where
  | mk (tests : List Test)
/-- The node `argument`: `test` or `test '=' test`. -/
inductive Argument where
  | mk (test0 : Test) (test1 : Option Test)
end

/-- The node `small_stmt` (`expr_stmt` or `flow_stmt`). -/
inductive SmallStmt where
  /-- The statement `testlist augassign testlist`. -/
  | augAssign (target : Testlist) (op : AugOp) (rhs : Testlist)
  /-- The statement `testlist ('=' testlist)*`: all its testlists, in order. -/
  | exprStmt (first : Testlist) (rest : List Testlist)
  | breakStmt
  | continueStmt
  | returnStmt (tl : Option Testlist)

mutual
/-- The node `stmt`. -/
inductive Stmt where
  | simple (s : SmallStmt)
  | ifStmt (branches : List (Test × Suite)) (orelse : Option Suite)
  | whileStmt (test : Test) (suite : Suite)
  | funcdef (name : String) (names : List String) (defaults : List Test) (suite : Suite)
/-- The node `suite`. -/
inductive Suite where
  | simple (s : SmallStmt)
  | block (stmts : List Stmt)
end

/-- An entry of `functions`: parameter names, default values, body. -/
structure FuncDef where
  names : List String
  defaults : List Value
  suite : Suite

/-- A scope: `std::map<std::string, Value>`. -/
abbrev Frame := List (String × Value)

/-- The evaluator's state: the scope stack (innermost scope, `scopes.back()`, first), the
function table, and what has been written to standard output. -/
structure State where
  scopes : List Frame
  functions : List (String × FuncDef)
  out : Str

/-! ## BigInt conversions -/

/-- Wrap-around to the range of a 64-bit `long long`. -/
def wrap64 (x : Int) : Int := (x + 2 ^ 63) % 2 ^ 64 - 2 ^ 63

/-- Wrap-around to the range of a 32-bit `int`. -/
def wrap32 (x : Int) : Int := (x + 2 ^ 31) % 2 ^ 32 - 2 ^ 31

namespace BigInt

/-- The digit loop of `BigInt(long long)`: `while (n) { digits += char('0' + n % 10); n /= 10; }`,
with C++ truncating `%` and `/`; the result is `digits` before `std::reverse`. -/
def ofLongLoop : Nat → Int → Str
  | 0, _ => []
  | fuel + 1, n =>
      if n = 0 then [] else Char.ofNat (48 + Int.tmod n 10).toNat :: ofLongLoop fuel (Int.tdiv n 10)

/-- Embedding of the constructor `BigInt(long long n)`, for `n` in the 64-bit range. -/
def ofLong (n : Int) : BigInt :=
  let m := if n < 0 then wrap64 (-n) else n
  if m = 0 then ⟨decide (n < 0), ['0']⟩
  else ⟨decide (n < 0), (ofLongLoop m.natAbs m).reverse⟩

/-- Embedding of `BigInt::toLong`, the accumulation wrapping at 64 bits. -/
def toLong (a : BigInt) : Int :=
  let r := a.digits.foldl (fun r c => wrap64 (r * 10 + ((c.toNat : Int) - 48))) 0
  if a.negative then wrap64 (-r) else r

/-- Embedding of the constructor `BigInt(const std::string&)`. -/
def ofString (s : Str) : BigInt :=
  let t := s.dropWhile (fun c => c == ' ')
  match t with
  | [] => ⟨false, ['0']⟩
  | c :: rest =>
      let negative := c == '-'
      let t1 := if c == '-' then rest else t
      let t2 := match t1 with
        | '+' :: rest1 => rest1
        | _ => t1
      let digits := trimZeros t2
      if digits = ['0'] then ⟨false, digits⟩ else ⟨negative, digits⟩

end BigInt

/-! ## Value helpers -/

/-- Embedding of `EvalVisitor::isTrue`. -/
def isTrue (F : FloatOps) : Value → Bool
  | .none => false
  | .bool b => b
  | .int b => BigInt.opNe b (BigInt.ofLong 0)
  | .float d => F.nonZero d
  | .str s => !s.isEmpty
  | .tuple elts => !elts.isEmpty

/-- The test `std::isdigit((unsigned char)c)`. -/
def isdigit (c : Char) : Bool := decide (48 ≤ c.toNat ∧ c.toNat ≤ 57)

/-- Embedding of `EvalVisitor::toInt`, with the `BigInt` taken out of the returned `Value`. -/
def toInt (F : FloatOps) : Value → Except Thrown BigInt
  | .int b => .ok b
  | .float d => .ok (BigInt.ofLong (F.toLong d))
  | .bool b => .ok (BigInt.ofLong (if b then 1 else 0))
  | .str s =>
      match s with
      | [] => .error (.runtimeError "invalid literal for int()")
      | c :: rest =>
          let body := if c == '+' || c == '-' then rest else s
          if body.all isdigit then .ok (BigInt.ofString s)
          else .error (.runtimeError "invalid literal for int()")
  | _ => .error (.runtimeError "cannot convert to int")

/-- Embedding of `EvalVisitor::toFloat`, with the `double` taken out of the returned `Value`. -/
def toFloat (F : FloatOps) : Value → Except Thrown Double
  | .float d => .ok d
  | .int b => .ok (F.ofLong b.toLong)
  | .bool b => .ok (F.ofLong (if b then 1 else 0))
  | .str s =>
      match F.stod s with
      | some d => .ok d
      | none => .error .stodError
  | _ => .error (.runtimeError "cannot convert to float")

/-- Embedding of `EvalVisitor::toStr`, with the string taken out of the returned `Value`. -/
def toStr (F : FloatOps) : Value → Str
  | .str s => s
  | .int b => b.toString
  | .float d => F.formatFloat d
  | .bool b => if b then "True".toList else "False".toList
  | .none => "None".toList
  | .tuple _ => "?".toList

/-- Embedding of `EvalVisitor::toBool`. -/
def toBool (F : FloatOps) (v : Value) : Value := .bool (isTrue F v)

/-- The sign of `std::string::compare`: byte-wise lexicographic order. -/
def strCompare : Str → Str → Int
  | [], [] => 0
  | [], _ :: _ => -1
  | _ :: _, [] => 1
  | x :: xs, y :: ys =>
      if x.toNat < y.toNat then -1 else if y.toNat < x.toNat then 1 else strCompare xs ys

/-- Embedding of `EvalVisitor::compareValues`; `-2` is the result for incomparable operands. -/
def compareValues (F : FloatOps) : Value → Value → Int
  | .int x, .int y => if BigInt.opLt x y then -1 else if BigInt.opGt x y then 1 else 0
  | .float x, .float y => if F.lt x y then -1 else if F.lt y x then 1 else 0
  | .str x, .str y => strCompare x y
  | _, _ => -2

/-- Embedding of `EvalVisitor::tryConvertForCompare`: `none` is the returned `PyNone`,
`some b` the returned `bool`. -/
def tryConvertForCompare (F : FloatOps) : Value → Value → Option Bool
  | .none, _ => none
  | _, .none => none
  | .str _, _ => none
  | _, .str _ => none
  | .int a, .float b =>
      some (compareValues F (.int a) (.int (BigInt.ofLong (F.toLong b))) == 0)
  | .float a, .int b =>
      some (compareValues F (.int (BigInt.ofLong (F.toLong a))) (.int b) == 0)
  | .int a, .bool b =>
      some (compareValues F (.int a) (.int (BigInt.ofLong (if b then 1 else 0))) == 0)
  | .bool a, .int b =>
      some (compareValues F (.int (BigInt.ofLong (if a then 1 else 0))) (.int b) == 0)
  | .float a, .bool b =>
      some (compareValues F (.float a) (.float (F.ofLong (if b then 1 else 0))) == 0)
  | .bool a, .float b =>
      some (compareValues F (.float (F.ofLong (if a then 1 else 0))) (.float b) == 0)
  | .bool a, .bool b => some (a == b)
  | _, _ => none

/-- The comparison of one `comp_op` in `visitComparison`. -/
def compareOp (F : FloatOps) (op : CompOp) (left right : Value) : Bool :=
  match op with
  | .lt => decide (compareValues F left right < 0)
  | .gt => decide (compareValues F left right > 0)
  | .le => decide (compareValues F left right ≤ 0)
  | .ge => decide (compareValues F left right ≥ 0)
  | .eq =>
      match tryConvertForCompare F left right with
      | none => decide (compareValues F left right = 0)
      | some b => b
  | .ne =>
      match tryConvertForCompare F left right with
      | none => decide (compareValues F left right ≠ 0)
      | some b => !b

/-- The loop `for (int j = 0; j < n; j++) s += str`. -/
def repeatStr : Nat → Str → Str
  | 0, _ => []
  | n + 1, s => s ++ repeatStr n s

/-- String repetition as in `visitTerm`: the count is `BigInt::toLong` narrowed to `int`. -/
def strTimes (s : Str) (count : BigInt) : Str :=
  repeatStr (wrap32 count.toLong).toNat s

/-- One step of the loop of `visitArith_expr`: `v + r` or, when `isSub`, `v - r`. -/
def arithOp (F : FloatOps) (isSub : Bool) (v r : Value) : Except Thrown Value :=
  match v, r with
  | .int a, .int b => .ok (.int (if isSub then BigInt.opSub a b else BigInt.opAdd a b))
  | _, _ =>
      match v, r, isSub with
      | .str a, .str b, false => .ok (.str (a ++ b))
      | _, _, _ => do
          let a ← toFloat F v
          let b ← toFloat F r
          .ok (.float (if isSub then F.sub a b else F.add a b))

/-- One step of the loop of `visitTerm`. -/
def termOp (F : FloatOps) (op : MulOp) (v r : Value) : Except Thrown Value :=
  match op with
  | .star =>
      match v, r with
      | .int a, .int b => .ok (.int (BigInt.opMul a b))
      | .str s, .int n => .ok (.str (strTimes s n))
      | _, _ => do
          let a ← toFloat F v
          let b ← toFloat F r
          .ok (.float (F.mul a b))
  | .div => do
      let a ← toFloat F v
      let b ← toFloat F r
      .ok (.float (F.div a b))
  | .idiv =>
      match v, r with
      | .int a, .int b =>
          match floorDiv a b with
          | some q => .ok (.int q)
          | none => .error (.runtimeError "division by zero")
      | _, _ => do
          let a ← toFloat F v
          let b ← toFloat F r
          .ok (.int (BigInt.ofLong (F.toLong (F.div a b))))
  | .mod =>
      match v, r with
      | .int a, .int b =>
          match floorMod a b with
          | some m => .ok (.int m)
          | none => .error (.runtimeError "division by zero")
      | _, _ => do
          let a ← toFloat F v
          let b ← toFloat F r
          .ok (.float (F.fmod a b))

/-- The sign handling of `visitFactor` for a leading `-`. -/
def negate (F : FloatOps) (v : Value) : Except Thrown Value :=
  match v with
  | .int b => .ok (.int (BigInt.opNeg b))
  | _ => do
      let d ← toFloat F v
      .ok (.float (F.neg d))

/-- The computation of `res` for `name op= expr` in `visitExpr_stmt`. -/
def augOp (F : FloatOps) (op : AugOp) (left right : Value) : Except Thrown Value :=
  match op with
  | .add =>
      match left, right with
      | .int a, .int b => .ok (.int (BigInt.opAdd a b))
      | .float _, _ | _, .float _ => do
          let a ← toFloat F left
          let b ← toFloat F right
          .ok (.float (F.add a b))
      | .str a, .str b => .ok (.str (a ++ b))
      | _, _ => do
          let a ← toInt F left
          let b ← toInt F right
          .ok (.int (BigInt.opAdd a b))
  | .sub =>
      match left with
      | .int a => do
          let b ← toInt F right
          .ok (.int (BigInt.opSub a b))
      | _ => do
          let a ← toFloat F left
          let b ← toFloat F right
          .ok (.float (F.sub a b))
  | .mul =>
      match left, right with
      | .str s, .int n => .ok (.str (strTimes s n))
      | .int a, .int b => .ok (.int (BigInt.opMul a b))
      | _, _ => do
          let a ← toFloat F left
          let b ← toFloat F right
          .ok (.float (F.mul a b))
  | .div => do
      let a ← toFloat F left
      let b ← toFloat F right
      .ok (.float (F.div a b))
  | .idiv =>
      match left with
      | .int a => do
          let b ← toInt F right
          match floorDiv a b with
          | some q => .ok (.int q)
          | none => .error (.runtimeError "division by zero")
      | _ => do
          let a ← toFloat F left
          let b ← toFloat F right
          .ok (.int (BigInt.ofLong (F.toLong (F.div a b))))
  | .mod =>
      match left with
      | .int a => do
          let b ← toInt F right
          match floorMod a b with
          | some m => .ok (.int m)
          | none => .error (.runtimeError "division by zero")
      | _ => do
          let a ← toFloat F left
          let b ← toFloat F right
          .ok (.float (F.fmod a b))

/-- The escape processing of one `STRING` token in `visitAtom`, after the quotes are
stripped; `q` is the quote character. -/
def unescape (q : Char) : Str → Str
  | [] => []
  | [c] => [c]
  | c :: d :: rest =>
      if c == '\\' then
        if d == 'n' then '\n' :: unescape q rest
        else if d == 't' then '\t' :: unescape q rest
        else if d == '\\' || d == q then d :: unescape q rest
        else c :: unescape q (d :: rest)
      else c :: unescape q (d :: rest)

/-- The text one `STRING` token contributes in `visitAtom`. -/
def stringToken (t : Str) : Str :=
  match t with
  | q :: rest =>
      if 2 ≤ t.length ∧ (q == '"' || q == '\x27') then unescape q rest.dropLast else t
  | [] => []

/-- Embedding of `appendFStrLiteral`: the characters appended to `res` for the literal `t`. -/
def appendFStrLiteral : Str → Str
  | [] => []
  | [c] => [c]
  | c :: d :: rest =>
      if c == '{' && d == '{' then '{' :: appendFStrLiteral rest
      else if c == '}' && d == '}' then '}' :: appendFStrLiteral rest
      else c :: appendFStrLiteral (d :: rest)

/-- What `visitFormat_string` appends for the value of an expression segment. -/
def formatValue (F : FloatOps) : Value → Str
  | .bool b => if b then "True".toList else "False".toList
  | .int b => b.toString
  | .float d => F.formatFloat d
  | .str s => s
  | .none => "None".toList
  | .tuple _ => []

/-! ## Scopes -/

/-- The lookup `scope.find(name)`. -/
def Frame.find : Frame → String → Option Value
  | [], _ => none
  | (k, x) :: rest, name => if k = name then some x else Frame.find rest name

/-- The update `scope[name] = v`. -/
def Frame.set : Frame → String → Value → Frame
  | [], name, v => [(name, v)]
  | (k, x) :: rest, name, v => if k = name then (k, v) :: rest else (k, x) :: Frame.set rest name v

/-- Embedding of `EvalVisitor::getVar` on the scope stack (innermost first). -/
def getVar : List Frame → String → Except Thrown Value
  | [], name => .error (.runtimeError ("name \x27" ++ name ++ "\x27 is not defined"))
  | f :: rest, name =>
      match f.find name with
      | some v => .ok v
      | none => getVar rest name

/-- The search loop of `EvalVisitor::setVar`: the updated stack when some scope holds `name`. -/
def setVarLoop : List Frame → String → Value → Option (List Frame)
  | [], _, _ => none
  | f :: rest, name, v =>
      match f.find name with
      | some _ => some (f.set name v :: rest)
      | none =>
          match setVarLoop rest name v with
          | some rest1 => some (f :: rest1)
          | none => none

/-- Embedding of `EvalVisitor::setVar` on the scope stack: rebind the innermost scope
holding `name`, else create the binding in `scopes.back()`. -/
def setVar (scopes : List Frame) (name : String) (v : Value) : List Frame :=
  match setVarLoop scopes name v with
  | some s => s
  | none =>
      match scopes with
      | [] => []
      | f :: rest => f.set name v :: rest

/-! ## Target names -/

/-- The chain `t->or_test()->and_test(0)->not_test(0)->comparison()->arith_expr(0)`
`->term(0)->factor(0)->atom_expr()`; `none` when a link of the chain is a null pointer. -/
def Test.firstAtomExpr : Test → Option AtomExpr
  | .mk (.mk (.mk (.comparison (.mk (.mk (.mk (.atomExpr a) _) _) _) :: _) :: _)) => some a
  | _ => none

/-- The chain above followed by `->atom()->NAME()->getText()`; `none` when a link is a
null pointer. -/
def Test.targetName (t : Test) : Option String :=
  match t.firstAtomExpr with
  | some (.mk (.name n) _) => some n
  | _ => none

/-- Embedding of the static helper `getSingleName`: `none` is a null-pointer dereference,
`some ""` the returned empty string. -/
def getSingleName : Testlist → Option String
  | .mk [t] =>
      match t.firstAtomExpr with
      | some (.mk (.name n) none) => some n
      | some _ => some ""
      | none => none
  | _ => some ""

/-! ## The evaluator -/

/-- The outcome of a visitor: a returned value or a thrown exception, with the state. -/
inductive Res (α : Type) where
  | ok (a : α) (st : State)
  | thrown (t : Thrown) (st : State)

/-- A visitor: a state transformer; `none` when the fuel of the embedding runs out. -/
def Exec (α : Type) : Type := State → Option (Res α)

instance : Monad Exec where
  pure a := fun st => some (.ok a st)
  bind m f := fun st =>
    match m st with
    | none => none
    | some (.thrown t st1) => some (.thrown t st1)
    | some (.ok a st1) => f a st1

namespace Exec

/-- The embedding ran out of fuel. -/
def outOfFuel {α : Type} : Exec α := fun _ => none

/-- A C++ `throw`. -/
def raise {α : Type} (t : Thrown) : Exec α := fun st => some (.thrown t st)

/-- Run a helper that may throw. -/
def lift {α : Type} : Except Thrown α → Exec α
  | .ok a => pure a
  | .error t => raise t

/-- Read the state. -/
def get : Exec State := fun st => some (.ok st st)

/-- Replace the scope stack. -/
def setScopes (scopes : List Frame) : Exec Unit :=
  fun st => some (.ok () { st with scopes := scopes })

end Exec

/-- The lookup `functions.find(name)`. -/
def findFunc : List (String × FuncDef) → String → Option FuncDef
  | [], _ => none
  | (k, d) :: rest, name => if k = name then some d else findFunc rest name

/-- The update `functions[name] = def`. -/
def setFunc : List (String × FuncDef) → String → FuncDef → List (String × FuncDef)
  | [], name, d => [(name, d)]
  | (k, x) :: rest, name, d =>
      if k = name then (k, d) :: rest else (k, x) :: setFunc rest name d

/-- The parameter loop of the call in `visitTrailer`, from index `i` on:
positional argument, else keyword argument, else default value, else nothing. -/
def bindLoop (defStart : Nat) (defaults args : List Value) (kwargs : Frame) :
    List String → Nat → List Frame → List Frame
  | [], _, scopes => scopes
  | name :: rest, i, scopes =>
      let scopes1 :=
        if i < args.length then setVar scopes name (args.getD i .none)
        else
          match kwargs.find name with
          | some v => setVar scopes name v
          | none =>
              if i ≥ defStart then setVar scopes name (defaults.getD (i - defStart) .none)
              else scopes
      bindLoop defStart defaults args kwargs rest (i + 1) scopes1

/-- The binding of the parameters in `visitTrailer`; `defStart` is the `size_t`
difference `p - defaultValues.size()`. -/
def bindParams (names : List String) (defaults args : List Value) (kwargs : Frame)
    (scopes : List Frame) : List Frame :=
  bindLoop ((names.length + 2 ^ 64 - defaults.length) % 2 ^ 64) defaults args kwargs names 0 scopes

/-- The binding loops of a plain assignment in `visitExpr_stmt`: each target name in turn
is bound to the next value; `none` is a null-pointer dereference on a target. -/
def assignTargets : List Test → List Value → List Frame → Option (List Frame)
  | [], _, scopes => some scopes
  | t :: rest, vals, scopes =>
      match t.targetName with
      | none => none
      | some name => assignTargets rest vals.tail (setVar scopes name (vals.headD .none))

/-- The tests of a testlist. -/
def Testlist.tests : Testlist → List Test
  | .mk ts => ts

/-- The `try`/`catch` around `visit(suiteCtx)` in `visitTrailer`: on a normal end and on
a `Return` pair the scope is popped and the call returns; any other exception passes
through, the scope not popped. -/
def callResult : Option (Res Unit) → Option (Res (Option Value))
  | none => none
  | some (.ok _ st) => some (.ok (some .none) { st with scopes := st.scopes.tail })
  | some (.thrown (.flowReturn v) st) => some (.ok (some v) { st with scopes := st.scopes.tail })
  | some (.thrown t st) => some (.thrown t st)

/-- What `print` writes for the stringified arguments. -/
def printLine : List Str → Str
  | [] => ['\n']
  | [p] => p ++ ['\n']
  | p :: rest => p ++ ' ' :: printLine rest

mutual

/-- Embedding of `visitTest`. -/
def evalTest (F : FloatOps) : Nat → Test → Exec Value
| 0, _ => Exec.outOfFuel
| fuel + 1, .mk o => evalOrTest F fuel o

/-- Embedding of `visitOr_test`. -/
def evalOrTest (F : FloatOps) : Nat → OrTest → Exec Value
| 0, _ => Exec.outOfFuel
| fuel + 1, .mk xs => orLoop F fuel xs

/-- The loop of `visitOr_test` over the remaining `and_test` children. -/
def orLoop (F : FloatOps) : Nat → List AndTest → Exec Value
| 0, _ => Exec.outOfFuel
| _ + 1, [] => pure (.bool false)
| fuel + 1, x :: rest => do
    let v ← evalAndTest F fuel x
    if isTrue F v then pure v
    else
      match rest with
      | [] => pure v
      | _ :: _ => orLoop F fuel rest

/-- Embedding of `visitAnd_test`. -/
def evalAndTest (F : FloatOps) : Nat → AndTest → Exec Value
| 0, _ => Exec.outOfFuel
| fuel + 1, .mk xs => andLoop F fuel xs

/-- The loop of `visitAnd_test` over the remaining `not_test` children. -/
def andLoop (F : FloatOps) : Nat → List NotTest → Exec Value
| 0, _ => Exec.outOfFuel
| _ + 1, [] => pure (.bool true)
| fuel + 1, x :: rest => do
    let v ← evalNotTest F fuel x
    if !isTrue F v then pure v
    else
      match rest with
      | [] => pure v
      | _ :: _ => andLoop F fuel rest

/-- Embedding of `visitNot_test`. -/
def evalNotTest (F : FloatOps) : Nat → NotTest → Exec Value
| 0, _ => Exec.outOfFuel
| fuel + 1, .not x => do
    let v ← evalNotTest F fuel x
    pure (.bool (!isTrue F v))
| fuel + 1, .comparison c => evalComparison F fuel c

/-- Embedding of `visitComparison`. -/
def evalComparison (F : FloatOps) : Nat → Comparison → Exec Value
| 0, _ => Exec.outOfFuel
| fuel + 1, .mk first [] => evalArith F fuel first
| fuel + 1, .mk first (x :: rest) => compLoop F fuel first (x :: rest)

/-- The loop of `visitComparison`: `left` is `arith[i]`, the list holds `comp_op(i)` and
`arith[i + 1]` onwards. Both operands are visited in every round. -/
def compLoop (F : FloatOps) : Nat → ArithExpr → List (CompOp × ArithExpr) → Exec Value
| 0, _, _ => Exec.outOfFuel
| _ + 1, _, [] => pure (.bool true)
| fuel + 1, left, (op, right) :: rest => do
    let l ← evalArith F fuel left
    let r ← evalArith F fuel right
    if compareOp F op l r then compLoop F fuel right rest
    else pure (.bool false)

/-- Embedding of `visitArith_expr`. -/
def evalArith (F : FloatOps) : Nat → ArithExpr → Exec Value
| 0, _ => Exec.outOfFuel
| fuel + 1, .mk first rest => do
    let v ← evalTerm F fuel first
    arithLoop F fuel v rest

/-- The loop of `visitArith_expr`. -/
def arithLoop (F : FloatOps) : Nat → Value → List (Bool × Term) → Exec Value
| 0, _, _ => Exec.outOfFuel
| _ + 1, v, [] => pure v
| fuel + 1, v, (isSub, t) :: rest => do
    let r ← evalTerm F fuel t
    let v1 ← Exec.lift (arithOp F isSub v r)
    arithLoop F fuel v1 rest

/-- Embedding of `visitTerm`. -/
def evalTerm (F : FloatOps) : Nat → Term → Exec Value
| 0, _ => Exec.outOfFuel
| fuel + 1, .mk first rest => do
    let v ← evalFactor F fuel first
    termLoop F fuel v rest

/-- The loop of `visitTerm`. -/
def termLoop (F : FloatOps) : Nat → Value → List (MulOp × Factor) → Exec Value
| 0, _, _ => Exec.outOfFuel
| _ + 1, v, [] => pure v
| fuel + 1, v, (op, f) :: rest => do
    let r ← evalFactor F fuel f
    let v1 ← Exec.lift (termOp F op v r)
    termLoop F fuel v1 rest

/-- Embedding of `visitFactor`. -/
def evalFactor (F : FloatOps) : Nat → Factor → Exec Value
| 0, _ => Exec.outOfFuel
| fuel + 1, .minus f => do
    let v ← evalFactor F fuel f
    Exec.lift (negate F v)
| fuel + 1, .plus f => evalFactor F fuel f
| fuel + 1, .atomExpr a => do
    let r ← evalAtomExpr F fuel a
    match r with
    | some v => pure v
    | none => Exec.raise .badAnyCast

/-- Embedding of `visitAtom_expr`; `none` is a returned `nullptr`. -/
def evalAtomExpr (F : FloatOps) : Nat → AtomExpr → Exec (Option Value)
| 0, _ => Exec.outOfFuel
| fuel + 1, .mk atom none => do
    let v ← evalAtom F fuel atom
    pure (some v)
| fuel + 1, .mk atom (some args) => evalTrailer F fuel atom args

/-- Embedding of `visitTrailer`, for the atom of `currentAtomExpr` and the arguments of
the trailer; `none` is a returned `nullptr`. -/
def evalTrailer (F : FloatOps) : Nat → Atom → List Argument → Exec (Option Value)
| 0, _, _ => Exec.outOfFuel
| fuel + 1, .name funcName, args => do
    let st ← Exec.get
    match findFunc st.functions funcName with
    | none =>
        if funcName = "print" then do
          let parts ← printArgs F fuel args
          fun st1 => some (.ok (some .none) { st1 with out := st1.out ++ printLine parts })
        else if funcName = "int" then
          match args with
          | [] => Exec.raise .undefinedBehaviour
          | .mk t _ :: _ => do
              let v ← evalTest F fuel t
              let b ← Exec.lift (toInt F v)
              pure (some (.int b))
        else if funcName = "float" then
          match args with
          | [] => Exec.raise .undefinedBehaviour
          | .mk t _ :: _ => do
              let v ← evalTest F fuel t
              let d ← Exec.lift (toFloat F v)
              pure (some (.float d))
        else if funcName = "str" then
          match args with
          | [] => Exec.raise .undefinedBehaviour
          | .mk t _ :: _ => do
              let v ← evalTest F fuel t
              pure (some (.str (toStr F v)))
        else if funcName = "bool" then
          match args with
          | [] => Exec.raise .undefinedBehaviour
          | .mk t _ :: _ => do
              let v ← evalTest F fuel t
              pure (some (toBool F v))
        else pure none
    | some _ => do
        let (args1, kwargs) ← callArgs F fuel args [] []
        let st1 ← Exec.get
        match findFunc st1.functions funcName with
        | none => Exec.raise .undefinedBehaviour
        | some fd =>
            fun st2 =>
              callResult (execSuite F fuel fd.suite
                { st2 with scopes := bindParams fd.names fd.defaults args1 kwargs ([] :: st2.scopes) })
| _ + 1, _, _ => pure none

/-- The argument loop of `print` in `visitTrailer`: the stringified arguments. -/
def printArgs (F : FloatOps) : Nat → List Argument → Exec (List Str)
| 0, _ => Exec.outOfFuel
| _ + 1, [] => pure []
| fuel + 1, .mk t _ :: rest => do
    let v ← evalTest F fuel t
    let parts ← printArgs F fuel rest
    pure (toStr F v :: parts)

/-- The argument loop of a user-function call in `visitTrailer`, with the positional
list `args` and the keyword map `kwargs` built so far. -/
def callArgs (F : FloatOps) : Nat → List Argument → List Value → Frame →
  Exec (List Value × Frame)
| 0, _, _, _ => Exec.outOfFuel
| _ + 1, [], args, kwargs => pure (args, kwargs)
| fuel + 1, .mk t none :: rest, args, kwargs => do
    let v ← evalTest F fuel t
    callArgs F fuel rest (args ++ [v]) kwargs
| fuel + 1, .mk t (some t1) :: rest, args, kwargs =>
    match t.targetName with
    | none => Exec.raise .undefinedBehaviour
    | some name => do
        let v ← evalTest F fuel t1
        callArgs F fuel rest args (kwargs.set name v)

/-- Embedding of `visitAtom`. -/
def evalAtom (F : FloatOps) : Nat → Atom → Exec Value
| 0, _ => Exec.outOfFuel
| _ + 1, .name n => do
    let st ← Exec.get
    Exec.lift (getVar st.scopes n)
| _ + 1, .number text =>
    if text.contains '.' then
      match F.stod text with
      | some d => pure (.float d)
      | none => Exec.raise .stodError
    else pure (.int (BigInt.ofString text))
| _ + 1, .strings tokens => pure (.str (tokens.map stringToken).flatten)
| _ + 1, .none => pure .none
| _ + 1, .true => pure (.bool true)
| _ + 1, .false => pure (.bool false)
| fuel + 1, .paren t => evalTest F fuel t
| fuel + 1, .formatString parts => do
    let s ← formatLoop F fuel parts
    pure (.str s)

/-- The loop of `visitFormat_string` over the children of the node. -/
def formatLoop (F : FloatOps) : Nat → List FPart → Exec Str
| 0, _ => Exec.outOfFuel
| _ + 1, [] => pure []
| fuel + 1, .literal text :: rest => do
    let s ← formatLoop F fuel rest
    pure (appendFStrLiteral text ++ s)
| fuel + 1, .expr tl :: rest => do
    let v ← evalTestlist F fuel tl
    let s ← formatLoop F fuel rest
    pure (formatValue F v ++ s)

/-- Embedding of `visitTestlist`. -/
def evalTestlist (F : FloatOps) : Nat → Testlist → Exec Value
| 0, _ => Exec.outOfFuel
| fuel + 1, .mk [t] => evalTest F fuel t
| fuel + 1, .mk ts => do
    let vs ← evalTests F fuel ts
    pure (.tuple vs)

/-- The loop of `visitTestlist` (and of the default values in `visitFuncdef`). -/
def evalTests (F : FloatOps) : Nat → List Test → Exec (List Value)
| 0, _ => Exec.outOfFuel
| _ + 1, [] => pure []
| fuel + 1, t :: rest => do
    let v ← evalTest F fuel t
    let vs ← evalTests F fuel rest
    pure (v :: vs)

/-- Embedding of `visitSmall_stmt` with `visitExpr_stmt`, `visitFlow_stmt`,
`visitBreak_stmt`, `visitContinue_stmt` and `visitReturn_stmt`. -/
def execSmall (F : FloatOps) : Nat → SmallStmt → Exec Unit
| 0, _ => Exec.outOfFuel
| fuel + 1, .augAssign target op rhs =>
    match getSingleName target with
    | none => Exec.raise .undefinedBehaviour
    | some name =>
        if name = "" then pure ()
        else do
          let st ← Exec.get
          let left ← Exec.lift (getVar st.scopes name)
          let right ← evalTestlist F fuel rhs
          let res ← Exec.lift (augOp F op left right)
          let st1 ← Exec.get
          Exec.setScopes (setVar st1.scopes name res)
| fuel + 1, .exprStmt first [] => do
    let _ ← evalTestlist F fuel first
    pure ()
| fuel + 1, .exprStmt first (x :: rest) => do
    let rhs ← evalTestlist F fuel ((x :: rest).getLast (by simp))
    let rhsList := match rhs with
      | .tuple elts => elts
      | v => [v]
    let targets := ((first :: (x :: rest).dropLast).map Testlist.tests).flatten
    if targets.length = rhsList.length then do
      let st ← Exec.get
      match assignTargets targets rhsList st.scopes with
      | none => Exec.raise .undefinedBehaviour
      | some scopes => Exec.setScopes scopes
    else if targets.length = 1 ∧ rhsList.length = 1 then do
      let st ← Exec.get
      match getSingleName first with
      | none => Exec.raise .undefinedBehaviour
      | some name => Exec.setScopes (setVar st.scopes name (rhsList.headD .none))
    else pure ()
| _ + 1, .breakStmt => Exec.raise .flowBreak
| _ + 1, .continueStmt => Exec.raise .flowContinue
| _ + 1, .returnStmt none => Exec.raise (.flowReturn .none)
| fuel + 1, .returnStmt (some tl) => do
    let v ← evalTestlist F fuel tl
    Exec.raise (.flowReturn v)

/-- Embedding of `visitStmt` with `visitCompound_stmt` and `visitFuncdef`. -/
def execStmt (F : FloatOps) : Nat → Stmt → Exec Unit
| 0, _ => Exec.outOfFuel
| fuel + 1, .simple s => execSmall F fuel s
| fuel + 1, .ifStmt branches orelse => ifLoop F fuel branches orelse
| fuel + 1, .whileStmt test suite => whileLoop F fuel test suite
| fuel + 1, .funcdef name names defaults suite => do
    let vals ← evalTests F fuel defaults
    fun st => some (.ok () { st with functions := setFunc st.functions name ⟨names, vals, suite⟩ })

/-- Embedding of `visitIf_stmt`: the loop over the tests, then the `else` suite. -/
def ifLoop (F : FloatOps) : Nat → List (Test × Suite) → Option Suite → Exec Unit
| 0, _, _ => Exec.outOfFuel
| _ + 1, [], none => pure ()
| fuel + 1, [], some s => execSuite F fuel s
| fuel + 1, (t, s) :: rest, orelse => do
    let c ← evalTest F fuel t
    if isTrue F c then execSuite F fuel s
    else ifLoop F fuel rest orelse

/-- Embedding of `visitWhile_stmt`. A `FlowType` thrown by the suite is caught here;
the pair thrown by `return` is not. -/
def whileLoop (F : FloatOps) : Nat → Test → Suite → Exec Unit
| 0, _, _ => Exec.outOfFuel
| fuel + 1, test, suite => do
    let c ← evalTest F fuel test
    if !isTrue F c then pure ()
    else
      fun st =>
        match execSuite F fuel suite st with
        | none => none
        | some (.ok _ st1) => whileLoop F fuel test suite st1
        | some (.thrown .flowBreak st1) => some (.ok () st1)
        | some (.thrown .flowContinue st1) => whileLoop F fuel test suite st1
        | some (.thrown t st1) => some (.thrown t st1)

/-- Embedding of `visitSuite`. -/
def execSuite (F : FloatOps) : Nat → Suite → Exec Unit
| 0, _ => Exec.outOfFuel
| fuel + 1, .simple s => execSmall F fuel s
| fuel + 1, .block stmts => execStmts F fuel stmts

/-- The statement loops of `visitSuite` and `visitFile_input`. -/
def execStmts (F : FloatOps) : Nat → List Stmt → Exec Unit
| 0, _ => Exec.outOfFuel
| _ + 1, [] => pure ()
| fuel + 1, s :: rest => do
    execStmt F fuel s
    execStmts F fuel rest

end

/-- Embedding of `visitFile_input`: push the module scope, run the statements, pop. -/
def visitFile_input (F : FloatOps) (fuel : Nat) (stmts : List Stmt) : Exec Unit :=
  fun st =>
    match execStmts F fuel stmts { st with scopes := [] :: st.scopes } with
    | none => none
    | some (.ok _ st1) => some (.ok () { st1 with scopes := st1.scopes.tail })
    | some (.thrown t st1) => some (.thrown t st1)

/-! ## Building syntax trees -/

/-- The `test` whose only content is the given `arith_expr`. -/
def ArithExpr.toTest (a : ArithExpr) : Test := .mk (.mk [.mk [.comparison (.mk a [])]])

/-- The `term` whose only content is the given `atom_expr`. -/
def AtomExpr.toTerm (a : AtomExpr) : Term := .mk (.atomExpr a) []

/-- The `test` whose only content is the given `atom_expr`. -/
def AtomExpr.toTest (a : AtomExpr) : Test := ArithExpr.toTest (.mk a.toTerm [])

/-- The `atom_expr` of a bare name. -/
def nameA (n : String) : AtomExpr := .mk (.name n) none

/-- The `atom_expr` of an integer literal. -/
def numA (digits : String) : AtomExpr := .mk (.number digits.toList) none

/-- The `atom_expr` of the call `f(args)`. -/
def callA (f : String) (args : List Argument) : AtomExpr := .mk (.name f) (some args)

/-- The `test` of a bare name. -/
def nameT (n : String) : Test := (nameA n).toTest

/-- The `test` of an integer literal. -/
def numT (digits : String) : Test := (numA digits).toTest

/-- The `testlist` of a single `test`. -/
def Test.toTestlist (t : Test) : Testlist := .mk [t]

/-- A positional argument. -/
def posArg (t : Test) : Argument := .mk t none

/-- A keyword argument `name = t`. -/
def kwArg (name : String) (t : Test) : Argument := .mk (nameT name) (some t)

/-- The statement `name = t`. -/
def assignS (name : String) (t : Test) : SmallStmt :=
  .exprStmt (nameT name).toTestlist [t.toTestlist]

/-- The empty initial state of the evaluator. -/
def State.init : State := ⟨[], [], []⟩

/-- The integer bound to `name` in the innermost scope holding it, if any. -/
def State.getInt (st : State) (name : String) : Option BigInt :=
  match getVar st.scopes name with
  | .ok (.int b) => some b
  | _ => none

/-- The state a visitor ends in, when it ends. -/
def Res.state {α : Type} : Res α → State
  | .ok _ st => st
  | .thrown _ st => st

/-- The integer a visitor returns, when it returns one. -/
def Res.int? : Res Value → Option BigInt
  | .ok (.int b) _ => some b
  | _ => none

/-! ## Example programs -/

/-- The `test` of a bare atom. -/
def atomT (a : Atom) : Test := (AtomExpr.mk a none).toTest

/-- The expression statement `f(args)`. -/
def callS (f : String) (args : List Argument) : SmallStmt :=
  .exprStmt (callA f args).toTest.toTestlist []

/-- The state in which the statements of a file run: one empty module scope. -/
def State.module : State := ⟨[[]], [], []⟩

/-- The scopes a run of statements ends with, when it ends normally. -/
def scopesAfter (r : Option (Res Unit)) : Option (List Frame) :=
  match r with
  | some (.ok _ st) => some st.scopes
  | _ => none

/-- The integer value of `name` after a run of statements that ends normally. -/
def intAfter (r : Option (Res Unit)) (name : String) : Option BigInt :=
  match r with
  | some (.ok _ st) => st.getInt name
  | _ => none

/-- The program `x = 5`, `def f(x): return x`, `f(7)`. -/
def progParamClash : List Stmt :=
  [.simple (assignS "x" (numT "5")),
   Stmt.funcdef "f" ["x"] [] (.simple (.returnStmt (some (nameT "x").toTestlist))),
   .simple (callS "f" [posArg (numT "7")])]

/-- The program `x = 1`, `def f(): x = 2`, `f()`. -/
def progAssignOuter : List Stmt :=
  [.simple (assignS "x" (numT "1")),
   Stmt.funcdef "f" [] [] (.simple (assignS "x" (numT "2"))),
   .simple (callS "f" [])]

/-- The program `def f(a): return 1`. -/
def progMissingArg : List Stmt :=
  [ Stmt.funcdef "f" ["a"] [] (.simple (.returnStmt (some (numT "1").toTestlist)))]

/-- The program `def f(a, b=10, c=20): return a + b + c`. -/
def progDefaults : List Stmt :=
  [ Stmt.funcdef "f" ["a", "b", "c"] [numT "10", numT "20"]
    (.simple (.returnStmt (some (ArithExpr.toTest
      (.mk (nameA "a").toTerm
        [(false, (nameA "b").toTerm), (false, (nameA "c").toTerm)])).toTestlist)))]

/-- The integer returned by the call `f(args)` evaluated after the statements of `prog`
have run in the module scope. -/
def callAfter (F : FloatOps) (prog : List Stmt) (f : String) (args : List Argument) :
    Option BigInt :=
  match execStmts F 40 prog State.module with
  | some (.ok _ st) =>
      match evalTest F 40 (callA f args).toTest st with
      | some (.ok (.int b) _) => some b
      | _ => none
  | _ => none

/-- The program `def f(): break`, `while True: f()`. -/
def progBreakInCall : List Stmt :=
  [ Stmt.funcdef "f" [] [] (.simple .breakStmt),
   .whileStmt (atomT .true) (.simple (callS "f" []))]

/-- The statement `a = b = 5`. -/
def stmtChained : SmallStmt :=
  .exprStmt (nameT "a").toTestlist [(nameT "b").toTestlist, (numT "5").toTestlist]

/-! ## Example programs: comparisons, augmented assignment, conversions -/

/-- The `arith_expr` whose only content is the given `atom_expr`. -/
def AtomExpr.toArith (a : AtomExpr) : ArithExpr := .mk a.toTerm []

/-- The `atom_expr` of a bare atom. -/
def atomA (a : Atom) : AtomExpr := .mk a none

/-- The `atom_expr` of the string literal with the given text between double quotes. -/
def strA (s : String) : AtomExpr := .mk (.strings [('"' :: s.toList) ++ ['"']]) none

/-- The `test` of the comparison chain `first op1 e1 op2 e2 ...`. -/
def compareT (first : AtomExpr) (rest : List (CompOp × AtomExpr)) : Test :=
  .mk (.mk [.mk [.comparison (.mk first.toArith (rest.map fun p => (p.1, p.2.toArith)))]])

/-- The `test` of `a op b` for one `muldivmod_op`. -/
def termT (a : AtomExpr) (op : MulOp) (b : AtomExpr) : Test :=
  ArithExpr.toTest (.mk (.mk (.atomExpr a) [(op, .atomExpr b)]) [])

/-- The `test` of `a + b`. -/
def plusT (a b : AtomExpr) : Test := ArithExpr.toTest (.mk a.toTerm [(false, b.toTerm)])

/-- The value a visitor returns, when it returns. -/
def valueOf {α : Type} : Option (Res α) → Option α
  | some (.ok a _) => some a
  | _ => none

/-- What a run has written to standard output, when it ends normally. -/
def outAfter {α : Type} : Option (Res α) → Option Str
  | some (.ok _ st) => some st.out
  | _ => none

/-- The program `def g(): print(7); return 2` followed by the expression statement
`lo < g() < hi`. -/
def progChain (lo hi : String) : List Stmt :=
  [ Stmt.funcdef "g" [] []
      (.block [.simple (callS "print" [posArg (numT "7")]),
        .simple (.returnStmt (some (numT "2").toTestlist))]),
    .simple (.exprStmt (compareT (numA lo) [(.lt, callA "g" []), (.lt, numA hi)]).toTestlist [])]

/-- The program `x = 1`, `x += True`. -/
def progAugBool : List Stmt :=
  [.simple (assignS "x" (numT "1")),
   .simple (.augAssign (nameT "x").toTestlist .add (atomT .true).toTestlist)]

/-- Whether a value has the tag `Str`. -/
def Value.isStr : Value → Bool
  | .str _ => true
  | _ => false

/-- Whether a value is `None`. -/
def Value.isNone : Value → Bool
  | .none => true
  | _ => false

/-! ## Example programs: boolean operators -/

/-- The `not_test` whose only content is the given `atom_expr`. -/
def AtomExpr.toNotTest (a : AtomExpr) : NotTest := .comparison (.mk a.toArith [])

/-- The `and_test` whose only content is the given `atom_expr`. -/
def AtomExpr.toAndTest (a : AtomExpr) : AndTest := .mk [a.toNotTest]

/-- The `test` of `a or b`. -/
def orT (a b : AndTest) : Test := .mk (.mk [a, b])

/-- The `test` of `x and y`. -/
def andT (x y : NotTest) : Test := .mk (.mk [.mk [x, y]])

/-! ## Example programs: default values -/

/-- The program `def g(): print(7); return 1`, `def f(x=g()): return x`. -/
def progDefaultOnce : List Stmt :=
  [ Stmt.funcdef "g" [] []
      (.block [.simple (callS "print" [posArg (numT "7")]),
        .simple (.returnStmt (some (numT "1").toTestlist))]),
    Stmt.funcdef "f" ["x"] [(callA "g" []).toTest]
      (.simple (.returnStmt (some (nameT "x").toTestlist)))]

/-- The program `y = 1`, `def f(x=y): return x`, `y = 2`. -/
def progDefaultStale : List Stmt :=
  [.simple (assignS "y" (numT "1")),
    Stmt.funcdef "f" ["x"] [nameT "y"] (.simple (.returnStmt (some (nameT "x").toTestlist))),
   .simple (assignS "y" (numT "2"))]

/-! ## Example programs: tuple unpacking -/

/-- The statement `a, b = x, y` for two names and two tests. -/
def pairAssignS (a b : String) (x y : Test) : SmallStmt :=
  .exprStmt (.mk [nameT a, nameT b]) [.mk [x, y]]

/-- The program `a, b = 1, 2`, `a, b = b, a`. -/
def progSwap : List Stmt :=
  [.simple (pairAssignS "a" "b" (numT "1") (numT "2")),
   .simple (pairAssignS "a" "b" (nameT "b") (nameT "a"))]

/-! ## Format strings: the escaping of braces, and an example -/

/-- The text obtained from `s` by writing every brace twice, the escaping that
`appendFStrLiteral` undoes. -/
def doubleBraces : Str → Str
  | [] => []
  | c :: s => if c = '{' ∨ c = '}' then c :: c :: doubleBraces s else c :: doubleBraces s

/-- The expression `f"x={x}, y={{ok}}, b={x>1}"`. -/
def fstrExample : Test :=
  atomT (.formatString
    [.literal "x=".toList, .expr (nameT "x").toTestlist,
     .literal ", y=\x7b\x7bok\x7d\x7d, b=".toList,
     .expr (compareT (nameA "x") [(.gt, numA "1")]).toTestlist])

/-- The program `x = 3`, `print(f"x={x}, y={{ok}}, b={x>1}")`. -/
def progFstr : List Stmt :=
  [.simple (assignS "x" (numT "3")),
   .simple (callS "print" [posArg fstrExample])]

/-! ## Example programs: recursion -/

/-- The `test` of `a - b`. -/
def minusT (a b : AtomExpr) : Test := ArithExpr.toTest (.mk a.toTerm [(true, b.toTerm)])

/-- The body of `fact`: `if n <= 1: return 1` followed by `return n * fact(n-1)`. -/
def factBody : Suite :=
  .block
    [.ifStmt [(compareT (nameA "n") [(.le, numA "1")],
        .block [.simple (.returnStmt (some (numT "1").toTestlist))])] none,
     .simple (.returnStmt (some (termT (nameA "n") .star
        (callA "fact" [posArg (minusT (nameA "n") (numA "1"))])).toTestlist))]

/-- The program `def fact(n): ...` of the recursion example. -/
def progFact : List Stmt := [ Stmt.funcdef "fact" ["n"] [] factBody]

/-- The state after `def fact(n): ...` has run in the module scope. -/
def stateFact : State := ⟨[[]], [("fact", ⟨["n"], [], factBody⟩)], []⟩

/-- The program of the recursion example: `def fact(n): ...`, `print(fact(25))`. -/
def progFact25 : List Stmt :=
  progFact ++ [.simple (callS "print" [posArg (callA "fact" [posArg (numT "25")]).toTest])]

/-! # Theorems -/

/-! ## Digit characters -/

theorem dchar_toNat {n : Nat} (h : n < 10) : (dchar n).toNat = 48 + n := by
  have h10 : n = 0 ∨ n = 1 ∨ n = 2 ∨ n = 3 ∨ n = 4 ∨ n = 5 ∨ n = 6 ∨ n = 7 ∨ n = 8 ∨ n = 9 := by
    omega
  rcases h10 with h | h | h | h | h | h | h | h | h | h <;> subst h <;> rfl

theorem dval_dchar {n : Nat} (h : n < 10) : dval (dchar n) = n := by
  simp [dval, dchar_toNat h]

theorem dchar_dval {c : Char} (h : 48 ≤ c.toNat ∧ c.toNat ≤ 57) : dchar (dval c) = c := by
  unfold dchar dval
  have : 48 + (c.toNat - 48) = c.toNat := by omega
  rw [this, Char.ofNat_toNat]

theorem dval_lt {c : Char} (h : 48 ≤ c.toNat ∧ c.toNat ≤ 57) : dval c < 10 := by
  unfold dval; omega

theorem dval_zero : dval '0' = 0 := rfl

theorem eq_zero_of_dval {c : Char} (h : 48 ≤ c.toNat ∧ c.toNat ≤ 57) (h0 : dval c = 0) :
    c = '0' := by
  have := dchar_dval h
  rw [h0] at this
  exact this.symm

theorem char_eq_of_dval {c d : Char} (hc : 48 ≤ c.toNat ∧ c.toNat ≤ 57)
    (hd : 48 ≤ d.toNat ∧ d.toNat ≤ 57) (h : dval c = dval d) : c = d := by
  rw [← dchar_dval hc, ← dchar_dval hd, h]

theorem isDigits_nil : IsDigits [] := by
  intro c hc; simp at hc

theorem isDigits_cons {c : Char} {s : Str} :
    IsDigits (c :: s) ↔ (48 ≤ c.toNat ∧ c.toNat ≤ 57) ∧ IsDigits s := by
  simp [IsDigits]

theorem isDigits_append {s t : Str} : IsDigits (s ++ t) ↔ IsDigits s ∧ IsDigits t := by
  simp only [IsDigits, List.mem_append]
  constructor
  · intro h; exact ⟨fun c hc => h c (Or.inl hc), fun c hc => h c (Or.inr hc)⟩
  · rintro ⟨h1, h2⟩ c (hc | hc)
    · exact h1 c hc
    · exact h2 c hc

theorem isDigits_reverse {s : Str} : IsDigits s.reverse ↔ IsDigits s := by
  simp [IsDigits]

theorem isDigits_dchar {n : Nat} (h : n < 10) : IsDigits [dchar n] := by
  intro c hc
  simp at hc
  subst hc
  rw [dchar_toNat h]; omega

/-! ## The value of a digit string -/

theorem toNum_nil : toNum [] = 0 := rfl

theorem foldl_digits (s : Str) (n : Nat) :
    s.foldl (fun n c => 10 * n + dval c) n = n * 10 ^ s.length + toNum s := by
  induction s generalizing n with
  | nil => simp [toNum]
  | cons c s ih =>
    simp only [List.foldl_cons, List.length_cons, toNum]
    rw [ih, ih (10 * 0 + dval c)]
    ring

theorem toNum_cons (c : Char) (s : Str) : toNum (c :: s) = dval c * 10 ^ s.length + toNum s := by
  simp only [toNum, List.foldl_cons]
  rw [foldl_digits]
  simp [toNum]

theorem toNum_append (s t : Str) : toNum (s ++ t) = toNum s * 10 ^ t.length + toNum t := by
  simp only [toNum, List.foldl_append]
  rw [foldl_digits]
  simp [toNum]

theorem toNum_snoc (s : Str) (c : Char) : toNum (s ++ [c]) = 10 * toNum s + dval c := by
  rw [toNum_append, toNum_cons]; simp [toNum_nil]; ring

theorem toNum_lt {s : Str} (h : IsDigits s) : toNum s < 10 ^ s.length := by
  induction s with
  | nil => simp [toNum_nil]
  | cons c s ih =>
    rw [isDigits_cons] at h
    have h1 := dval_lt h.1
    have h2 := ih h.2
    rw [toNum_cons, List.length_cons, pow_succ]
    nlinarith

theorem toNum_single (c : Char) : toNum [c] = dval c := by
  simp [toNum]

/-- Little-endian value of a digit string (least significant digit first). -/
theorem toNum_reverse_cons (c : Char) (s : Str) :
    toNum (c :: s).reverse = 10 * toNum s.reverse + dval c := by
  rw [List.reverse_cons, toNum_snoc]

/-! ## trimZeros -/

namespace BigInt

theorem trimZeros_cons_zero (s : Str) : trimZeros ('0' :: s) = trimZeros s := by
  simp [trimZeros, List.dropWhile]

theorem trimZeros_cons_ne {c : Char} (s : Str) (h : c ≠ '0') : trimZeros (c :: s) = c :: s := by
  have hb : (c == '0') = false := by simpa using h
  simp only [trimZeros, List.dropWhile, hb]

theorem trimZeros_nil : trimZeros [] = ['0'] := rfl

theorem toNum_trimZeros (s : Str) : toNum (trimZeros s) = toNum s := by
  induction s with
  | nil => simp [trimZeros_nil, toNum_single, toNum_nil, dval_zero]
  | cons c s ih =>
    by_cases h : c = '0'
    · subst h
      rw [trimZeros_cons_zero, ih, toNum_cons, dval_zero]; simp
    · rw [trimZeros_cons_ne s h]

theorem canon_zero : Canon ['0'] := by
  refine ⟨by simp, ?_, fun _ => rfl⟩
  intro c hc; simp at hc; subst hc; decide

theorem canon_trimZeros {s : Str} (h : IsDigits s) : Canon (trimZeros s) := by
  induction s with
  | nil => exact canon_zero
  | cons c s ih =>
    by_cases hc : c = '0'
    · subst hc
      rw [trimZeros_cons_zero]
      exact ih (isDigits_cons.1 h).2
    · rw [trimZeros_cons_ne s hc]
      refine ⟨by simp, h, ?_⟩
      intro h0
      simp at h0
      exact absurd h0 hc

theorem trimZeros_of_canon {s : Str} (h : Canon s) : trimZeros s = s := by
  obtain ⟨hne, _, hz⟩ := h
  cases s with
  | nil => exact absurd rfl hne
  | cons c s =>
    by_cases hc : c = '0'
    · subst hc
      have := hz rfl
      rw [this]; rfl
    · exact trimZeros_cons_ne s hc

theorem canon_single {n : Nat} (h : n < 10) : Canon [dchar n] := by
  refine ⟨by simp, isDigits_dchar h, fun h0 => ?_⟩
  simp at h0
  rw [h0]

/-- A canonical string other than `"0"` starts with a non-zero digit. -/
theorem canon_pos {s : Str} (h : Canon s) (h0 : s ≠ ['0']) : 10 ^ (s.length - 1) ≤ toNum s := by
  obtain ⟨hne, hd, hz⟩ := h
  cases s with
  | nil => exact absurd rfl hne
  | cons c s =>
    have hc : c ≠ '0' := by
      intro hc; subst hc; exact h0 (hz rfl)
    have hdc := (isDigits_cons.1 hd).1
    have : dval c ≠ 0 := fun h => hc (eq_zero_of_dval hdc h)
    rw [toNum_cons]
    simp only [List.length_cons, Nat.add_sub_cancel]
    have : 1 ≤ dval c := Nat.one_le_iff_ne_zero.2 this
    nlinarith [Nat.pos_pow_of_pos s.length (by norm_num : 0 < 10)]

theorem canon_zero_iff {s : Str} (h : Canon s) : toNum s = 0 ↔ s = ['0'] := by
  constructor
  · intro h0
    by_contra hne
    have := canon_pos h hne
    have : 0 < 10 ^ (s.length - 1) := Nat.pos_pow_of_pos _ (by norm_num)
    omega
  · intro h0; subst h0; rfl

end BigInt

namespace BigInt

/-! ## compare -/

theorem compareLoop_spec : ∀ (a b : Str), a.length = b.length → IsDigits a → IsDigits b →
    (compareLoop a b = -1 ∧ toNum a < toNum b) ∨ (compareLoop a b = 0 ∧ a = b) ∨
      (compareLoop a b = 1 ∧ toNum b < toNum a)
  | [], [], _, _, _ => Or.inr (Or.inl ⟨rfl, rfl⟩)
  | [], _ :: _, h, _, _ => by simp at h
  | _ :: _, [], h, _, _ => by simp at h
  | x :: xs, y :: ys, h, ha, hb => by
    have hl : xs.length = ys.length := by simpa using h
    rw [isDigits_cons] at ha hb
    have hx := toNum_lt ha.2
    have hy := toNum_lt hb.2
    rw [hl] at hx
    by_cases hxy : x = y
    · subst hxy
      rcases compareLoop_spec xs ys hl ha.2 hb.2 with h1 | h1 | h1
      · left
        refine ⟨by simp [compareLoop, h1.1], ?_⟩
        rw [toNum_cons, toNum_cons, hl]; omega
      · right; left
        exact ⟨by simp [compareLoop, h1.1], by rw [h1.2]⟩
      · right; right
        refine ⟨by simp [compareLoop, h1.1], ?_⟩
        rw [toNum_cons, toNum_cons, hl]; omega
    · have hne : dval x ≠ dval y := fun h => hxy (char_eq_of_dval ha.1 hb.1 h)
      have hdx : dval x = x.toNat - 48 := rfl
      have hdy : dval y = y.toNat - 48 := rfl
      by_cases hlt : x.toNat < y.toNat
      · left
        refine ⟨by simp [compareLoop, hxy, hlt], ?_⟩
        rw [toNum_cons, toNum_cons, hl]
        have : dval x + 1 ≤ dval y := by omega
        nlinarith
      · right; right
        refine ⟨by simp [compareLoop, hxy, hlt], ?_⟩
        rw [toNum_cons, toNum_cons, hl]
        have : dval y + 1 ≤ dval x := by omega
        nlinarith

theorem canon_length_lt {a b : Str} (ha : Canon a) (hb : Canon b) (h : a.length < b.length) :
    toNum a < toNum b := by
  have h1 := toNum_lt ha.2.1
  have hb0 : b ≠ ['0'] := by
    intro h0; subst h0
    have : a = [] := by
      apply List.eq_nil_of_length_eq_zero
      simp only [List.length_singleton] at h; omega
    exact ha.1 this
  have h2 := canon_pos hb hb0
  have h3 : 10 ^ a.length ≤ 10 ^ (b.length - 1) :=
    Nat.pow_le_pow_right (by norm_num) (by omega)
  omega

/-- On canonical magnitudes `compare` decides the order of the denoted numbers. -/
theorem compare_spec {a b : Str} (ha : Canon a) (hb : Canon b) :
    (compare a b = -1 ∧ toNum a < toNum b) ∨ (compare a b = 0 ∧ a = b) ∨
      (compare a b = 1 ∧ toNum b < toNum a) := by
  unfold compare
  by_cases hl : a.length = b.length
  · simp only [hl, ne_eq, not_true_eq_false, if_false]
    exact compareLoop_spec a b hl ha.2.1 hb.2.1
  · simp only [ne_eq, hl, not_false_eq_true, if_true]
    by_cases hlt : a.length < b.length
    · left
      exact ⟨by simp [hlt], canon_length_lt ha hb hlt⟩
    · right; right
      exact ⟨by simp [hlt], canon_length_lt hb ha (by omega)⟩

theorem compare_lt_iff {a b : Str} (ha : Canon a) (hb : Canon b) :
    compare a b < 0 ↔ toNum a < toNum b := by
  rcases compare_spec ha hb with h | h | h
  · simp [h.1, h.2]
  · rw [h.1, h.2]; simp
  · rw [h.1]; simp; omega

theorem compare_eq_iff {a b : Str} (ha : Canon a) (hb : Canon b) :
    compare a b = 0 ↔ toNum a = toNum b := by
  rcases compare_spec ha hb with h | h | h
  · rw [h.1]; simp; omega
  · rw [h.1, h.2]; simp
  · rw [h.1]; simp; omega

theorem compare_gt_iff {a b : Str} (ha : Canon a) (hb : Canon b) :
    compare a b > 0 ↔ toNum b < toNum a := by
  rcases compare_spec ha hb with h | h | h
  · rw [h.1]; simp; omega
  · rw [h.1, h.2]; simp
  · rw [h.1]; simp; omega

theorem compare_ge_iff {a b : Str} (ha : Canon a) (hb : Canon b) :
    compare a b ≥ 0 ↔ toNum b ≤ toNum a := by
  rcases compare_spec ha hb with h | h | h
  · rw [h.1]; simp; omega
  · rw [h.1, h.2]; simp
  · rw [h.1]; simp; omega

/-- Canonical magnitudes denoting the same number are the same string. -/
theorem canon_inj {a b : Str} (ha : Canon a) (hb : Canon b) (h : toNum a = toNum b) : a = b := by
  rcases compare_spec ha hb with h1 | h1 | h1
  · omega
  · exact h1.2
  · omega

/-! ## add -/

theorem addCarry_spec : ∀ (fuel carry : Nat), carry ≤ fuel →
    IsDigits (addCarry fuel carry) ∧ toNum (addCarry fuel carry).reverse = carry
  | 0, carry, h => by
    have : carry = 0 := by omega
    subst this
    exact ⟨isDigits_nil, rfl⟩
  | fuel + 1, carry, h => by
    by_cases hc : carry = 0
    · subst hc
      simp only [addCarry, if_true]
      exact ⟨isDigits_nil, rfl⟩
    · simp only [addCarry, hc, if_false]
      have hlt : carry / 10 ≤ fuel := by omega
      obtain ⟨h1, h2⟩ := addCarry_spec fuel (carry / 10) hlt
      have hm : carry % 10 < 10 := Nat.mod_lt _ (by norm_num)
      refine ⟨isDigits_cons.2 ⟨?_, h1⟩, ?_⟩
      · rw [dchar_toNat hm]; omega
      · rw [toNum_reverse_cons, h2, dval_dchar hm]; omega

theorem addTail_spec : ∀ (ys : Str) (carry : Nat), IsDigits ys →
    IsDigits (addTail ys carry) ∧ toNum (addTail ys carry).reverse = toNum ys.reverse + carry
  | [], carry, _ => by
    obtain ⟨h1, h2⟩ := addCarry_spec carry carry (le_refl _)
    exact ⟨h1, by simp [addTail, h2, toNum_nil]⟩
  | y :: ys, carry, h => by
    rw [isDigits_cons] at h
    obtain ⟨h1, h2⟩ := addTail_spec ys ((carry + dval y) / 10) h.2
    have hm : (carry + dval y) % 10 < 10 := Nat.mod_lt _ (by norm_num)
    simp only [addTail]
    refine ⟨isDigits_cons.2 ⟨?_, h1⟩, ?_⟩
    · rw [dchar_toNat hm]; omega
    · rw [toNum_reverse_cons, toNum_reverse_cons, h2, dval_dchar hm]; omega

theorem addLoop_spec : ∀ (xs ys : Str) (carry : Nat), IsDigits xs → IsDigits ys →
    IsDigits (addLoop xs ys carry) ∧
      toNum (addLoop xs ys carry).reverse = toNum xs.reverse + toNum ys.reverse + carry
  | [], ys, carry, _, hy => by
    obtain ⟨h1, h2⟩ := addTail_spec ys carry hy
    exact ⟨h1, by simp [addLoop, h2, toNum_nil]⟩
  | x :: xs, [], carry, hx, hy => by
    rw [isDigits_cons] at hx
    obtain ⟨h1, h2⟩ := addLoop_spec xs [] ((carry + dval x) / 10) hx.2 hy
    have hm : (carry + dval x) % 10 < 10 := Nat.mod_lt _ (by norm_num)
    simp only [addLoop]
    refine ⟨isDigits_cons.2 ⟨?_, h1⟩, ?_⟩
    · rw [dchar_toNat hm]; omega
    · rw [toNum_reverse_cons, toNum_reverse_cons, h2, dval_dchar hm]
      simp only [List.reverse_nil, toNum_nil]; omega
  | x :: xs, y :: ys, carry, hx, hy => by
    rw [isDigits_cons] at hx hy
    obtain ⟨h1, h2⟩ := addLoop_spec xs ys ((carry + dval x + dval y) / 10) hx.2 hy.2
    have hm : (carry + dval x + dval y) % 10 < 10 := Nat.mod_lt _ (by norm_num)
    simp only [addLoop]
    refine ⟨isDigits_cons.2 ⟨?_, h1⟩, ?_⟩
    · rw [dchar_toNat hm]; omega
    · rw [toNum_reverse_cons, toNum_reverse_cons, toNum_reverse_cons, h2, dval_dchar hm]; omega

/-- Magnitude addition is exact and returns a canonical string. -/
theorem add_spec {a b : Str} (ha : IsDigits a) (hb : IsDigits b) :
    Canon (add a b) ∧ toNum (add a b) = toNum a + toNum b := by
  obtain ⟨h1, h2⟩ := addLoop_spec a.reverse b.reverse 0 (isDigits_reverse.2 ha)
    (isDigits_reverse.2 hb)
  unfold add
  refine ⟨canon_trimZeros (isDigits_reverse.2 h1), ?_⟩
  rw [toNum_trimZeros, h2]
  simp

/-! ## sub -/

theorem subLoop_spec : ∀ (xs ys : Str) (borrow : Int), IsDigits xs → IsDigits ys →
    (borrow = 0 ∨ borrow = 1) →
    (toNum ys.reverse : Int) + borrow ≤ (toNum xs.reverse : Int) →
    IsDigits (subLoop xs ys borrow) ∧
      (toNum (subLoop xs ys borrow).reverse : Int) + (toNum ys.reverse : Int) + borrow
        = (toNum xs.reverse : Int)
  | [], ys, borrow, _, _, hb, hle => by
    simp only [subLoop]
    refine ⟨isDigits_nil, ?_⟩
    simp only [List.reverse_nil, toNum_nil] at hle ⊢
    omega
  | x :: xs, [], borrow, hx, hy, hb, hle => by
    rw [isDigits_cons] at hx
    have hdx := dval_lt hx.1
    simp only [List.reverse_nil, toNum_nil] at hle ⊢
    rw [toNum_reverse_cons] at hle ⊢
    simp only [subLoop, List.tail_nil]
    by_cases hd : (dval x : Int) - borrow < 0
    · simp only [hd, if_true]
      have hle2 : (toNum ([] : Str).reverse : Int) + 1 ≤ (toNum xs.reverse : Int) := by
        simp only [List.reverse_nil, toNum_nil]; push_cast at hle ⊢; omega
      obtain ⟨h1, h2⟩ := subLoop_spec xs [] 1 hx.2 isDigits_nil (Or.inr rfl) hle2
      have hm : ((dval x : Int) - borrow + 10).toNat < 10 := by omega
      refine ⟨isDigits_cons.2 ⟨?_, h1⟩, ?_⟩
      · rw [dchar_toNat hm]; omega
      · rw [toNum_reverse_cons, dval_dchar hm]
        simp only [List.reverse_nil, toNum_nil] at h2
        push_cast at h2 ⊢; omega
    · simp only [hd, if_false]
      have hle2 : (toNum ([] : Str).reverse : Int) + 0 ≤ (toNum xs.reverse : Int) := by
        simp only [List.reverse_nil, toNum_nil]; push_cast at hle ⊢; omega
      obtain ⟨h1, h2⟩ := subLoop_spec xs [] 0 hx.2 isDigits_nil (Or.inl rfl) hle2
      have hm : ((dval x : Int) - borrow).toNat < 10 := by omega
      refine ⟨isDigits_cons.2 ⟨?_, h1⟩, ?_⟩
      · rw [dchar_toNat hm]; omega
      · rw [toNum_reverse_cons, dval_dchar hm]
        simp only [List.reverse_nil, toNum_nil] at h2
        push_cast at h2 ⊢; omega
  | x :: xs, y :: ys, borrow, hx, hy, hb, hle => by
    rw [isDigits_cons] at hx hy
    have hdx := dval_lt hx.1
    have hdy := dval_lt hy.1
    rw [toNum_reverse_cons, toNum_reverse_cons] at hle
    rw [toNum_reverse_cons (c := y), toNum_reverse_cons (c := x)]
    simp only [subLoop, List.tail_cons]
    by_cases hd : (dval x : Int) - borrow - (dval y : Int) < 0
    · simp only [hd, if_true]
      have hle2 : (toNum ys.reverse : Int) + 1 ≤ (toNum xs.reverse : Int) := by
        push_cast at hle; omega
      obtain ⟨h1, h2⟩ := subLoop_spec xs ys 1 hx.2 hy.2 (Or.inr rfl) hle2
      have hm : ((dval x : Int) - borrow - (dval y : Int) + 10).toNat < 10 := by omega
      refine ⟨isDigits_cons.2 ⟨?_, h1⟩, ?_⟩
      · rw [dchar_toNat hm]; omega
      · rw [toNum_reverse_cons, dval_dchar hm]
        push_cast at h2 ⊢; omega
    · simp only [hd, if_false]
      have hle2 : (toNum ys.reverse : Int) + 0 ≤ (toNum xs.reverse : Int) := by
        push_cast at hle; omega
      obtain ⟨h1, h2⟩ := subLoop_spec xs ys 0 hx.2 hy.2 (Or.inl rfl) hle2
      have hm : ((dval x : Int) - borrow - (dval y : Int)).toNat < 10 := by omega
      refine ⟨isDigits_cons.2 ⟨?_, h1⟩, ?_⟩
      · rw [dchar_toNat hm]; omega
      · rw [toNum_reverse_cons, dval_dchar hm]
        push_cast at h2 ⊢; omega

/-- Magnitude subtraction is exact when the first operand is not smaller. -/
theorem sub_spec {a b : Str} (ha : Canon a) (hb : Canon b) (h : toNum b ≤ toNum a) :
    Canon (sub a b) ∧ toNum (sub a b) + toNum b = toNum a := by
  have hc : ¬ compare a b < 0 := by
    rw [compare_lt_iff ha hb]; omega
  obtain ⟨h1, h2⟩ := subLoop_spec a.reverse b.reverse 0 (isDigits_reverse.2 ha.2.1)
    (isDigits_reverse.2 hb.2.1) (Or.inl rfl) (by simp; exact h)
  unfold sub
  simp only [hc, if_false]
  refine ⟨canon_trimZeros (isDigits_reverse.2 h1), ?_⟩
  rw [toNum_trimZeros]
  simp only [List.reverse_reverse] at h2
  omega

end BigInt

namespace BigInt

/-! ## mul -/

theorem addAt_length : ∀ (v : List Nat) (k x : Nat), (addAt v k x).length = v.length
  | [], _, _ => rfl
  | _ :: _, 0, _ => rfl
  | c :: cs, k + 1, x => by simp [addAt, addAt_length cs k x]

theorem cellsVal_addAt : ∀ (v : List Nat) (k x : Nat), k < v.length →
    cellsVal (addAt v k x) = cellsVal v + x * 10 ^ (v.length - 1 - k)
  | [], _, _, h => by simp at h
  | c :: cs, 0, x, _ => by
    simp only [addAt, cellsVal, List.length_cons, Nat.add_sub_cancel, Nat.sub_zero]
    ring
  | c :: cs, k + 1, x, h => by
    have hk : k < cs.length := by simpa using h
    simp only [addAt, cellsVal, addAt_length, List.length_cons, Nat.add_sub_cancel]
    rw [cellsVal_addAt cs k x hk]
    have : cs.length - (k + 1) = cs.length - 1 - k := by omega
    rw [this]; ring

theorem getD_addAt_ne : ∀ (v : List Nat) (k x m : Nat), m ≠ k →
    (addAt v k x).getD m 0 = v.getD m 0
  | [], _, _, _, _ => rfl
  | _ :: _, 0, _, 0, h => absurd rfl h
  | _ :: _, 0, _, _ + 1, _ => rfl
  | _ :: _, _ + 1, _, 0, _ => rfl
  | _ :: cs, k + 1, x, m + 1, h => by
    have := getD_addAt_ne cs k x m (by omega)
    simpa [addAt] using this

theorem set_length_nat (v : List Nat) (k y : Nat) : (v.set k y).length = v.length := by
  simp

theorem cellsVal_set : ∀ (v : List Nat) (k y : Nat), k < v.length →
    cellsVal (v.set k y) + v.getD k 0 * 10 ^ (v.length - 1 - k)
      = cellsVal v + y * 10 ^ (v.length - 1 - k)
  | [], _, _, h => by simp at h
  | c :: cs, 0, y, _ => by
    simp only [List.set, cellsVal, List.length_cons, Nat.add_sub_cancel, Nat.sub_zero,
      List.getD_cons_zero]
    ring
  | c :: cs, k + 1, y, h => by
    have hk : k < cs.length := by simpa using h
    have ih := cellsVal_set cs k y hk
    simp only [List.set, cellsVal, List.length_set, List.length_cons, Nat.add_sub_cancel,
      List.getD_cons_succ]
    have : cs.length - (k + 1) = cs.length - 1 - k := by omega
    rw [this]
    linarith

theorem getD_set_eq : ∀ (v : List Nat) (k y : Nat), k < v.length → (v.set k y).getD k 0 = y
  | [], _, _, h => by simp at h
  | _ :: _, 0, _, _ => rfl
  | _ :: cs, k + 1, y, h => by
    have := getD_set_eq cs k y (by simpa using h)
    simpa [List.set] using this

theorem getD_set_ne : ∀ (v : List Nat) (k y m : Nat), m ≠ k → (v.set k y).getD m 0 = v.getD m 0
  | [], _, _, _, _ => rfl
  | _ :: _, 0, _, 0, h => absurd rfl h
  | _ :: _, 0, _, _ + 1, _ => rfl
  | _ :: _, _ + 1, _, 0, _ => rfl
  | _ :: cs, k + 1, y, m + 1, h => by
    have := getD_set_ne cs k y m (by omega)
    simpa [List.set] using this

theorem cellsVal_replicate (n : Nat) : cellsVal (List.replicate n 0) = 0 := by
  induction n with
  | zero => rfl
  | succ n ih => simp [List.replicate, cellsVal, ih]

theorem mulRow_spec (ai i : Nat) : ∀ (ys : Str) (j : Nat) (v : List Nat),
    i + j + ys.length < v.length →
    (mulRow ai i ys j v).length = v.length ∧
      cellsVal (mulRow ai i ys j v)
        = cellsVal v + ai * toNum ys * 10 ^ (v.length - 1 - (i + j + ys.length))
  | [], j, v, _ => by simp [mulRow, toNum_nil]
  | y :: ys, j, v, h => by
    simp only [List.length_cons] at h
    have hk : i + j + 1 < v.length := by omega
    obtain ⟨h1, h2⟩ := mulRow_spec ai i ys (j + 1) (addAt v (i + j + 1) (ai * dval y))
      (by rw [addAt_length]; omega)
    rw [addAt_length] at h1 h2
    simp only [mulRow]
    refine ⟨h1, ?_⟩
    rw [h2, cellsVal_addAt v _ _ hk, toNum_cons, List.length_cons]
    have e1 : v.length - 1 - (i + j + 1) = ys.length + (v.length - 1 - (i + (j + 1) + ys.length)) := by
      omega
    have e2 : v.length - 1 - (i + j + (ys.length + 1)) = v.length - 1 - (i + (j + 1) + ys.length) := by
      omega
    rw [e1, e2, pow_add]
    ring

theorem mulRows_spec (b : Str) : ∀ (xs : Str) (i : Nat) (v : List Nat),
    i + xs.length + b.length ≤ v.length →
    (mulRows b xs i v).length = v.length ∧
      cellsVal (mulRows b xs i v)
        = cellsVal v + toNum xs * toNum b * 10 ^ (v.length - (i + xs.length + b.length))
  | [], i, v, _ => by simp [mulRows, toNum_nil]
  | x :: xs, i, v, h => by
    simp only [List.length_cons] at h
    obtain ⟨r1, r2⟩ := mulRow_spec (dval x) i b 0 v (by omega)
    obtain ⟨h1, h2⟩ := mulRows_spec b xs (i + 1) (mulRow (dval x) i b 0 v) (by rw [r1]; omega)
    rw [r1] at h1 h2
    simp only [mulRows]
    refine ⟨h1, ?_⟩
    rw [h2, r2, toNum_cons, List.length_cons]
    have e1 : v.length - 1 - (i + 0 + b.length)
        = xs.length + (v.length - (i + 1 + xs.length + b.length)) := by omega
    have e2 : v.length - (i + (xs.length + 1) + b.length)
        = v.length - (i + 1 + xs.length + b.length) := by omega
    rw [e1, e2, pow_add]
    ring

theorem mulCarry_spec : ∀ (k : Nat) (v : List Nat), k < v.length →
    (∀ m, k < m → m < v.length → v.getD m 0 < 10) →
    (mulCarry k v).length = v.length ∧ cellsVal (mulCarry k v) = cellsVal v ∧
      ∀ m, 0 < m → m < v.length → (mulCarry k v).getD m 0 < 10
  | 0, v, _, hv => ⟨rfl, rfl, fun m hm hl => hv m hm hl⟩
  | k + 1, v, hk, hv => by
    have hlen : ((addAt v k (v.getD (k + 1) 0 / 10)).set (k + 1) (v.getD (k + 1) 0 % 10)).length
        = v.length := by simp [addAt_length]
    have hval : cellsVal ((addAt v k (v.getD (k + 1) 0 / 10)).set (k + 1) (v.getD (k + 1) 0 % 10))
        = cellsVal v := by
      have h1 := cellsVal_set (addAt v k (v.getD (k + 1) 0 / 10)) (k + 1) (v.getD (k + 1) 0 % 10)
        (by rw [addAt_length]; exact hk)
      rw [getD_addAt_ne v k _ (k + 1) (by omega), addAt_length,
        cellsVal_addAt v k _ (by omega)] at h1
      have e : v.length - 1 - k = (v.length - 1 - (k + 1)) + 1 := by omega
      rw [e, pow_succ] at h1
      have hdm := Nat.div_add_mod (v.getD (k + 1) 0) 10
      generalize v.getD (k + 1) 0 = c at h1 hdm
      generalize 10 ^ (v.length - 1 - (k + 1)) = w at h1
      generalize c / 10 = cq at h1 hdm
      generalize c % 10 = cr at h1 hdm
      subst hdm
      nlinarith
    obtain ⟨h1, h2, h3⟩ := mulCarry_spec k
      ((addAt v k (v.getD (k + 1) 0 / 10)).set (k + 1) (v.getD (k + 1) 0 % 10))
      (by rw [hlen]; omega)
      (by
        intro m hm hl
        by_cases hmk : m = k + 1
        · subst hmk
          rw [getD_set_eq _ _ _ (by rw [addAt_length]; exact hk)]
          exact Nat.mod_lt _ (by norm_num)
        · rw [getD_set_ne _ _ _ _ hmk, getD_addAt_ne _ _ _ _ (by omega)]
          rw [hlen] at hl
          exact hv m (by omega) hl)
    simp only [mulCarry]
    rw [hlen] at h1 h3
    exact ⟨h1, by rw [h2, hval], h3⟩

theorem cellsVal_lt : ∀ (v : List Nat), (∀ x ∈ v, x < 10) → cellsVal v < 10 ^ v.length
  | [], _ => by simp [cellsVal]
  | x :: v, h => by
    have hx : x < 10 := h x (by simp)
    have ih := cellsVal_lt v (fun y hy => h y (by simp [hy]))
    simp only [cellsVal, List.length_cons, pow_succ]
    nlinarith

theorem map_dchar_spec : ∀ (v : List Nat), (∀ x ∈ v, x < 10) →
    IsDigits (v.map dchar) ∧ toNum (v.map dchar) = cellsVal v
  | [], _ => ⟨isDigits_nil, rfl⟩
  | x :: v, h => by
    have hx : x < 10 := h x (by simp)
    obtain ⟨h1, h2⟩ := map_dchar_spec v (fun y hy => h y (by simp [hy]))
    simp only [List.map_cons]
    refine ⟨isDigits_cons.2 ⟨by rw [dchar_toNat hx]; omega, h1⟩, ?_⟩
    rw [toNum_cons, h2, dval_dchar hx]
    simp [cellsVal]

theorem mem_lt_of_getD : ∀ (v : List Nat), (∀ m, m < v.length → v.getD m 0 < 10) →
    ∀ x ∈ v, x < 10
  | [], _, x, hx => by simp at hx
  | y :: v, h, x, hx => by
    rcases List.mem_cons.1 hx with hx | hx
    · subst hx
      exact h 0 (by simp)
    · exact mem_lt_of_getD v (fun m hm => by
        have := h (m + 1) (by simpa using hm)
        simpa using this) x hx

theorem dchar_ne_zero {x : Nat} (hx : x < 10) (h0 : x ≠ 0) : dchar x ≠ '0' := by
  intro h
  have := dval_dchar hx
  rw [h, dval_zero] at this
  exact h0 this.symm

/-- Magnitude multiplication is exact and returns a canonical string. -/
theorem mul_spec {a b : Str} (ha : Canon a) (hb : Canon b) :
    Canon (mul a b) ∧ toNum (mul a b) = toNum a * toNum b := by
  unfold mul
  by_cases h0 : a = ['0'] ∨ b = ['0']
  · simp only [h0, if_true]
    refine ⟨canon_zero, ?_⟩
    rcases h0 with h | h <;> subst h <;> simp [toNum_single, dval_zero]
  · simp only [h0, if_false]
    push_neg at h0
    have hA := canon_pos ha h0.1
    have hB := canon_pos hb h0.2
    have hAlt := toNum_lt ha.2.1
    have hBlt := toNum_lt hb.2.1
    have hla : 1 ≤ a.length := List.length_pos.2 ha.1
    have hlb : 1 ≤ b.length := List.length_pos.2 hb.1
    obtain ⟨r1, r2⟩ := mulRows_spec b a 0 (List.replicate (a.length + b.length) 0) (by simp)
    simp only [List.length_replicate, cellsVal_replicate, Nat.zero_add, Nat.sub_self, pow_zero,
      Nat.mul_one] at r1 r2
    obtain ⟨c1, c2, c3⟩ := mulCarry_spec (a.length + b.length - 1)
      (mulRows b a 0 (List.replicate (a.length + b.length) 0)) (by rw [r1]; omega)
      (by intro m hm hl; rw [r1] at hl; omega)
    rw [r1] at c1 c3 ⊢
    rw [r2] at c2
    generalize mulCarry (a.length + b.length - 1)
      (mulRows b a 0 (List.replicate (a.length + b.length) 0)) = v at c1 c2 c3 ⊢
    have hprod_lt : toNum a * toNum b < 10 ^ (a.length + b.length) := by
      rw [pow_add]; exact Nat.mul_lt_mul'' hAlt hBlt
    have hprod_ge : 10 ^ (a.length + b.length - 2) ≤ toNum a * toNum b := by
      have : a.length + b.length - 2 = (a.length - 1) + (b.length - 1) := by omega
      rw [this, pow_add]; exact Nat.mul_le_mul hA hB
    match v, c1, c2, c3 with
    | [], c1, _, _ => simp at c1; omega
    | [x], c1, _, _ => simp at c1; omega
    | x :: y :: rest, c1, c2, c3 =>
      have hlen : rest.length + 2 = a.length + b.length := by simpa using c1
      have htail : ∀ z ∈ y :: rest, z < 10 := by
        apply mem_lt_of_getD
        intro m hm
        have := c3 (m + 1) (by omega) (by simp at hm; omega)
        simpa using this
      have hy : y < 10 := htail y (by simp)
      have hrest : ∀ z ∈ rest, z < 10 := fun z hz => htail z (by simp [hz])
      have hvt := cellsVal_lt (y :: rest) htail
      have hvr := cellsVal_lt rest hrest
      simp only [cellsVal, List.length_cons] at c2 hvt
      have hx : x < 10 := by
        by_contra hx
        have hx' : 10 ≤ x := by omega
        have : 10 ^ (a.length + b.length) ≤ x * 10 ^ (rest.length + 1) := by
          rw [← hlen, pow_succ (n := rest.length + 1)]
          rw [Nat.mul_comm]; exact Nat.mul_le_mul_right _ hx'
        omega
      by_cases hx0 : x = 0
      · subst hx0
        simp only [List.getD_cons_zero, if_true, List.drop_succ_cons, List.drop_zero]
        obtain ⟨d1, d2⟩ := map_dchar_spec (y :: rest) htail
        refine ⟨⟨by simp, d1, ?_⟩, ?_⟩
        · intro hh
          exfalso
          simp only [List.map_cons, List.head?_cons, Option.some.injEq] at hh
          have hy0 : y = 0 := by
            by_contra hy0
            exact dchar_ne_zero hy hy0 hh
          subst hy0
          have : a.length + b.length - 2 = rest.length := by omega
          rw [this] at hprod_ge
          omega
        · rw [d2]
          simp only [cellsVal, List.length_cons]
          omega
      · simp only [List.getD_cons_zero, hx0, if_false]
        have hall : ∀ z ∈ x :: y :: rest, z < 10 := by
          intro z hz
          rcases List.mem_cons.1 hz with hz | hz
          · rw [hz]; exact hx
          · exact htail z hz
        obtain ⟨d1, d2⟩ := map_dchar_spec (x :: y :: rest) hall
        refine ⟨⟨by simp, d1, ?_⟩, ?_⟩
        · intro hh
          exfalso
          simp only [List.map_cons, List.head?_cons, Option.some.injEq] at hh
          exact dchar_ne_zero hx hx0 hh
        · rw [d2]
          simp only [cellsVal, List.length_cons]
          omega

end BigInt

namespace BigInt

/-! ## divmod -/

theorem divDigit_spec {b : Str} (hb : Canon b) : ∀ (k : Nat) (r : Str), Canon r → k ≤ 9 →
    toNum r < (k + 1) * toNum b →
    (divDigit r b k).1 ≤ k ∧ Canon (divDigit r b k).2 ∧
      toNum (divDigit r b k).2 + (divDigit r b k).1 * toNum b = toNum r ∧
      toNum (divDigit r b k).2 < toNum b
  | 0, r, hr, _, hlt => by
    obtain ⟨m1, m2⟩ := mul_spec hb (canon_single (by norm_num : 0 < 10))
    rw [toNum_single, dval_dchar (by norm_num : 0 < 10)] at m2
    have hge : compare r (mul b [dchar 0]) ≥ 0 := by
      rw [compare_ge_iff hr m1, m2]; omega
    obtain ⟨s1, s2⟩ := sub_spec hr m1 (by rw [m2]; omega)
    simp only [divDigit, hge, if_true]
    rw [m2] at s2
    refine ⟨le_refl _, s1, by omega, by omega⟩
  | k + 1, r, hr, hk, hlt => by
    have hk10 : k + 1 < 10 := by omega
    obtain ⟨m1, m2⟩ := mul_spec hb (canon_single hk10)
    rw [toNum_single, dval_dchar hk10] at m2
    by_cases hge : compare r (mul b [dchar (k + 1)]) ≥ 0
    · simp only [divDigit, hge, if_true]
      have hle := (compare_ge_iff hr m1).1 hge
      obtain ⟨s1, s2⟩ := sub_spec hr m1 hle
      rw [m2] at s2 hle
      refine ⟨le_refl _, s1, ?_, ?_⟩
      · rw [Nat.mul_comm]; exact s2
      · have : (k + 1 + 1) * toNum b = toNum b * (k + 1) + toNum b := by ring
        omega
    · simp only [divDigit, hge, if_false]
      have hlt2 : toNum r < (k + 1) * toNum b := by
        rw [compare_ge_iff hr m1, m2] at hge
        rw [Nat.mul_comm]; omega
      obtain ⟨h1, h2, h3, h4⟩ := divDigit_spec hb k r hr (by omega) hlt2
      exact ⟨by omega, h2, h3, h4⟩

theorem divLoop_spec {b : Str} (hb : Canon b) : ∀ (cs q r : Str), IsDigits cs → IsDigits q →
    IsDigits r → toNum r < toNum b →
    IsDigits (divLoop b cs q r).1 ∧ IsDigits (divLoop b cs q r).2 ∧
      toNum (divLoop b cs q r).2 < toNum b ∧
      toNum (divLoop b cs q r).1 * toNum b + toNum (divLoop b cs q r).2
        = (toNum q * toNum b + toNum r) * 10 ^ cs.length + toNum cs
  | [], q, r, _, hq, hr, hlt => by
    simp only [divLoop, List.length_nil, pow_zero, Nat.mul_one, toNum_nil, Nat.add_zero]
    exact ⟨hq, hr, hlt, trivial⟩
  | c :: cs, q, r, hcs, hq, hr, hlt => by
    rw [isDigits_cons] at hcs
    have hdc := dval_lt hcs.1
    have hr1d : IsDigits (r ++ [c]) := isDigits_append.2 ⟨hr, isDigits_cons.2 ⟨hcs.1, isDigits_nil⟩⟩
    have hr1 : Canon (trimZeros (r ++ [c])) := canon_trimZeros hr1d
    have hv1 : toNum (trimZeros (r ++ [c])) = 10 * toNum r + dval c := by
      rw [toNum_trimZeros, toNum_snoc]
    obtain ⟨d1, d2, d3, d4⟩ := divDigit_spec hb 9 (trimZeros (r ++ [c])) hr1 (le_refl _)
      (by rw [hv1]; omega)
    have hd10 : (divDigit (trimZeros (r ++ [c])) b 9).1 < 10 := by omega
    have hq2 : IsDigits (q ++ [dchar (divDigit (trimZeros (r ++ [c])) b 9).1]) :=
      isDigits_append.2 ⟨hq, isDigits_dchar hd10⟩
    obtain ⟨i1, i2, i3, i4⟩ := divLoop_spec hb cs
      (q ++ [dchar (divDigit (trimZeros (r ++ [c])) b 9).1])
      (divDigit (trimZeros (r ++ [c])) b 9).2 hcs.2 hq2 d2.2.1 d4
    simp only [divLoop]
    refine ⟨i1, i2, i3, ?_⟩
    rw [i4, toNum_snoc, dval_dchar hd10, toNum_cons, List.length_cons, pow_succ]
    rw [hv1] at d3
    generalize toNum (divDigit (trimZeros (r ++ [c])) b 9).2 = r2 at d3
    generalize (divDigit (trimZeros (r ++ [c])) b 9).1 = d at d3
    have e : (10 * toNum q + d) * toNum b + r2 = 10 * (toNum q * toNum b + toNum r) + dval c := by
      have : (10 * toNum q + d) * toNum b = 10 * (toNum q * toNum b) + d * toNum b := by ring
      omega
    rw [e]; ring

/-- Long division of canonical magnitudes: with a non-zero divisor `divmod` returns the
canonical quotient and remainder of the denoted numbers. -/
theorem divmod_spec {a b : Str} (ha : Canon a) (hb : Canon b) (hb0 : b ≠ ['0']) :
    ∃ q r, divmod a b = some (q, r) ∧ Canon q ∧ Canon r ∧
      toNum q = toNum a / toNum b ∧ toNum r = toNum a % toNum b := by
  have hBpos : 0 < toNum b := by
    have := canon_pos hb hb0
    have : 0 < 10 ^ (b.length - 1) := Nat.pos_pow_of_pos _ (by norm_num)
    omega
  unfold divmod
  simp only [hb0, if_false]
  by_cases h1 : compare a b < 0
  · simp only [h1, if_true]
    rw [compare_lt_iff ha hb] at h1
    exact ⟨['0'], a, rfl, canon_zero, ha, by rw [Nat.div_eq_of_lt h1]; rfl,
      (Nat.mod_eq_of_lt h1).symm⟩
  · simp only [h1, if_false]
    by_cases h2 : compare a b = 0
    · simp only [h2, if_true]
      rw [compare_eq_iff ha hb] at h2
      refine ⟨['1'], ['0'], rfl, canon_single (by norm_num : 1 < 10), canon_zero, ?_, ?_⟩
      · rw [h2, Nat.div_self hBpos]; rfl
      · rw [h2, Nat.mod_self]; rfl
    · simp only [h2, if_false]
      obtain ⟨i1, i2, i3, i4⟩ := divLoop_spec hb a [] [] ha.2.1 isDigits_nil isDigits_nil
        (by simpa [toNum_nil] using hBpos)
      simp only [toNum_nil, Nat.zero_mul, Nat.add_zero, Nat.zero_add] at i4
      refine ⟨_, _, rfl, canon_trimZeros i1, canon_trimZeros i2, ?_, ?_⟩
      · rw [toNum_trimZeros]
        symm
        apply Nat.div_eq_of_lt_le
        · rw [← i4]; omega
        · rw [← i4]
          have : (toNum (divLoop b a [] []).1 + 1) * toNum b
              = toNum (divLoop b a [] []).1 * toNum b + toNum b := by ring
          omega
      · rw [toNum_trimZeros, ← i4, Nat.mul_comm, Nat.mul_add_mod]
        exact (Nat.mod_eq_of_lt i3).symm

end BigInt

namespace BigInt

/-! ## Signed operations -/

theorem val_eq_zero_iff {a : BigInt} (ha : WF a) : val a = 0 ↔ a.digits = ['0'] := by
  rw [← canon_zero_iff ha.1]
  unfold val
  split <;> omega

theorem val_of_nonneg {a : BigInt} (h : a.negative = false) : val a = toNum a.digits := by
  simp [val, h]

theorem val_of_neg {a : BigInt} (h : a.negative = true) : val a = -(toNum a.digits : Int) := by
  simp [val, h]

/-- A well-formed `BigInt` is determined by the integer it denotes. -/
theorem val_inj {a b : BigInt} (ha : WF a) (hb : WF b) (h : val a = val b) : a = b := by
  obtain ⟨an, ad⟩ := a
  obtain ⟨bn, bd⟩ := b
  have ha0 := canon_zero_iff ha.1
  have hb0 := canon_zero_iff hb.1
  have ha2 := ha.2
  have hb2 := hb.2
  simp only at ha0 hb0 ha2 hb2
  cases an <;> cases bn <;> simp only [val, if_true, if_false, Bool.false_eq_true] at h
  · have : toNum ad = toNum bd := by omega
    have e : ad = bd := canon_inj ha.1 hb.1 this
    rw [e]
  · have h1 : toNum bd = 0 := by omega
    have := hb2 (hb0.1 h1)
    simp at this
  · have h1 : toNum ad = 0 := by omega
    have := ha2 (ha0.1 h1)
    simp at this
  · have : toNum ad = toNum bd := by omega
    have e : ad = bd := canon_inj ha.1 hb.1 this
    rw [e]

theorem wf_zero : WF zero := ⟨canon_zero, fun _ => rfl⟩

theorem val_zero : val zero = 0 := rfl

theorem opNeg_spec {a : BigInt} (ha : WF a) : WF (opNeg a) ∧ val (opNeg a) = -val a := by
  unfold opNeg
  by_cases h : a.digits = ['0']
  · simp only [h, ne_eq, not_true_eq_false, if_false]
    refine ⟨ha, ?_⟩
    have := (val_eq_zero_iff ha).2 h
    omega
  · simp only [ne_eq, h, not_false_eq_true, if_true]
    refine ⟨⟨ha.1, fun h0 => absurd h0 h⟩, ?_⟩
    unfold val
    cases a.negative <;> simp

theorem opAdd_spec {a b : BigInt} (ha : WF a) (hb : WF b) :
    WF (opAdd a b) ∧ val (opAdd a b) = val a + val b := by
  unfold opAdd
  by_cases hs : a.negative = b.negative
  · simp only [hs, if_true]
    obtain ⟨h1, h2⟩ := add_spec ha.1.2.1 hb.1.2.1
    refine ⟨⟨h1, ?_⟩, ?_⟩
    · intro h0
      simp only at h0
      have hz : toNum (add a.digits b.digits) = 0 := by rw [h0]; rfl
      rw [h2] at hz
      have : toNum b.digits = 0 := by omega
      exact hb.2 ((canon_zero_iff hb.1).1 this)
    · unfold val
      simp only [hs, h2]
      split <;> push_cast <;> ring
  · simp only [hs, if_false]
    by_cases hc0 : compare a.digits b.digits = 0
    · simp only [hc0, if_true]
      refine ⟨wf_zero, ?_⟩
      have he := (compare_eq_iff ha.1 hb.1).1 hc0
      rw [val_zero]
      unfold val
      rw [he]
      cases h1 : a.negative <;> cases h2 : b.negative <;> simp_all
    · simp only [hc0, if_false]
      have hne : toNum a.digits ≠ toNum b.digits := fun h =>
        hc0 ((compare_eq_iff ha.1 hb.1).2 h)
      by_cases hgt : compare a.digits b.digits > 0
      · simp only [hgt, if_true]
        have hlt := (compare_gt_iff ha.1 hb.1).1 hgt
        obtain ⟨h1, h2⟩ := sub_spec ha.1 hb.1 (le_of_lt hlt)
        refine ⟨⟨h1, ?_⟩, ?_⟩
        · intro h0
          simp only at h0
          have hz : toNum (sub a.digits b.digits) = 0 := by rw [h0]; rfl
          omega
        · unfold val
          simp only
          cases h3 : a.negative <;> cases h4 : b.negative <;> simp_all <;> omega
      · simp only [hgt, if_false]
        have hlt : toNum a.digits < toNum b.digits := by
          rw [compare_gt_iff ha.1 hb.1] at hgt
          omega
        obtain ⟨h1, h2⟩ := sub_spec hb.1 ha.1 (le_of_lt hlt)
        refine ⟨⟨h1, ?_⟩, ?_⟩
        · intro h0
          simp only at h0
          have hz : toNum (sub b.digits a.digits) = 0 := by rw [h0]; rfl
          omega
        · unfold val
          simp only
          cases h3 : a.negative <;> cases h4 : b.negative <;> simp_all <;> omega

theorem opSub_spec {a b : BigInt} (ha : WF a) (hb : WF b) :
    WF (opSub a b) ∧ val (opSub a b) = val a - val b := by
  obtain ⟨n1, n2⟩ := opNeg_spec hb
  obtain ⟨h1, h2⟩ := opAdd_spec ha n1
  exact ⟨h1, by unfold opSub; rw [h2, n2]; ring⟩

theorem opMul_spec {a b : BigInt} (ha : WF a) (hb : WF b) :
    WF (opMul a b) ∧ val (opMul a b) = val a * val b := by
  obtain ⟨h1, h2⟩ := mul_spec ha.1 hb.1
  unfold opMul
  by_cases h0 : mul a.digits b.digits = ['0']
  · simp only [h0, if_true]
    refine ⟨⟨canon_zero, fun _ => rfl⟩, ?_⟩
    have hz : toNum a.digits * toNum b.digits = 0 := by rw [← h2, h0]; rfl
    have hz0 : toNum (['0'] : Str) = 0 := rfl
    unfold val
    simp only [Bool.false_eq_true, if_false, hz0]
    have : (toNum a.digits : Int) * (toNum b.digits : Int) = 0 := by exact_mod_cast hz
    split <;> split <;> push_cast <;> linarith
  · simp only [h0, if_false]
    refine ⟨⟨h1, fun h => absurd h h0⟩, ?_⟩
    unfold val
    simp only [h2]
    cases a.negative <;> cases b.negative <;> simp

end BigInt

namespace BigInt

theorem digits_ne_zero_of_val {b : BigInt} (hb : WF b) (h : val b ≠ 0) : b.digits ≠ ['0'] :=
  fun h0 => h ((val_eq_zero_iff hb).2 h0)

/-- Arithmetic core of signed floor division. -/
theorem signed_floor_bounds (A B Q R : Nat) (na nb : Bool) (hdiv : B * Q + R = A) (hR : R < B) :
    (0 < (if nb then -(B : Int) else B) ∧
        (if (na != nb) then -((Q + (if na ≠ nb ∧ R ≠ 0 then 1 else 0) : Nat) : Int)
          else ((Q + (if na ≠ nb ∧ R ≠ 0 then 1 else 0) : Nat) : Int)) * (if nb then -(B : Int) else B)
          ≤ (if na then -(A : Int) else A) ∧
        (if na then -(A : Int) else A) <
          ((if (na != nb) then -((Q + (if na ≠ nb ∧ R ≠ 0 then 1 else 0) : Nat) : Int)
            else ((Q + (if na ≠ nb ∧ R ≠ 0 then 1 else 0) : Nat) : Int)) + 1)
            * (if nb then -(B : Int) else B)) ∨
      ((if nb then -(B : Int) else B) < 0 ∧
        (if na then -(A : Int) else A) ≤
          (if (na != nb) then -((Q + (if na ≠ nb ∧ R ≠ 0 then 1 else 0) : Nat) : Int)
            else ((Q + (if na ≠ nb ∧ R ≠ 0 then 1 else 0) : Nat) : Int)) * (if nb then -(B : Int) else B) ∧
        ((if (na != nb) then -((Q + (if na ≠ nb ∧ R ≠ 0 then 1 else 0) : Nat) : Int)
            else ((Q + (if na ≠ nb ∧ R ≠ 0 then 1 else 0) : Nat) : Int)) + 1)
            * (if nb then -(B : Int) else B) < (if na then -(A : Int) else A)) := by
  subst hdiv
  have hBi : (R : Int) < B := by exact_mod_cast hR
  have hR0 : (0 : Int) ≤ R := by exact_mod_cast Nat.zero_le R
  have hB0 : (0 : Int) < B := by omega
  generalize hP : (B : Int) * Q = P
  by_cases hRz : R = 0
  · subst hRz
    cases na <;> cases nb <;> simp <;>
      simp only [add_mul, neg_mul, mul_neg, one_mul, mul_comm (Q : Int) (B : Int), hP] <;>
      omega
  · have hR1 : (1 : Int) ≤ R := by
      have : 1 ≤ R := Nat.one_le_iff_ne_zero.2 hRz
      exact_mod_cast this
    cases na <;> cases nb <;> simp [hRz] <;>
      simp only [add_mul, neg_mul, mul_neg, one_mul, mul_comm (Q : Int) (B : Int), hP, neg_add,
        neg_neg] <;>
      omega

/-- Signed division: with a non-zero divisor `operator/` returns a well-formed quotient
`q` with `q * b ≤ a < (q + 1) * b` for positive `b` and `(q + 1) * b < a ≤ q * b` for
negative `b`; its magnitude is the magnitude quotient, plus one exactly when the signs
differ and the magnitude remainder is non-zero. -/
theorem opDiv_spec {a b : BigInt} (ha : WF a) (hb : WF b) (hb0 : b.digits ≠ ['0']) :
    ∃ q, opDiv a b = some q ∧ WF q ∧
      toNum q.digits = toNum a.digits / toNum b.digits +
        (if a.negative ≠ b.negative ∧ toNum a.digits % toNum b.digits ≠ 0 then 1 else 0) ∧
      ((0 < val b ∧ val q * val b ≤ val a ∧ val a < (val q + 1) * val b) ∨
        (val b < 0 ∧ val a ≤ val q * val b ∧ (val q + 1) * val b < val a)) := by
  obtain ⟨q0, r, hdm, hq0, hr, hq, hrv⟩ := divmod_spec ha.1 hb.1 hb0
  have hBpos : 0 < toNum b.digits := by
    rcases Nat.eq_zero_or_pos (toNum b.digits) with h | h
    · exact absurd ((canon_zero_iff hb.1).1 h) hb0
    · exact h
  have hr0 : r = ['0'] ↔ toNum a.digits % toNum b.digits = 0 := by
    rw [← hrv]; exact (canon_zero_iff hr).symm
  obtain ⟨p1, p2⟩ := add_spec hq0.2.1 (canon_single (by norm_num : 1 < 10)).2.1
  have hone : toNum [dchar 1] = 1 := by rw [toNum_single, dval_dchar (by norm_num)]
  have hd1 : [dchar 1] = ['1'] := rfl
  rw [hone, hq, hd1] at p2
  rw [hd1] at p1
  -- the magnitude of the quotient
  have hqd : ∃ qd, (if (a.negative != b.negative) && r != ['0'] then add q0 ['1'] else q0) = qd ∧
      Canon qd ∧ toNum qd = toNum a.digits / toNum b.digits +
        (if a.negative ≠ b.negative ∧ toNum a.digits % toNum b.digits ≠ 0 then 1 else 0) := by
    by_cases hc : a.negative ≠ b.negative ∧ toNum a.digits % toNum b.digits ≠ 0
    · have hcb : ((a.negative != b.negative) && r != ['0']) = true := by
        have h1 : (a.negative != b.negative) = true := by simpa using hc.1
        have h2 : r ≠ ['0'] := fun h => hc.2 (hr0.1 h)
        simp [h1, h2]
      exact ⟨_, rfl, by rw [if_pos hcb]; exact p1, by rw [if_pos hcb, if_pos hc]; exact p2⟩
    · have hcb : ¬ (((a.negative != b.negative) && r != ['0']) = true) := by
        intro h
        simp only [Bool.and_eq_true, bne_iff_ne, ne_eq] at h
        exact hc ⟨h.1, fun h0 => h.2 (hr0.2 h0)⟩
      exact ⟨_, rfl, by rw [if_neg hcb]; exact hq0, by rw [if_neg hcb, if_neg hc]; simpa using hq⟩
  obtain ⟨qd, hqd1, hqd2, hqd3⟩ := hqd
  unfold opDiv
  simp only [hb0, if_false, hdm, hqd1]
  have hbounds := signed_floor_bounds (toNum a.digits) (toNum b.digits)
    (toNum a.digits / toNum b.digits) (toNum a.digits % toNum b.digits) a.negative b.negative
    (Nat.div_add_mod _ _) (Nat.mod_lt _ hBpos)
  rw [← hqd3] at hbounds
  by_cases hz : qd = ['0']
  · refine ⟨_, by rw [if_pos hz], ⟨by rw [hz]; exact canon_zero, fun _ => rfl⟩,
      by rw [← hqd3], ?_⟩
    have h0 : toNum qd = 0 := by rw [hz]; rfl
    have hv : val ⟨false, qd⟩ = 0 := by simp [val, h0]
    rw [h0] at hbounds
    rw [hv]
    simpa [val] using hbounds
  · refine ⟨_, by rw [if_neg hz], ⟨hqd2, fun h => absurd h hz⟩, hqd3, ?_⟩
    exact hbounds

end BigInt

theorem floor_of_bounds {a b q : Int}
    (h : (0 < b ∧ q * b ≤ a ∧ a < (q + 1) * b) ∨ (b < 0 ∧ a ≤ q * b ∧ (q + 1) * b < a)) :
    ⌊(a : ℚ) / (b : ℚ)⌋ = q := by
  rw [Int.floor_eq_iff]
  rcases h with ⟨hb, h1, h2⟩ | ⟨hb, h1, h2⟩
  · have hbq : (0 : ℚ) < b := by exact_mod_cast hb
    constructor
    · rw [le_div_iff₀ hbq]; exact_mod_cast h1
    · rw [div_lt_iff₀ hbq]; exact_mod_cast h2
  · have hbq : (b : ℚ) < 0 := by exact_mod_cast hb
    constructor
    · rw [le_div_iff_of_neg hbq]; exact_mod_cast h1
    · rw [div_lt_iff_of_neg hbq]; exact_mod_cast h2

/-- C1: for well-formed `a`, `b` with `b ≠ 0`, `floorDiv` and `floorMod` both return a
value, these are the values `visitTerm` computes for `//` and `%` on the two Ints, and
`a == (a // b) * b + (a % b)` holds for `BigInt::operator==`, `operator*` and `operator+`. -/
theorem floorDiv_floorMod_identity (a b : BigInt) (ha : a.WF) (hb : b.WF) (hb0 : b.val ≠ 0) :
    ∃ q m, floorDiv a b = some q ∧ floorMod a b = some m ∧
      (∀ F : FloatOps, termOp F .idiv (.int a) (.int b) = .ok (.int q) ∧
        termOp F .mod (.int a) (.int b) = .ok (.int m)) ∧
      BigInt.opEq a (BigInt.opAdd (BigInt.opMul q b) m) = true := by
  obtain ⟨q, hq, hqwf, _, _⟩ := BigInt.opDiv_spec ha hb (BigInt.digits_ne_zero_of_val hb hb0)
  obtain ⟨m1, m2⟩ := BigInt.opMul_spec hqwf hb
  obtain ⟨s1, s2⟩ := BigInt.opSub_spec ha m1
  obtain ⟨t1, t2⟩ := BigInt.opAdd_spec m1 s1
  have hm : floorMod a b = some (BigInt.opSub a (BigInt.opMul q b)) := by simp [floorMod, hq]
  refine ⟨q, BigInt.opSub a (BigInt.opMul q b), hq, hm, ?_, ?_⟩
  · intro F
    have hq1 : floorDiv a b = some q := hq
    exact ⟨by simp [termOp, hq1], by simp [termOp, hm]⟩
  · have e : a = BigInt.opAdd (BigInt.opMul q b) (BigInt.opSub a (BigInt.opMul q b)) := by
      apply BigInt.val_inj ha t1
      rw [t2, s2]; ring
    rw [← e]
    simp [BigInt.opEq]

theorem floorDiv_floorMod_identity_witness :
    ∃ q m, floorDiv (BigInt.lit true "7") (BigInt.lit false "3") = some q ∧
      floorMod (BigInt.lit true "7") (BigInt.lit false "3") = some m ∧
      (∀ F : FloatOps,
        termOp F .idiv (.int (BigInt.lit true "7")) (.int (BigInt.lit false "3")) = .ok (.int q) ∧
        termOp F .mod (.int (BigInt.lit true "7")) (.int (BigInt.lit false "3"))
          = .ok (.int m)) ∧
      BigInt.opEq (BigInt.lit true "7") (BigInt.opAdd (BigInt.opMul q (BigInt.lit false "3")) m)
        = true :=
  floorDiv_floorMod_identity (BigInt.lit true "7") (BigInt.lit false "3") (by decide) (by decide)
    (by decide)

/-- C2: for well-formed `a`, `b` with `b ≠ 0`, `BigInt::operator/` returns a well-formed
quotient denoting the floor of `val a / val b`; a zero magnitude remainder leaves the
magnitude quotient unchanged; and `(-7) / 3` is `-3`. -/
theorem opDiv_floor (a b : BigInt) (ha : a.WF) (hb : b.WF) (hb0 : b.val ≠ 0) :
    ∃ q, BigInt.opDiv a b = some q ∧ q.WF ∧ q.val = ⌊(a.val : ℚ) / (b.val : ℚ)⌋ ∧
      (toNum a.digits % toNum b.digits = 0 →
        toNum q.digits = toNum a.digits / toNum b.digits) ∧
      BigInt.opDiv (BigInt.lit true "7") (BigInt.lit false "3") = some (BigInt.lit true "3") := by
  obtain ⟨q, hq, hqwf, hmag, hfl⟩ :=
    BigInt.opDiv_spec ha hb (BigInt.digits_ne_zero_of_val hb hb0)
  refine ⟨q, hq, hqwf, (floor_of_bounds hfl).symm, ?_, by decide⟩
  intro h0
  rw [hmag]
  simp [h0]

theorem opDiv_floor_witness :
    ∃ q, BigInt.opDiv (BigInt.lit true "7") (BigInt.lit false "2") = some q ∧ q.WF ∧
      q.val = ⌊((BigInt.lit true "7").val : ℚ) / ((BigInt.lit false "2").val : ℚ)⌋ ∧
      (toNum (BigInt.lit true "7").digits % toNum (BigInt.lit false "2").digits = 0 →
        toNum q.digits = toNum (BigInt.lit true "7").digits / toNum (BigInt.lit false "2").digits) ∧
      BigInt.opDiv (BigInt.lit true "7") (BigInt.lit false "3") = some (BigInt.lit true "3") :=
  opDiv_floor (BigInt.lit true "7") (BigInt.lit false "2") (by decide) (by decide) (by decide)

/-- C3: for well-formed `a`, `b` with `b ≠ 0`, `floorMod a b` returns a well-formed value
that is zero or has the sign of `b`, of magnitude strictly below the magnitude of `b`;
and `(-7) % 3` is `2`. -/
theorem floorMod_sign (a b : BigInt) (ha : a.WF) (hb : b.WF) (hb0 : b.val ≠ 0) :
    ∃ m, floorMod a b = some m ∧ m.WF ∧
      (m.val = 0 ∨ Int.sign m.val = Int.sign b.val) ∧
      (m.digits = ['0'] ∨ m.negative = b.negative) ∧
      |m.val| < |b.val| ∧ toNum m.digits < toNum b.digits ∧
      floorMod (BigInt.lit true "7") (BigInt.lit false "3") = some (BigInt.lit false "2") := by
  obtain ⟨q, hq, hqwf, _, hfl⟩ := BigInt.opDiv_spec ha hb (BigInt.digits_ne_zero_of_val hb hb0)
  obtain ⟨m1, m2⟩ := BigInt.opMul_spec hqwf hb
  obtain ⟨s1, s2⟩ := BigInt.opSub_spec ha m1
  rw [m2] at s2
  refine ⟨BigInt.opSub a (BigInt.opMul q b), by simp [floorMod, hq], s1, ?_⟩
  generalize BigInt.opSub a (BigInt.opMul q b) = m at s1 s2
  have hm0 := BigInt.val_eq_zero_iff s1
  have hmv : m.val = if m.negative then -(toNum m.digits : Int) else (toNum m.digits : Int) := rfl
  have hbv : b.val = if b.negative then -(toNum b.digits : Int) else (toNum b.digits : Int) := rfl
  have hbneg : b.val < 0 → b.negative = true := by
    intro h; by_contra hn; simp only [hn, if_false, Bool.false_eq_true] at hbv; omega
  have hbpos : 0 < b.val → b.negative = false := by
    intro h; by_contra hn
    simp only [Bool.not_eq_false] at hn
    simp only [hn, if_true] at hbv; omega
  have hmneg : m.val < 0 → m.negative = true := by
    intro h; by_contra hn; simp only [hn, if_false, Bool.false_eq_true] at hmv; omega
  have hmpos : 0 < m.val → m.negative = false := by
    intro h; by_contra hn
    simp only [Bool.not_eq_false] at hn
    simp only [hn, if_true] at hmv; omega
  have habs_m : |m.val| = (toNum m.digits : Int) := by
    rw [hmv]; split
    · rw [abs_neg]; exact abs_of_nonneg (by positivity)
    · exact abs_of_nonneg (by positivity)
  have habs_b : |b.val| = (toNum b.digits : Int) := by
    rw [hbv]; split
    · rw [abs_neg]; exact abs_of_nonneg (by positivity)
    · exact abs_of_nonneg (by positivity)
  have key : (0 < b.val ∧ 0 ≤ m.val ∧ m.val < b.val) ∨ (b.val < 0 ∧ b.val < m.val ∧ m.val ≤ 0) := by
    rcases hfl with ⟨h1, h2, h3⟩ | ⟨h1, h2, h3⟩
    · left
      have : (q.val + 1) * b.val = q.val * b.val + b.val := by ring
      exact ⟨h1, by omega, by omega⟩
    · right
      have : (q.val + 1) * b.val = q.val * b.val + b.val := by ring
      exact ⟨h1, by omega, by omega⟩
  have habs : |m.val| < |b.val| := by
    rcases key with ⟨h1, h2, h3⟩ | ⟨h1, h2, h3⟩
    · rw [abs_of_nonneg h2, abs_of_pos h1]; exact h3
    · rw [abs_of_nonpos h3, abs_of_neg h1]; omega
  refine ⟨?_, ?_, habs, ?_, by decide⟩
  · rcases key with ⟨h1, h2, h3⟩ | ⟨h1, h2, h3⟩
    · rcases eq_or_lt_of_le h2 with h | h
      · left; exact h.symm
      · right; rw [Int.sign_eq_one_of_pos h, Int.sign_eq_one_of_pos h1]
    · rcases eq_or_lt_of_le h3 with h | h
      · left; exact h
      · right; rw [Int.sign_eq_neg_one_of_neg h, Int.sign_eq_neg_one_of_neg h1]
  · rcases key with ⟨h1, h2, h3⟩ | ⟨h1, h2, h3⟩
    · rcases eq_or_lt_of_le h2 with h | h
      · left; exact hm0.1 h.symm
      · right; rw [hmpos h, hbpos h1]
    · rcases eq_or_lt_of_le h3 with h | h
      · left; exact hm0.1 h
      · right; rw [hmneg h, hbneg h1]
  · rw [habs_m, habs_b] at habs
    exact_mod_cast habs

theorem floorMod_sign_witness :
    ∃ m, floorMod (BigInt.lit false "7") (BigInt.lit true "3") = some m ∧ m.WF ∧
      (m.val = 0 ∨ Int.sign m.val = Int.sign (BigInt.lit true "3").val) ∧
      (m.digits = ['0'] ∨ m.negative = (BigInt.lit true "3").negative) ∧
      |m.val| < |(BigInt.lit true "3").val| ∧
      toNum m.digits < toNum (BigInt.lit true "3").digits ∧
      floorMod (BigInt.lit true "7") (BigInt.lit false "3") = some (BigInt.lit false "2") :=
  floorMod_sign (BigInt.lit false "7") (BigInt.lit true "3") (by decide) (by decide) (by decide)

/-- C4: on `a = -7`, `b = 3` `BigInt::operator%` returns `-1` (the magnitude remainder
with the sign of `a`), whereas `a - (a / b) * b`, which `floorMod` computes, is `2`. -/
theorem opMod_differs_from_floorMod :
    BigInt.opMod (BigInt.lit true "7") (BigInt.lit false "3") = some (BigInt.lit true "1") ∧
      floorMod (BigInt.lit true "7") (BigInt.lit false "3") = some (BigInt.lit false "2") ∧
      BigInt.opDiv (BigInt.lit true "7") (BigInt.lit false "3") = some (BigInt.lit true "3") := by
  decide

/-! ## The Exec monad -/

theorem Exec.pure_apply {α : Type} (a : α) (st : State) :
    (pure a : Exec α) st = some (.ok a st) := rfl

theorem Exec.bind_apply {α β : Type} (m : Exec α) (f : α → Exec β) (st : State) :
    (m >>= f) st =
      match m st with
      | none => none
      | some (.thrown t st1) => some (.thrown t st1)
      | some (.ok a st1) => f a st1 := rfl

theorem Exec.bind_ok {α β : Type} {m : Exec α} {f : α → Exec β} {st st1 : State} {a : α}
    (h : m st = some (.ok a st1)) : (m >>= f) st = f a st1 := by
  rw [Exec.bind_apply, h]

theorem Exec.get_apply (st : State) : Exec.get st = some (.ok st st) := rfl

/-- A user-function call: once the arguments are evaluated, the outcome of the call is
that of the body, run in a fresh scope in which the parameters have been bound. -/
theorem evalTrailer_call (F : FloatOps) (fuel : Nat) (funcName : String) (args : List Argument)
    (st st1 : State) (fd0 fd : FuncDef) (args1 : List Value) (kwargs : Frame)
    (h0 : findFunc st.functions funcName = some fd0)
    (hargs : callArgs F fuel args [] [] st = some (.ok (args1, kwargs) st1))
    (h1 : findFunc st1.functions funcName = some fd) :
    evalTrailer F (fuel + 1) (.name funcName) args st =
      callResult (execSuite F fuel fd.suite
        { st1 with scopes := bindParams fd.names fd.defaults args1 kwargs ([] :: st1.scopes) }) := by
  simp only [evalTrailer]
  rw [Exec.bind_ok (Exec.get_apply st)]
  simp only [h0]
  rw [Exec.bind_ok hargs]
  simp only []
  rw [Exec.bind_ok (Exec.get_apply st1)]
  simp only [h1]

/-! ## Scopes: getVar and setVar -/

theorem Frame.find_set_eq : ∀ (f : Frame) (x : String) (v : Value), (f.set x v).find x = some v
  | [], x, v => by simp [Frame.set, Frame.find]
  | (k, w) :: rest, x, v => by
    by_cases h : k = x
    · simp [Frame.set, Frame.find, h]
    · simp [Frame.set, Frame.find, h, Frame.find_set_eq rest x v]

theorem Frame.find_set_ne : ∀ (f : Frame) (x y : String) (v : Value), y ≠ x →
    (f.set x v).find y = f.find y
  | [], x, y, v, h => by simp [Frame.set, Frame.find, Ne.symm h]
  | (k, w) :: rest, x, y, v, h => by
    by_cases hk : k = x
    · subst hk
      simp [Frame.set, Frame.find, Ne.symm h]
    · by_cases hy : k = y
      · subst hy
        simp [Frame.set, Frame.find, hk]
      · simp [Frame.set, Frame.find, hk, hy, Frame.find_set_ne rest x y v h]

theorem getVar_cons_nil (s : List Frame) (x : String) : getVar ([] :: s) x = getVar s x := by
  simp [getVar, Frame.find]

theorem setVarLoop_none : ∀ (s : List Frame) (x : String) (v : Value),
    setVarLoop s x v = none ↔ ∀ f ∈ s, f.find x = none
  | [], x, v => by simp [setVarLoop]
  | f :: rest, x, v => by
    cases hf : f.find x with
    | some w => simp [setVarLoop, hf]
    | none =>
      have ih := setVarLoop_none rest x v
      cases hr : setVarLoop rest x v with
      | none =>
        simp only [setVarLoop, hf, hr, List.mem_cons, forall_eq_or_imp, true_and]
        exact ⟨fun _ => ih.1 hr, fun _ => trivial⟩
      | some r =>
        simp only [setVarLoop, hf, hr, List.mem_cons, forall_eq_or_imp, true_and]
        constructor
        · intro h; cases h
        · intro h
          rw [ih.2 h] at hr
          cases hr

theorem getVar_error_iff : ∀ (s : List Frame) (x : String),
    (∀ f ∈ s, f.find x = none) ↔
      getVar s x = .error (.runtimeError ("name \x27" ++ x ++ "\x27 is not defined"))
  | [], x => by simp [getVar]
  | f :: rest, x => by
    cases hf : f.find x with
    | some w => simp [getVar, hf]
    | none =>
      simp only [getVar, hf, List.mem_cons, forall_eq_or_imp, true_and]
      exact getVar_error_iff rest x

theorem getVar_ok_or_error (s : List Frame) (x : String) :
    (∃ w, getVar s x = .ok w) ∨
      getVar s x = .error (.runtimeError ("name \x27" ++ x ++ "\x27 is not defined")) := by
  induction s with
  | nil => right; rfl
  | cons f rest ih =>
    cases hf : f.find x with
    | some w => left; exact ⟨w, by simp [getVar, hf]⟩
    | none => simpa [getVar, hf] using ih

theorem setVarLoop_some : ∀ (s s1 : List Frame) (x : String) (v : Value),
    setVarLoop s x v = some s1 →
      s1.length = s.length ∧ getVar s1 x = .ok v ∧ ∀ y, y ≠ x → getVar s1 y = getVar s y
  | [], s1, x, v, h => by simp [setVarLoop] at h
  | f :: rest, s1, x, v, h => by
    cases hf : f.find x with
    | some w =>
      simp only [setVarLoop, hf, Option.some.injEq] at h
      subst h
      refine ⟨rfl, by simp [getVar, Frame.find_set_eq], ?_⟩
      intro y hy
      simp [getVar, Frame.find_set_ne f x y v hy]
    | none =>
      cases hr : setVarLoop rest x v with
      | none => simp [setVarLoop, hf, hr] at h
      | some r =>
        simp only [setVarLoop, hf, hr, Option.some.injEq] at h
        subst h
        obtain ⟨h1, h2, h3⟩ := setVarLoop_some rest r x v hr
        refine ⟨by simp [h1], by simp [getVar, hf, h2], ?_⟩
        intro y hy
        simp [getVar, h3 y hy]

theorem setVar_length (s : List Frame) (x : String) (v : Value) :
    (setVar s x v).length = s.length := by
  unfold setVar
  cases h : setVarLoop s x v with
  | some s1 => exact (setVarLoop_some s s1 x v h).1
  | none => cases s <;> simp

theorem setVar_ne_nil {s : List Frame} (x : String) (v : Value) (h : s ≠ []) :
    setVar s x v ≠ [] := by
  intro h0
  have := setVar_length s x v
  rw [h0] at this
  exact h (List.eq_nil_of_length_eq_zero this.symm)

/-- After `setVar(name, v)` a read of `name` gives `v`. -/
theorem getVar_setVar_eq {s : List Frame} (x : String) (v : Value) (h : s ≠ []) :
    getVar (setVar s x v) x = .ok v := by
  unfold setVar
  cases hl : setVarLoop s x v with
  | some s1 => exact (setVarLoop_some s s1 x v hl).2.1
  | none =>
    cases s with
    | nil => exact absurd rfl h
    | cons f rest => simp [getVar, Frame.find_set_eq]

/-- The call `setVar(name, v)` leaves every other name as it was. -/
theorem getVar_setVar_ne (s : List Frame) (x y : String) (v : Value) (h : y ≠ x) :
    getVar (setVar s x v) y = getVar s y := by
  unfold setVar
  cases hl : setVarLoop s x v with
  | some s1 => exact (setVarLoop_some s s1 x v hl).2.2 y h
  | none =>
    cases s with
    | nil => rfl
    | cons f rest => simp [getVar, Frame.find_set_ne f x y v h]

/-- A name bound only in an outer scope is rebound there: the innermost scope is not
touched. -/
theorem setVar_cons_outer (top : Frame) (outer : List Frame) (x : String) (v w : Value)
    (htop : top.find x = none) (hout : getVar outer x = .ok w) :
    setVar (top :: outer) x v = top :: setVar outer x v := by
  have hne : setVarLoop outer x v ≠ none := by
    intro h
    rw [setVarLoop_none, getVar_error_iff, hout] at h
    cases h
  unfold setVar
  cases hr : setVarLoop outer x v with
  | none => exact absurd hr hne
  | some r => simp [setVarLoop, htop, hr]

/-- A name bound in no scope is created in the innermost scope: the outer scopes are
not touched. -/
theorem setVar_cons_fresh (top : Frame) (outer : List Frame) (x : String) (v : Value)
    (htop : top.find x = none)
    (hout : getVar outer x = .error (.runtimeError ("name \x27" ++ x ++ "\x27 is not defined"))) :
    setVar (top :: outer) x v = top.set x v :: outer := by
  have hr : setVarLoop outer x v = none := by
    rw [setVarLoop_none, getVar_error_iff]; exact hout
  simp [setVar, setVarLoop, htop, hr]

/-! ## Binding of parameters -/

theorem bindLoop_other (defStart : Nat) (defaults args : List Value) (kwargs : Frame) :
    ∀ (names : List String) (i : Nat) (scopes : List Frame) (y : String), y ∉ names →
      getVar (bindLoop defStart defaults args kwargs names i scopes) y = getVar scopes y
  | [], _, _, _, _ => rfl
  | n :: rest, i, scopes, y, hy => by
    have hyn : y ≠ n := fun h => hy (by simp [h])
    have hyr : y ∉ rest := fun h => hy (by simp [h])
    simp only [bindLoop]
    rw [bindLoop_other defStart defaults args kwargs rest (i + 1) _ y hyr]
    split
    · exact getVar_setVar_ne _ _ _ _ hyn
    · split
      · exact getVar_setVar_ne _ _ _ _ hyn
      · split
        · exact getVar_setVar_ne _ _ _ _ hyn
        · rfl

theorem bindLoop_ne_nil (defStart : Nat) (defaults args : List Value) (kwargs : Frame) :
    ∀ (names : List String) (i : Nat) (scopes : List Frame), scopes ≠ [] →
      bindLoop defStart defaults args kwargs names i scopes ≠ []
  | [], _, _, h => h
  | n :: rest, i, scopes, h => by
    simp only [bindLoop]
    apply bindLoop_ne_nil
    split
    · exact setVar_ne_nil _ _ h
    · split
      · exact setVar_ne_nil _ _ h
      · split
        · exact setVar_ne_nil _ _ h
        · exact h

/-- What a read of the parameter at index `k` of `names` gives after the binding loop
started at index `i`: the positional argument, else the keyword argument, else the
default value, else what the read gave before the loop. -/
theorem bindLoop_get (defStart : Nat) (defaults args : List Value) (kwargs : Frame) :
    ∀ (names : List String) (i : Nat) (scopes : List Frame) (k : Nat) (hk : k < names.length),
      scopes ≠ [] → names.Nodup →
      getVar (bindLoop defStart defaults args kwargs names i scopes) (names.get ⟨k, hk⟩) =
        if i + k < args.length then .ok (args.getD (i + k) .none)
        else
          match kwargs.find (names.get ⟨k, hk⟩) with
          | some v => .ok v
          | none =>
              if i + k ≥ defStart then .ok (defaults.getD (i + k - defStart) .none)
              else getVar scopes (names.get ⟨k, hk⟩)
  | [], _, _, k, hk, _, _ => by simp at hk
  | n :: rest, i, scopes, 0, _, hs, hnd => by
    have hn : n ∉ rest := (List.nodup_cons.1 hnd).1
    simp only [bindLoop, Nat.add_zero]
    change getVar _ n = if i < args.length then _ else
      match kwargs.find n with
      | some v => Except.ok v
      | none => if i ≥ defStart then _ else getVar scopes n
    rw [bindLoop_other defStart defaults args kwargs rest (i + 1) _ n hn]
    by_cases h1 : i < args.length
    · simp only [h1, if_true]
      exact getVar_setVar_eq _ _ hs
    · simp only [h1, if_false]
      cases hv : kwargs.find n with
      | some v => exact getVar_setVar_eq _ _ hs
      | none =>
        by_cases h3 : i ≥ defStart
        · simp only [h3, if_true]
          exact getVar_setVar_eq _ _ hs
        · simp only [h3, if_false]
  | n :: rest, i, scopes, k + 1, hk, hs, hnd => by
    have hk1 : k < rest.length := by simpa using hk
    have hnd1 : rest.Nodup := (List.nodup_cons.1 hnd).2
    have hne : rest.get ⟨k, hk1⟩ ≠ n := by
      intro h
      exact (List.nodup_cons.1 hnd).1 (h ▸ List.get_mem rest k hk1)
    simp only [bindLoop, List.get_cons_succ]
    have e : i + (k + 1) = i + 1 + k := by omega
    rw [e]
    have hs1 : ∀ s1 : List Frame, s1 ≠ [] →
        getVar s1 (rest.get ⟨k, hk1⟩) = getVar scopes (rest.get ⟨k, hk1⟩) →
        getVar (bindLoop defStart defaults args kwargs rest (i + 1) s1) (rest.get ⟨k, hk1⟩) =
          if i + 1 + k < args.length then .ok (args.getD (i + 1 + k) .none)
          else
            match kwargs.find (rest.get ⟨k, hk1⟩) with
            | some v => .ok v
            | none =>
                if i + 1 + k ≥ defStart then .ok (defaults.getD (i + 1 + k - defStart) .none)
                else getVar scopes (rest.get ⟨k, hk1⟩) := by
      intro s1 h1 h2
      rw [bindLoop_get defStart defaults args kwargs rest (i + 1) s1 k hk1 h1 hnd1, h2]
    split
    · exact hs1 _ (setVar_ne_nil _ _ hs) (getVar_setVar_ne _ _ _ _ hne)
    · split
      · exact hs1 _ (setVar_ne_nil _ _ hs) (getVar_setVar_ne _ _ _ _ hne)
      · split
        · exact hs1 _ (setVar_ne_nil _ _ hs) (getVar_setVar_ne _ _ _ _ hne)
        · exact hs1 _ hs rfl

/-! ## Calls, scopes and assignment -/

/-- C5: with `x = 5` in the module scope, the call `f(7)` of `def f(x): return x` binds the
parameter through `setVar`, which rebinds the module's `x`: before the call `x` is `5`,
after the call has returned the module scope holds `x = 7`. -/
theorem call_parameter_rebinds_caller_binding (F : FloatOps) :
    intAfter (execStmts F 40 (progParamClash.take 2) State.module) "x"
        = some (BigInt.lit false "5") ∧
      scopesAfter (execStmts F 40 progParamClash State.module)
        = some [[("x", .int (BigInt.lit false "7"))]] :=
  ⟨rfl, rfl⟩

/-- C6, as stated, fails: with `x = 1` in the module scope, after the call of
`def f(): x = 2` the module's `x` is `2`. -/
theorem assign_in_function_counterexample :
    (∀ F : FloatOps, intAfter (execStmts F 40 (progAssignOuter.take 2) State.module) "x"
        = some (BigInt.lit false "1")) ∧
      (∀ F : FloatOps, intAfter (execStmts F 40 progAssignOuter State.module) "x"
        = some (BigInt.lit false "2")) :=
  ⟨fun _ => rfl, fun _ => rfl⟩

/-- C6, amended: take a call of a user function whose body is the simple assignment
`x = e`, with `e` evaluating (in the fresh scope, after the parameters are bound) to a
non-tuple value `v`, and with the function's own scope `top` not binding `x`. The call
returns `None` and stores `v` with `setVar`: if an outer scope binds `x`, the innermost
such binding is rebound to `v` and every other name is left as it was, so after the call
has returned the outer binding of `x` holds `v`; if no scope binds `x`, the binding is
created in `top`, which the return pops, and the outer scopes are unchanged. -/
theorem assign_rebinds_nearest_scope (F : FloatOps) (fuel : Nat) (funcName x : String)
    (rhs : Testlist) (args : List Argument) (st st1 st3 : State) (fd0 fd : FuncDef)
    (args1 : List Value) (kwargs : Frame) (v : Value) (top : Frame) (outer : List Frame)
    (h0 : findFunc st.functions funcName = some fd0)
    (hargs : callArgs F (fuel + 2) args [] [] st = some (.ok (args1, kwargs) st1))
    (h1 : findFunc st1.functions funcName = some fd)
    (hbody : fd.suite = .simple (.exprStmt (nameT x).toTestlist [rhs]))
    (hev : evalTestlist F fuel rhs
        { st1 with scopes := bindParams fd.names fd.defaults args1 kwargs ([] :: st1.scopes) }
      = some (.ok v st3))
    (hv : ∀ elts, v ≠ .tuple elts)
    (hs : st3.scopes = top :: outer) (htop : top.find x = none) :
    evalTrailer F (fuel + 3) (.name funcName) args st
        = some (.ok (some .none) { st3 with scopes := (setVar (top :: outer) x v).tail }) ∧
      (∀ w, getVar outer x = .ok w →
        (setVar (top :: outer) x v).tail = setVar outer x v ∧
          getVar (setVar outer x v) x = .ok v ∧
          ∀ y, y ≠ x → getVar (setVar outer x v) y = getVar outer y) ∧
      (getVar outer x = .error (.runtimeError ("name \x27" ++ x ++ "\x27 is not defined")) →
        (setVar (top :: outer) x v).tail = outer) := by
  refine ⟨?_, ?_, ?_⟩
  · rw [evalTrailer_call F (fuel + 2) funcName args st st1 fd0 fd args1 kwargs h0 hargs h1, hbody]
    simp only [execSuite, execSmall, List.getLast_singleton, List.dropLast_single, List.map_cons,
      List.map_nil]
    rw [Exec.bind_ok hev]
    have hlist : (match v with
        | .tuple elts => elts
        | w => [w]) = [v] := by
      cases v with
      | tuple elts => exact absurd rfl (hv elts)
      | _ => rfl
    simp only [hlist]
    simp only [Test.toTestlist, Testlist.tests, List.flatten, List.append_nil,
      List.length_singleton, if_true]
    rw [Exec.bind_ok (Exec.get_apply st3)]
    have ht : (nameT x).targetName = some x := rfl
    simp only [assignTargets, ht, List.headD_cons, hs]
    rfl
  · intro w hw
    have hne : outer ≠ [] := by
      intro h; subst h; simp [getVar] at hw
    rw [setVar_cons_outer top outer x v w htop hw]
    exact ⟨rfl, getVar_setVar_eq x v hne, fun y hy => getVar_setVar_ne outer x y v hy⟩
  · intro he
    rw [setVar_cons_fresh top outer x v htop he]
    rfl

theorem assign_rebinds_nearest_scope_witness :
    (∀ F : FloatOps,
      evalTrailer F 43 (.name "f") []
          ⟨[[("x", .int (BigInt.lit false "1"))]],
            [("f", ⟨[], [], .simple (assignS "x" (numT "2"))⟩)], []⟩
        = some (.ok (some .none)
          ⟨(setVar [[], [("x", .int (BigInt.lit false "1"))]] "x"
              (.int (BigInt.lit false "2"))).tail,
            [("f", ⟨[], [], .simple (assignS "x" (numT "2"))⟩)], []⟩)) ∧
      (setVar [[], [("x", .int (BigInt.lit false "1"))]] "x" (.int (BigInt.lit false "2"))).tail
        = [[("x", .int (BigInt.lit false "2"))]] :=
  ⟨fun F => (assign_rebinds_nearest_scope F 40 "f" "x" (numT "2").toTestlist []
      ⟨[[("x", .int (BigInt.lit false "1"))]],
        [("f", ⟨[], [], .simple (assignS "x" (numT "2"))⟩)], []⟩
      ⟨[[("x", .int (BigInt.lit false "1"))]],
        [("f", ⟨[], [], .simple (assignS "x" (numT "2"))⟩)], []⟩
      ⟨[[], [("x", .int (BigInt.lit false "1"))]],
        [("f", ⟨[], [], .simple (assignS "x" (numT "2"))⟩)], []⟩
      ⟨[], [], .simple (assignS "x" (numT "2"))⟩ ⟨[], [], .simple (assignS "x" (numT "2"))⟩
      [] [] (.int (BigInt.lit false "2")) [] [[("x", .int (BigInt.lit false "1"))]]
      rfl rfl rfl rfl rfl (fun _ h => by cases h) rfl rfl).1,
    rfl⟩

/-- C7, as stated, fails: `f()` for `def f(a): return 1` supplies no value for `a`, which
has no default, and the call runs the body and returns `1`. -/
theorem call_missing_argument_counterexample :
    (fun F : FloatOps => callAfter F progMissingArg "f" [])
      = fun _ => some (BigInt.lit false "1") :=
  rfl

/-- C7, amended: in a call of a user function (distinct parameter names) where the
parameter at index `i` is supplied neither positionally nor by keyword and has no default,
nothing is raised for it: the outcome of the call is that of the body, run in the fresh
scope, and there a read of that parameter gives what the same read gives in the caller's
state (an outer binding of that name, or the `name ... is not defined` error). -/
theorem call_missing_argument_runs_body (F : FloatOps) (fuel : Nat) (funcName : String)
    (args : List Argument) (st st1 : State) (fd0 fd : FuncDef) (args1 : List Value)
    (kwargs : Frame)
    (h0 : findFunc st.functions funcName = some fd0)
    (hargs : callArgs F fuel args [] [] st = some (.ok (args1, kwargs) st1))
    (h1 : findFunc st1.functions funcName = some fd)
    (hnd : fd.names.Nodup) (hlen : fd.names.length < 2 ^ 64)
    (i : Nat) (hi : i < fd.names.length) (hpos : args1.length ≤ i)
    (hkw : kwargs.find (fd.names.get ⟨i, hi⟩) = none)
    (hdef : i + fd.defaults.length < fd.names.length) :
    evalTrailer F (fuel + 1) (.name funcName) args st =
        callResult (execSuite F fuel fd.suite
          { st1 with scopes := bindParams fd.names fd.defaults args1 kwargs ([] :: st1.scopes) }) ∧
      getVar (bindParams fd.names fd.defaults args1 kwargs ([] :: st1.scopes))
          (fd.names.get ⟨i, hi⟩)
        = getVar st1.scopes (fd.names.get ⟨i, hi⟩) := by
  refine ⟨evalTrailer_call F fuel funcName args st st1 fd0 fd args1 kwargs h0 hargs h1, ?_⟩
  unfold bindParams
  rw [bindLoop_get _ _ _ _ fd.names 0 ([] :: st1.scopes) i hi (by simp) hnd]
  have hds : (fd.names.length + 2 ^ 64 - fd.defaults.length) % 2 ^ 64
      = fd.names.length - fd.defaults.length := by
    have : fd.names.length + 2 ^ 64 - fd.defaults.length
        = (fd.names.length - fd.defaults.length) + 2 ^ 64 := by omega
    rw [this, Nat.add_mod_right]
    exact Nat.mod_eq_of_lt (by omega)
  have c1 : ¬ (0 + i < args1.length) := by omega
  have c3 : ¬ (0 + i ≥ fd.names.length - fd.defaults.length) := by omega
  simp only [hds, c1, if_false, hkw, c3]
  exact getVar_cons_nil _ _

theorem call_missing_argument_runs_body_witness :
    (∀ F : FloatOps,
      evalTrailer F 21 (.name "f") []
          ⟨[[]], [("f", ⟨["a"], [], .simple (.returnStmt (some (numT "1").toTestlist))⟩)], []⟩
        = callResult (execSuite F 20 (.simple (.returnStmt (some (numT "1").toTestlist)))
            ⟨bindParams ["a"] [] [] [] [[], []],
              [("f", ⟨["a"], [], .simple (.returnStmt (some (numT "1").toTestlist))⟩)], []⟩)) ∧
      getVar (bindParams ["a"] [] [] [] [[], []]) "a" = getVar [[]] "a" :=
  ⟨fun F => (call_missing_argument_runs_body F 20 "f" []
      ⟨[[]], [("f", ⟨["a"], [], .simple (.returnStmt (some (numT "1").toTestlist))⟩)], []⟩
      ⟨[[]], [("f", ⟨["a"], [], .simple (.returnStmt (some (numT "1").toTestlist))⟩)], []⟩
      ⟨["a"], [], .simple (.returnStmt (some (numT "1").toTestlist))⟩
      ⟨["a"], [], .simple (.returnStmt (some (numT "1").toTestlist))⟩ [] []
      rfl rfl rfl (by decide) (by decide) 0 (by decide) (by decide) rfl (by decide)).1,
    rfl⟩

/-- C8: in a call of a user function (distinct parameter names), the outcome of the call is
that of the body, run in the fresh scope, and there a read of the parameter at index `i`
gives `positional[i]` when `i` is below the number of positional arguments, otherwise the
keyword argument of that name when there is one, otherwise the default aligned to the tail
of the parameter list; for `def f(a, b=10, c=20): return a + b + c` the calls `f(1)`,
`f(1,2)` and `f(1,c=5)` return `31`, `23` and `16`. -/
theorem call_binds_parameters (F : FloatOps) (fuel : Nat) (funcName : String)
    (args : List Argument) (st st1 : State) (fd0 fd : FuncDef) (args1 : List Value)
    (kwargs : Frame)
    (h0 : findFunc st.functions funcName = some fd0)
    (hargs : callArgs F fuel args [] [] st = some (.ok (args1, kwargs) st1))
    (h1 : findFunc st1.functions funcName = some fd)
    (hnd : fd.names.Nodup) (hlen : fd.names.length < 2 ^ 64)
    (hdl : fd.defaults.length ≤ fd.names.length) :
    evalTrailer F (fuel + 1) (.name funcName) args st =
        callResult (execSuite F fuel fd.suite
          { st1 with scopes := bindParams fd.names fd.defaults args1 kwargs ([] :: st1.scopes) }) ∧
      (∀ (i : Nat) (hi : i < fd.names.length),
        (∀ (hp : i < args1.length),
          evalAtom F 1 (.name (fd.names.get ⟨i, hi⟩))
              { st1 with scopes := bindParams fd.names fd.defaults args1 kwargs ([] :: st1.scopes) }
            = some (.ok (args1.get ⟨i, hp⟩)
              { st1 with
                scopes := bindParams fd.names fd.defaults args1 kwargs ([] :: st1.scopes) })) ∧
        (args1.length ≤ i → ∀ v, kwargs.find (fd.names.get ⟨i, hi⟩) = some v →
          evalAtom F 1 (.name (fd.names.get ⟨i, hi⟩))
              { st1 with scopes := bindParams fd.names fd.defaults args1 kwargs ([] :: st1.scopes) }
            = some (.ok v
              { st1 with
                scopes := bindParams fd.names fd.defaults args1 kwargs ([] :: st1.scopes) })) ∧
        (args1.length ≤ i → kwargs.find (fd.names.get ⟨i, hi⟩) = none →
          ∀ (hd : fd.names.length - fd.defaults.length ≤ i),
          evalAtom F 1 (.name (fd.names.get ⟨i, hi⟩))
              { st1 with scopes := bindParams fd.names fd.defaults args1 kwargs ([] :: st1.scopes) }
            = some (.ok (fd.defaults.get ⟨i - (fd.names.length - fd.defaults.length), by omega⟩)
              { st1 with
                scopes := bindParams fd.names fd.defaults args1 kwargs ([] :: st1.scopes) }))) ∧
      callAfter F progDefaults "f" [posArg (numT "1")] = some (BigInt.lit false "31") ∧
      callAfter F progDefaults "f" [posArg (numT "1"), posArg (numT "2")]
        = some (BigInt.lit false "23") ∧
      callAfter F progDefaults "f" [posArg (numT "1"), kwArg "c" (numT "5")]
        = some (BigInt.lit false "16") := by
  refine ⟨evalTrailer_call F fuel funcName args st st1 fd0 fd args1 kwargs h0 hargs h1, ?_,
    rfl, rfl, rfl⟩
  intro i hi
  have hds : (fd.names.length + 2 ^ 64 - fd.defaults.length) % 2 ^ 64
      = fd.names.length - fd.defaults.length := by
    have : fd.names.length + 2 ^ 64 - fd.defaults.length
        = (fd.names.length - fd.defaults.length) + 2 ^ 64 := by omega
    rw [this, Nat.add_mod_right]
    exact Nat.mod_eq_of_lt (by omega)
  have hget := bindLoop_get (fd.names.length - fd.defaults.length) fd.defaults args1 kwargs
    fd.names 0 ([] :: st1.scopes) i hi (by simp) hnd
  simp only [Nat.zero_add] at hget
  have hatom : ∀ (s : State) (n : String) (w : Value), getVar s.scopes n = .ok w →
      evalAtom F 1 (.name n) s = some (.ok w s) := by
    intro s n w hw
    simp only [evalAtom]
    rw [Exec.bind_ok (Exec.get_apply s), hw]
    rfl
  refine ⟨?_, ?_, ?_⟩
  · intro hp
    apply hatom
    simp only [bindParams, hds]
    rw [hget]
    simp only [hp, if_true]
    rw [List.getD_eq_getElem _ _ hp]
    rfl
  · intro hp v hv
    apply hatom
    simp only [bindParams, hds]
    rw [hget]
    have c1 : ¬ (i < args1.length) := by omega
    simp only [c1, if_false, hv]
  · intro hp hv hd
    apply hatom
    simp only [bindParams, hds]
    rw [hget]
    have c1 : ¬ (i < args1.length) := by omega
    have c3 : i ≥ fd.names.length - fd.defaults.length := hd
    have hlt : i - (fd.names.length - fd.defaults.length) < fd.defaults.length := by omega
    simp only [c1, if_false, hv, c3, if_true]
    rw [List.getD_eq_getElem _ _ hlt]
    rfl

theorem call_binds_parameters_witness :
    (∀ F : FloatOps,
      evalAtom F 1 (.name "c")
          ⟨bindParams ["a", "b", "c"] [.int (BigInt.lit false "10"), .int (BigInt.lit false "20")]
              [.int (BigInt.lit false "1")] [] [[], []],
            [("f", ⟨["a", "b", "c"],
              [.int (BigInt.lit false "10"), .int (BigInt.lit false "20")],
              .simple (.returnStmt none)⟩)], []⟩
        = some (.ok (.int (BigInt.lit false "20"))
          ⟨bindParams ["a", "b", "c"] [.int (BigInt.lit false "10"), .int (BigInt.lit false "20")]
              [.int (BigInt.lit false "1")] [] [[], []],
            [("f", ⟨["a", "b", "c"],
              [.int (BigInt.lit false "10"), .int (BigInt.lit false "20")],
              .simple (.returnStmt none)⟩)], []⟩)) ∧
      (∀ F : FloatOps, callAfter F progDefaults "f" [posArg (numT "1")]
        = some (BigInt.lit false "31")) :=
  ⟨fun F => ((call_binds_parameters F 20 "f" [posArg (numT "1")]
      ⟨[[]], [("f", ⟨["a", "b", "c"],
        [.int (BigInt.lit false "10"), .int (BigInt.lit false "20")],
        .simple (.returnStmt none)⟩)], []⟩
      ⟨[[]], [("f", ⟨["a", "b", "c"],
        [.int (BigInt.lit false "10"), .int (BigInt.lit false "20")],
        .simple (.returnStmt none)⟩)], []⟩
      ⟨["a", "b", "c"], [.int (BigInt.lit false "10"), .int (BigInt.lit false "20")],
        .simple (.returnStmt none)⟩
      ⟨["a", "b", "c"], [.int (BigInt.lit false "10"), .int (BigInt.lit false "20")],
        .simple (.returnStmt none)⟩
      [.int (BigInt.lit false "1")] [] rfl rfl rfl (by decide) (by decide) (by decide)).2.1 2
      (by decide)).2.2 (by decide) rfl (by decide),
    fun F => (call_binds_parameters F 20 "f" [posArg (numT "1")]
      ⟨[[]], [("f", ⟨["a", "b", "c"],
        [.int (BigInt.lit false "10"), .int (BigInt.lit false "20")],
        .simple (.returnStmt none)⟩)], []⟩
      ⟨[[]], [("f", ⟨["a", "b", "c"],
        [.int (BigInt.lit false "10"), .int (BigInt.lit false "20")],
        .simple (.returnStmt none)⟩)], []⟩
      ⟨["a", "b", "c"], [.int (BigInt.lit false "10"), .int (BigInt.lit false "20")],
        .simple (.returnStmt none)⟩
      ⟨["a", "b", "c"], [.int (BigInt.lit false "10"), .int (BigInt.lit false "20")],
        .simple (.returnStmt none)⟩
      [.int (BigInt.lit false "1")] [] rfl rfl rfl (by decide) (by decide) (by decide)).2.2.1⟩

/-- C9: a `break` that leaves the body of a user function is thrown as a bare `FlowType`,
which the `catch` of the call (for the `Return` pair only) does not handle, so `popScope`
is skipped: after `def f(): break`, the loop `while True: f()` ends normally and the scope
stack, of depth 1 before, has depth 2. -/
theorem break_in_call_leaks_scope (F : FloatOps) :
    scopesAfter (execStmts F 40 (progBreakInCall.take 1) State.module) = some [[]] ∧
      scopesAfter (execStmts F 40 progBreakInCall State.module) = some [[], []] :=
  ⟨rfl, rfl⟩

/-- C10: the chained assignment `a = b = e`, with `e` evaluating to a non-tuple value,
counts two target names against one value and binds nothing: its only effect is that of
evaluating `e`. -/
theorem chained_assignment_binds_nothing (F : FloatOps) (fuel : Nat) (a b : String)
    (rhs : Testlist) (st st1 : State) (v : Value)
    (hev : evalTestlist F fuel rhs st = some (.ok v st1))
    (hv : ∀ elts, v ≠ .tuple elts) :
    execSmall F (fuel + 1) (.exprStmt (nameT a).toTestlist [(nameT b).toTestlist, rhs]) st
      = some (.ok () st1) := by
  have hlast : [(nameT b).toTestlist, rhs].getLast (by simp) = rhs := rfl
  simp only [execSmall, hlast]
  rw [Exec.bind_ok hev]
  have hlist : (match v with
      | .tuple elts => elts
      | w => [w]) = [v] := by
    cases v with
    | tuple elts => exact absurd rfl (hv elts)
    | _ => rfl
  simp only [hlist]
  rfl

theorem chained_assignment_binds_nothing_witness :
    (∀ F : FloatOps, execSmall F 41 stmtChained State.module = some (.ok () State.module)) ∧
      getVar State.module.scopes "a"
        = .error (.runtimeError "name \x27a\x27 is not defined") ∧
      getVar State.module.scopes "b"
        = .error (.runtimeError "name \x27b\x27 is not defined") :=
  ⟨fun F => chained_assignment_binds_nothing F 40 "a" "b" (numT "5").toTestlist State.module
      State.module (.int (BigInt.lit false "5")) rfl (fun _ h => by cases h),
    rfl, rfl⟩

/-! ## Comparisons, augmented assignment, division by zero -/

/-- A `test` that holds one `arith_expr` evaluates to the value of that expression. -/
theorem evalTest_toTest (F : FloatOps) (fuel : Nat) (a : ArithExpr) (st st1 : State) (v : Value)
    (h : evalArith F fuel a st = some (.ok v st1)) :
    evalTest F (fuel + 7) a.toTest st = some (.ok v st1) := by
  simp only [ArithExpr.toTest, evalTest, evalOrTest, orLoop, evalAndTest, andLoop, evalNotTest,
    evalComparison]
  rw [Exec.bind_apply, Exec.bind_apply, h]
  simp only []
  by_cases h1 : isTrue F v = true
  · simp [h1, Exec.pure_apply]
  · simp [h1, Exec.pure_apply]

/-- C11: `visitComparison` visits `arith[i]` and `arith[i + 1]` in every round, so an
interior operand is evaluated twice when the comparison before it holds: with
`def g(): print(7); return 2`, the statement `1 < g() < 3` prints `7` twice; the statement
`3 < g() < 1` stops at the first false comparison and prints `7` once. -/
theorem chained_comparison_revisits_operand (F : FloatOps) :
    outAfter (execStmts F 60 (progChain "1" "3") State.module) = some "7\n7\n".toList ∧
      outAfter (execStmts F 60 (progChain "3" "1") State.module) = some "7\n".toList :=
  ⟨rfl, rfl⟩

theorem BigInt.compareLoop_self : ∀ s : Str, BigInt.compareLoop s s = 0
  | [] => rfl
  | c :: s => by simp [BigInt.compareLoop, BigInt.compareLoop_self s]

theorem BigInt.opLt_self (a : BigInt) : BigInt.opLt a a = false := by
  simp [BigInt.opLt, BigInt.compare, BigInt.compareLoop_self]

/-- C12: `Int == Float` converts the Float with `toInt`, the cast `(long long)d`, and then
compares two Ints: every Float `d` compares equal to the Int `(long long)d`, in both
orders, and `!=` is false. With `d = 1.5` the cast gives `1`, which is the Int `1`, so
`1 == 1.5` is `True`. -/
theorem int_eq_float_compares_truncation (F : FloatOps) (d : Double) :
    compareOp F .eq (.int (BigInt.ofLong (F.toLong d))) (.float d) = true ∧
      compareOp F .eq (.float d) (.int (BigInt.ofLong (F.toLong d))) = true ∧
      compareOp F .ne (.int (BigInt.ofLong (F.toLong d))) (.float d) = false ∧
      compareOp F .ne (.float d) (.int (BigInt.ofLong (F.toLong d))) = false ∧
      BigInt.ofLong 1 = BigInt.lit false "1" := by
  refine ⟨?_, ?_, ?_, ?_, by decide⟩ <;>
    simp [compareOp, tryConvertForCompare, compareValues, BigInt.opLt_self, BigInt.opGt]

/-- C13: for a Str with a non-Str, or with either side `None`, `==` is `False` and `!=` is
`True` whatever the tags, also for two operands of the same tag `None`: `None == None`
evaluates to `False` and `None != None` to `True`. -/
theorem none_eq_none_is_false (F : FloatOps) :
    (∀ a b : Value, (a.isNone || b.isNone || (a.isStr != b.isStr)) = true →
        compareOp F .eq a b = false ∧ compareOp F .ne a b = true) ∧
      evalTest F 60 (compareT (atomA .none) [(.eq, atomA .none)]) State.module
        = some (.ok (.bool false) State.module) ∧
      evalTest F 60 (compareT (atomA .none) [(.ne, atomA .none)]) State.module
        = some (.ok (.bool true) State.module) := by
  refine ⟨?_, rfl, rfl⟩
  intro a b h
  cases a <;> cases b <;>
    simp_all [compareOp, tryConvertForCompare, compareValues, Value.isNone, Value.isStr]

/-- C14: for incomparable operands `compareValues` returns `-2`, which is negative: `<` and
`<=` evaluate to `True`, `>` and `>=` to `False`; so for a Str and an Int, and for `None`
and any value, and `"a" < 1` evaluates to `True`. -/
theorem ordering_of_incomparable_kinds (F : FloatOps) :
    (∀ (s : Str) (n : BigInt),
        compareOp F .lt (.str s) (.int n) = true ∧ compareOp F .le (.str s) (.int n) = true ∧
        compareOp F .gt (.str s) (.int n) = false ∧ compareOp F .ge (.str s) (.int n) = false) ∧
      (∀ v : Value,
        compareOp F .lt .none v = true ∧ compareOp F .le .none v = true ∧
        compareOp F .gt .none v = false ∧ compareOp F .ge .none v = false) ∧
      evalTest F 60 (compareT (strA "a") [(.lt, numA "1")]) State.module
        = some (.ok (.bool true) State.module) := by
  refine ⟨?_, ?_, rfl⟩
  · intro s n
    simp [compareOp, compareValues]
  · intro v
    cases v <;> simp [compareOp, compareValues]

/-- C15: with `x = 1`, the statement `x += True` leaves `x` bound to the Int `2` (both
operands go through `toInt`), whereas the binary expression `x + True` evaluates in
`visitArith_expr` to a Float (both operands go through `toFloat`). -/
theorem augmented_add_differs_from_binary (F : FloatOps) :
    scopesAfter (execStmts F 60 progAugBool State.module)
        = some [[("x", .int (BigInt.lit false "2"))]] ∧
      evalTest F 60 (plusT (nameA "x") (atomA .true))
          ⟨[[("x", .int (BigInt.lit false "1"))]], [], []⟩
        = some (.ok (.float (F.add (F.ofLong 1) (F.ofLong 1)))
          ⟨[[("x", .int (BigInt.lit false "1"))]], [], []⟩) :=
  ⟨rfl, evalTest_toTest F 53 _ _ _ _ rfl⟩

/-- C16: true division never raises for an Int dividend and an Int or Float divisor: both
operands are converted with `toFloat` and divided as doubles, also when the divisor is
zero; `1 / 0` evaluates to the Float `1.0 / 0.0`. -/
theorem true_division_by_zero_returns (F : FloatOps) :
    (∀ a b : BigInt, termOp F .div (.int a) (.int b)
        = .ok (.float (F.div (F.ofLong a.toLong) (F.ofLong b.toLong)))) ∧
      (∀ (a : BigInt) (d : Double), termOp F .div (.int a) (.float d)
        = .ok (.float (F.div (F.ofLong a.toLong) d))) ∧
      evalTest F 60 (termT (numA "1") .div (numA "0")) State.module
        = some (.ok (.float (F.div (F.ofLong 1) (F.ofLong 0))) State.module) :=
  ⟨fun _ _ => rfl, fun _ _ => rfl, evalTest_toTest F 53 _ _ _ _ rfl⟩

/-- C17: with the divisor `"0"` the magnitude `divmod`, `operator/`, `operator%`,
`floorDiv` and `floorMod` throw `division by zero` and return nothing, for every dividend;
`//` and `%` on two Ints in `visitTerm` then fail with the runtime error
`division by zero`. -/
theorem division_by_zero_fails (a : BigInt) (sign : Bool) :
    BigInt.divmod a.digits ['0'] = none ∧
      BigInt.opDiv a ⟨sign, ['0']⟩ = none ∧ BigInt.opMod a ⟨sign, ['0']⟩ = none ∧
      floorDiv a ⟨sign, ['0']⟩ = none ∧ floorMod a ⟨sign, ['0']⟩ = none ∧
      (∀ F : FloatOps,
        termOp F .idiv (.int a) (.int ⟨sign, ['0']⟩) = .error (.runtimeError "division by zero") ∧
        termOp F .mod (.int a) (.int ⟨sign, ['0']⟩)
          = .error (.runtimeError "division by zero")) := by
  have h1 : BigInt.opDiv a ⟨sign, ['0']⟩ = none := by simp [BigInt.opDiv]
  have h2 : floorDiv a ⟨sign, ['0']⟩ = none := h1
  have h3 : floorMod a ⟨sign, ['0']⟩ = none := by simp [floorMod, h1]
  refine ⟨by simp [BigInt.divmod], h1, by simp [BigInt.opMod], h2, h3, fun F => ?_⟩
  exact ⟨by simp [termOp, h2], by simp [termOp, h3]⟩

/-- C18: `toInt` checks the characters before any trimming and does not ask for a digit
after the sign: the lone sign `"-"` (and `"+"`) is accepted and gives the Int `0`, and
`" 12"`, a digit string after a blank, is rejected with `invalid literal for int()`;
`"abc"` and `""` are rejected and `"-12"` gives `-12`. -/
theorem toInt_lone_sign_and_blank (F : FloatOps) :
    toInt F (.str "-".toList) = .ok (BigInt.lit false "0") ∧
      toInt F (.str "+".toList) = .ok (BigInt.lit false "0") ∧
      toInt F (.str " 12".toList) = .error (.runtimeError "invalid literal for int()") ∧
      toInt F (.str "abc".toList) = .error (.runtimeError "invalid literal for int()") ∧
      toInt F (.str []) = .error (.runtimeError "invalid literal for int()") ∧
      toInt F (.str "-12".toList) = .ok (BigInt.lit true "12") :=
  ⟨rfl, rfl, rfl, rfl, rfl, rfl⟩

/-! ## Conversions between BigInt, machine integers and strings -/

theorem all_isdigit_iff (s : Str) : s.all isdigit = true ↔ IsDigits s := by
  simp [List.all_eq_true, isdigit, IsDigits]

theorem digit_ne_blank {c : Char} (h : 48 ≤ c.toNat ∧ c.toNat ≤ 57) :
    c ≠ ' ' ∧ c ≠ '-' ∧ c ≠ '+' := by
  refine ⟨?_, ?_, ?_⟩ <;> intro hc <;> subst hc <;> revert h <;> decide

namespace BigInt

/-- The string constructor on a digit string. -/
theorem ofString_digits {ds : Str} (hd : IsDigits ds) :
    ofString ds = ⟨false, trimZeros ds⟩ := by
  cases ds with
  | nil => rfl
  | cons c rest =>
    obtain ⟨h1, h2, h3⟩ := digit_ne_blank (isDigits_cons.1 hd).1
    have e1 : (c == ' ') = false := by simpa using h1
    have e2 : (c == '-') = false := by simpa using h2
    simp only [ofString, List.dropWhile, e1, e2, Bool.false_eq_true, if_false, ite_self]
    refine congrArg (fun m => (⟨false, trimZeros m⟩ : BigInt)) ?_
    split
    · next r heq =>
      simp only [List.cons.injEq] at heq
      exact absurd heq.1 h3
    · rfl

/-- The string constructor on `-` followed by a digit string. -/
theorem ofString_minus {ds : Str} (hd : IsDigits ds) :
    ofString ('-' :: ds) =
      if trimZeros ds = ['0'] then ⟨false, trimZeros ds⟩ else ⟨true, trimZeros ds⟩ := by
  have e1 : ('-' == ' ') = false := by decide
  simp only [ofString, List.dropWhile, e1, beq_self_eq_true, if_true]
  refine congrArg (fun m => if trimZeros m = ['0'] then (⟨false, trimZeros m⟩ : BigInt)
    else ⟨true, trimZeros m⟩) ?_
  split
  · next r =>
    exact absurd rfl (digit_ne_blank (isDigits_cons.1 hd).1).2.2
  · rfl

/-- The string constructor on `+` followed by a digit string. -/
theorem ofString_plus (ds : Str) :
    ofString ('+' :: ds) = ⟨false, trimZeros ds⟩ := by
  have e1 : ('+' == ' ') = false := by decide
  have e2 : ('+' == '-') = false := by decide
  simp only [ofString, List.dropWhile, e1, e2, Bool.false_eq_true, if_false, ite_self]

end BigInt

/-- C19: for every well-formed BigInt `n`, `toInt` of the string `toStr` gives for the Int
`n` succeeds and returns `n`. -/
theorem toInt_toStr_roundtrip (F : FloatOps) (n : BigInt) (hn : n.WF) :
    toInt F (.str (toStr F (.int n))) = .ok n := by
  obtain ⟨neg, ds⟩ := n
  obtain ⟨hc, hz⟩ := hn
  simp only at hc hz
  have hd : IsDigits ds := hc.2.1
  cases ds with
  | nil => exact absurd rfl hc.1
  | cons c rest =>
    cases neg with
    | true =>
      have hall : (c :: rest).all isdigit = true := (all_isdigit_iff _).2 hd
      have hne : BigInt.trimZeros (c :: rest) ≠ ['0'] := by
        rw [BigInt.trimZeros_of_canon hc]
        intro h
        have := hz h
        cases this
      have e : toInt F (.str ('-' :: c :: rest)) = .ok (BigInt.ofString ('-' :: c :: rest)) := by
        simp only [toInt]
        have e1 : ('-' == '+' || '-' == '-') = true := by decide
        simp only [e1, if_true, hall]
      simp only [toStr, BigInt.toString, if_true]
      rw [e, BigInt.ofString_minus hd, if_neg hne, BigInt.trimZeros_of_canon hc]
    | false =>
      obtain ⟨_, h2, h3⟩ := digit_ne_blank (isDigits_cons.1 hd).1
      have hall : (c :: rest).all isdigit = true := (all_isdigit_iff _).2 hd
      have e : toInt F (.str (c :: rest)) = .ok (BigInt.ofString (c :: rest)) := by
        simp only [toInt]
        have e1 : (c == '+' || c == '-') = false := by simp [h2, h3]
        simp only [e1, Bool.false_eq_true, if_false, hall, if_true]
      simp only [toStr, BigInt.toString, Bool.false_eq_true, if_false]
      rw [e, BigInt.ofString_digits hd, BigInt.trimZeros_of_canon hc]

theorem toInt_toStr_roundtrip_witness :
    (BigInt.lit true "120").WF ∧
      ∀ F : FloatOps, toInt F (.str (toStr F (.int (BigInt.lit true "120"))))
        = .ok (BigInt.lit true "120") :=
  ⟨by decide, fun F => toInt_toStr_roundtrip F (BigInt.lit true "120") (by decide)⟩

namespace BigInt

theorem ofLongLoop_zero (fuel : Nat) : ofLongLoop fuel 0 = [] := by
  cases fuel <;> simp [ofLongLoop]

/-- The digit loop of `BigInt(long long)` on a positive number: its digits, least
significant first, ending in a non-zero digit. -/
theorem ofLongLoop_spec : ∀ (fuel m : Nat), m ≤ fuel → 0 < m →
    IsDigits (ofLongLoop fuel (m : Int)) ∧ toNum (ofLongLoop fuel (m : Int)).reverse = m ∧
      ofLongLoop fuel (m : Int) ≠ [] ∧
      (ofLongLoop fuel (m : Int)).reverse.head? ≠ some '0'
  | 0, m, h, hpos => by omega
  | fuel + 1, m, h, hpos => by
    have hm0 : (m : Int) ≠ 0 := by omega
    have hmod : Int.tmod (m : Int) 10 = ((m % 10 : Nat) : Int) := by
      rw [Int.tmod_eq_emod (by omega) (by norm_num)]; omega
    have hdiv : Int.tdiv (m : Int) 10 = ((m / 10 : Nat) : Int) := by
      rw [Int.tdiv_eq_ediv (by omega) (by norm_num)]; omega
    have hch : Char.ofNat (48 + Int.tmod (m : Int) 10).toNat = dchar (m % 10) := by
      rw [hmod]
      have : (48 + ((m % 10 : Nat) : Int)).toNat = 48 + m % 10 := by omega
      rw [this]; rfl
    have hlt : m % 10 < 10 := Nat.mod_lt _ (by norm_num)
    have hdig := dchar_toNat hlt
    simp only [ofLongLoop, hm0, if_false, hch, hdiv]
    by_cases hq : m / 10 = 0
    · have hm : m % 10 = m := Nat.mod_eq_of_lt (by omega)
      rw [hq]
      simp only [Nat.cast_zero, ofLongLoop_zero]
      refine ⟨isDigits_dchar hlt, ?_, by simp, ?_⟩
      · have hd := dval_dchar hlt
        rw [hm] at hd
        simp [toNum_single, hm, hd]
      · simp only [List.reverse_cons, List.reverse_nil, List.nil_append, List.head?_cons, ne_eq,
          Option.some.injEq]
        exact dchar_ne_zero hlt (by omega)
    · obtain ⟨i1, i2, i3, i4⟩ := ofLongLoop_spec fuel (m / 10) (by omega) (by omega)
      refine ⟨isDigits_cons.2 ⟨by rw [hdig]; omega, i1⟩, ?_, by simp, ?_⟩
      · rw [toNum_reverse_cons, i2, dval_dchar hlt]; omega
      · rw [List.reverse_cons]
        have hne : (ofLongLoop fuel ((m / 10 : Nat) : Int)).reverse ≠ [] := by
          simpa using i3
        cases hr : (ofLongLoop fuel ((m / 10 : Nat) : Int)).reverse with
        | nil => exact absurd hr hne
        | cons x xs =>
          rw [hr] at i4
          simpa using i4

theorem wrap64_of_range {x : Int} (h1 : -2 ^ 63 ≤ x) (h2 : x < 2 ^ 63) : wrap64 x = x := by
  unfold wrap64
  have e1 : (2 : Int) ^ 63 = 9223372036854775808 := by norm_num
  have e2 : (2 : Int) ^ 64 = 18446744073709551616 := by norm_num
  rw [e1, e2] at *
  omega

/-- The constructor from a machine integer above the minimum value: a well-formed
`BigInt` denoting that integer. -/
theorem ofLong_spec {n : Int} (h1 : -2 ^ 63 < n) (h2 : n < 2 ^ 63) :
    WF (ofLong n) ∧ val (ofLong n) = n := by
  have key : ∀ (m : Nat) (neg : Bool), 0 < m →
      WF ⟨neg, (ofLongLoop m (m : Int)).reverse⟩ ∧
        toNum (ofLongLoop m (m : Int)).reverse = m := by
    intro m neg hpos
    obtain ⟨i1, i2, i3, i4⟩ := ofLongLoop_spec m m (le_refl _) hpos
    refine ⟨⟨⟨by simpa using i3, isDigits_reverse.2 i1, fun h => absurd h i4⟩, ?_⟩, i2⟩
    intro h0
    simp only at h0
    rw [h0] at i2
    have : toNum (['0'] : Str) = 0 := rfl
    omega
  unfold ofLong
  by_cases hneg : n < 0
  · have hw : wrap64 (-n) = -n := wrap64_of_range (by omega) (by omega)
    simp only [hneg, if_true, hw, decide_True]
    have hne : -n ≠ 0 := by omega
    simp only [hne, if_false]
    have hcast : (-n) = (((-n).natAbs : Nat) : Int) := by omega
    obtain ⟨k1, k2⟩ := key (-n).natAbs true (by omega)
    rw [← hcast] at k1 k2
    refine ⟨k1, ?_⟩
    simp only [val, if_true, k2]
    omega
  · simp only [hneg, if_false, decide_False]
    by_cases hz : n = 0
    · subst hz
      simp only [if_true]
      exact ⟨wf_zero, rfl⟩
    · simp only [hz, if_false]
      have hcast : n = ((n.natAbs : Nat) : Int) := by omega
      obtain ⟨k1, k2⟩ := key n.natAbs false (by omega)
      rw [← hcast] at k1 k2
      refine ⟨k1, ?_⟩
      simp only [val, Bool.false_eq_true, if_false, k2]
      omega

/-- With a non-zero divisor `operator%` returns a well-formed value. -/
theorem opMod_wf {a b : BigInt} (ha : WF a) (hb : WF b) (hb0 : b.digits ≠ ['0']) :
    ∃ m, opMod a b = some m ∧ WF m := by
  obtain ⟨q, r, hdm, _, hr, _, _⟩ := divmod_spec ha.1 hb.1 hb0
  unfold opMod
  simp only [hb0, if_false, hdm]
  by_cases hz : r = ['0']
  · exact ⟨_, by rw [if_pos hz], by rw [hz]; exact canon_zero, fun _ => rfl⟩
  · exact ⟨_, by rw [if_neg hz], hr, fun h => absurd h hz⟩

end BigInt

/-- C20: the representation invariant `WF` (non-empty digit string, no leading zero except
`"0"`, zero non-negative) holds for the `BigInt` built from a machine integer above the
minimum value and for the one built by the string constructor from a digit string with an
optional sign, and unary minus, `+`, `-`, `*`, and `/` and `%` with a non-zero divisor
return a well-formed result on well-formed operands. -/
theorem wf_established_and_preserved :
    (∀ n : Int, -2 ^ 63 < n → n < 2 ^ 63 →
        (BigInt.ofLong n).WF ∧ (BigInt.ofLong n).val = n) ∧
      (∀ ds : Str, IsDigits ds →
        (BigInt.ofString ds).WF ∧ (BigInt.ofString ('+' :: ds)).WF ∧
          (BigInt.ofString ('-' :: ds)).WF) ∧
      (∀ a : BigInt, a.WF → (BigInt.opNeg a).WF) ∧
      (∀ a b : BigInt, a.WF → b.WF →
        (BigInt.opAdd a b).WF ∧ (BigInt.opSub a b).WF ∧ (BigInt.opMul a b).WF) ∧
      (∀ a b : BigInt, a.WF → b.WF → b.val ≠ 0 →
        (∃ q, BigInt.opDiv a b = some q ∧ q.WF) ∧ (∃ m, BigInt.opMod a b = some m ∧ m.WF)) := by
  refine ⟨fun n h1 h2 => BigInt.ofLong_spec h1 h2, ?_, fun a ha => (BigInt.opNeg_spec ha).1,
    fun a b ha hb => ⟨(BigInt.opAdd_spec ha hb).1, (BigInt.opSub_spec ha hb).1,
      (BigInt.opMul_spec ha hb).1⟩, ?_⟩
  · intro ds hd
    have hc := BigInt.canon_trimZeros hd
    have hwf : ∀ neg : Bool, BigInt.trimZeros ds ≠ ['0'] →
        BigInt.WF ⟨neg, BigInt.trimZeros ds⟩ := fun neg h => ⟨hc, fun h0 => absurd h0 h⟩
    have hwf0 : BigInt.WF ⟨false, BigInt.trimZeros ds⟩ := ⟨hc, fun _ => rfl⟩
    refine ⟨?_, ?_, ?_⟩
    · rw [BigInt.ofString_digits hd]; exact hwf0
    · rw [BigInt.ofString_plus]; exact hwf0
    · rw [BigInt.ofString_minus hd]
      by_cases hz : BigInt.trimZeros ds = ['0']
      · rw [if_pos hz]; exact hwf0
      · rw [if_neg hz]; exact hwf true hz
  · intro a b ha hb hb0
    have hd := BigInt.digits_ne_zero_of_val hb hb0
    obtain ⟨q, hq, hqwf, _, _⟩ := BigInt.opDiv_spec ha hb hd
    exact ⟨⟨q, hq, hqwf⟩, BigInt.opMod_wf ha hb hd⟩

/-! ## Signed addition, multiplication and comparison -/

namespace BigInt

theorem toNum_pos_of_neg {a : BigInt} (ha : WF a) (h : a.negative = true) : 0 < toNum a.digits := by
  rcases Nat.eq_zero_or_pos (toNum a.digits) with h0 | h0
  · have := ha.2 ((canon_zero_iff ha.1).1 h0)
    rw [h] at this
    exact absurd this (by decide)
  · exact h0

theorem opAdd_same_sign {a b : BigInt} (ha : WF a) (hb : WF b) (hs : a.negative = b.negative) :
    (opAdd a b).negative = a.negative ∧
      toNum (opAdd a b).digits = toNum a.digits + toNum b.digits := by
  unfold opAdd
  simp only [hs, if_true]
  exact ⟨trivial, (add_spec ha.1.2.1 hb.1.2.1).2⟩

theorem opAdd_diff_sign_gt {a b : BigInt} (ha : WF a) (hb : WF b) (hs : a.negative ≠ b.negative)
    (hlt : toNum b.digits < toNum a.digits) :
    (opAdd a b).negative = a.negative ∧
      toNum (opAdd a b).digits = toNum a.digits - toNum b.digits := by
  have hgt := (compare_gt_iff ha.1 hb.1).2 hlt
  have hc0 : compare a.digits b.digits ≠ 0 := by omega
  unfold opAdd
  simp only [hs, if_false, hc0, hgt, if_true]
  have h2 := (sub_spec ha.1 hb.1 (le_of_lt hlt)).2
  exact ⟨trivial, by omega⟩

theorem opAdd_diff_sign_lt {a b : BigInt} (ha : WF a) (hb : WF b) (hs : a.negative ≠ b.negative)
    (hlt : toNum a.digits < toNum b.digits) :
    (opAdd a b).negative = b.negative ∧
      toNum (opAdd a b).digits = toNum b.digits - toNum a.digits := by
  have hgt : ¬ compare a.digits b.digits > 0 := by
    rw [compare_gt_iff ha.1 hb.1]; omega
  have hc0 : compare a.digits b.digits ≠ 0 := by
    rw [Ne, compare_eq_iff ha.1 hb.1]; omega
  unfold opAdd
  simp only [hs, if_false, hc0, hgt]
  have h2 := (sub_spec hb.1 ha.1 (le_of_lt hlt)).2
  exact ⟨trivial, by omega⟩

theorem opAdd_diff_sign_eq {a b : BigInt} (ha : WF a) (hb : WF b) (hs : a.negative ≠ b.negative)
    (he : toNum a.digits = toNum b.digits) : opAdd a b = zero := by
  have hc0 := (compare_eq_iff ha.1 hb.1).2 he
  unfold opAdd
  simp only [hs, if_false, hc0, if_true]

theorem wf_zero_nonneg {a : BigInt} (ha : WF a) (h : val a = 0) : a.negative = false :=
  ha.2 ((val_eq_zero_iff ha).1 h)

theorem opMul_digits {a b : BigInt} : (opMul a b).digits = mul a.digits b.digits := by
  unfold opMul
  simp only
  split <;> rfl

theorem opMul_sign {a b : BigInt} (h : mul a.digits b.digits ≠ ['0']) :
    (opMul a b).negative = (a.negative != b.negative) := by
  unfold opMul
  simp only [h, if_false]

theorem opLt_spec {a b : BigInt} (ha : WF a) (hb : WF b) : opLt a b = true ↔ val a < val b := by
  unfold opLt
  by_cases hs : a.negative = b.negative
  · simp only [hs, ne_eq, not_true_eq_false, if_false]
    cases hb2 : b.negative
    · have ha2 : a.negative = false := by rw [hs, hb2]
      simp only [Bool.false_eq_true, if_false, decide_eq_true_eq]
      rw [compare_lt_iff ha.1 hb.1, val_of_nonneg ha2, val_of_nonneg hb2]
      omega
    · have ha2 : a.negative = true := by rw [hs, hb2]
      simp only [if_true, decide_eq_true_eq]
      rw [compare_gt_iff ha.1 hb.1, val_of_neg ha2, val_of_neg hb2]
      omega
  · simp only [ne_eq, hs, not_false_eq_true, if_true]
    cases ha2 : a.negative
    · have hb2 : b.negative = true := by
        cases h : b.negative
        · exact absurd (ha2.trans h.symm) hs
        · rfl
      have := toNum_pos_of_neg hb hb2
      rw [val_of_nonneg ha2, val_of_neg hb2]
      constructor
      · intro h; exact absurd h (by decide)
      · intro h; omega
    · have hb2 : b.negative = false := by
        cases h : b.negative
        · rfl
        · exact absurd (ha2.trans h.symm) hs
      have := toNum_pos_of_neg ha ha2
      rw [val_of_neg ha2, val_of_nonneg hb2]
      constructor
      · intro _; omega
      · intro _; rfl

theorem opEq_spec {a b : BigInt} (ha : WF a) (hb : WF b) : opEq a b = true ↔ val a = val b := by
  constructor
  · intro h
    unfold opEq at h
    simp only [Bool.and_eq_true, beq_iff_eq] at h
    obtain ⟨an, ad⟩ := a
    obtain ⟨bn, bd⟩ := b
    simp only at h
    rw [h.1, h.2]
  · intro h
    have := val_inj ha hb h
    subst this
    unfold opEq
    simp

end BigInt

open BigInt in
/-- C21: signed addition of well-formed operands is exact. -/
theorem signed_addition_exact (a b : BigInt) (ha : a.WF) (hb : b.WF) :
    (opAdd a b).WF ∧ (opAdd a b).val = a.val + b.val ∧
    (a.negative = b.negative →
      (opAdd a b).negative = a.negative ∧
        toNum (opAdd a b).digits = toNum a.digits + toNum b.digits) ∧
    (a.negative ≠ b.negative → toNum b.digits < toNum a.digits →
      (opAdd a b).negative = a.negative ∧
        toNum (opAdd a b).digits = toNum a.digits - toNum b.digits) ∧
    (a.negative ≠ b.negative → toNum a.digits < toNum b.digits →
      (opAdd a b).negative = b.negative ∧
        toNum (opAdd a b).digits = toNum b.digits - toNum a.digits) ∧
    (a.negative ≠ b.negative → toNum a.digits = toNum b.digits → opAdd a b = BigInt.zero) ∧
    ((opAdd a b).val = 0 → (opAdd a b).negative = false) ∧
    opSub a b = opAdd a (opNeg b) ∧ (opSub a b).WF ∧ (opSub a b).val = a.val - b.val :=
  ⟨(opAdd_spec ha hb).1, (opAdd_spec ha hb).2, opAdd_same_sign ha hb,
    opAdd_diff_sign_gt ha hb, opAdd_diff_sign_lt ha hb, opAdd_diff_sign_eq ha hb,
    wf_zero_nonneg (opAdd_spec ha hb).1, rfl, (opSub_spec ha hb).1, (opSub_spec ha hb).2⟩

theorem signed_addition_exact_witness :
    (BigInt.lit true "95").WF ∧ (BigInt.lit false "100").WF ∧
    BigInt.opAdd (BigInt.lit true "95") (BigInt.lit false "100") = BigInt.lit false "5" ∧
    (BigInt.opAdd (BigInt.lit true "95") (BigInt.lit false "100")).val
      = (BigInt.lit true "95").val + (BigInt.lit false "100").val :=
  ⟨by decide, by decide, by decide,
    (signed_addition_exact (BigInt.lit true "95") (BigInt.lit false "100")
      (by decide) (by decide)).2.1⟩

open BigInt in
/-- C22: signed multiplication of well-formed operands is exact. -/
theorem signed_multiplication_exact (a b : BigInt) (ha : a.WF) (hb : b.WF) :
    (opMul a b).WF ∧ (opMul a b).val = a.val * b.val ∧
    toNum (opMul a b).digits = toNum a.digits * toNum b.digits ∧
    ((opMul a b).val ≠ 0 → (opMul a b).negative = (a.negative != b.negative)) ∧
    ((opMul a b).val = 0 → (opMul a b).negative = false) := by
  have hw := (opMul_spec ha hb).1
  refine ⟨hw, (opMul_spec ha hb).2, ?_, ?_, wf_zero_nonneg hw⟩
  · rw [opMul_digits]
    exact (mul_spec ha.1 hb.1).2
  · intro h
    apply opMul_sign
    have := digits_ne_zero_of_val hw h
    rwa [opMul_digits] at this

theorem signed_multiplication_exact_witness :
    (BigInt.lit true "12").WF ∧ (BigInt.lit false "12").WF ∧
    BigInt.opMul (BigInt.lit true "12") (BigInt.lit false "12") = BigInt.lit true "144" ∧
    (BigInt.opMul (BigInt.lit true "12") (BigInt.lit false "12")).val
      = (BigInt.lit true "12").val * (BigInt.lit false "12").val :=
  ⟨by decide, by decide, by decide,
    (signed_multiplication_exact (BigInt.lit true "12") (BigInt.lit false "12")
      (by decide) (by decide)).2.1⟩

open BigInt in
/-- C23: the comparison operators on well-formed operands decide the integer order. -/
theorem comparison_agrees_with_order (a b : BigInt) (ha : a.WF) (hb : b.WF) :
    (opLt a b = true ↔ a.val < b.val) ∧
    (opEq a b = true ↔ a.val = b.val) ∧
    (opGt a b = true ↔ b.val < a.val) ∧
    ((opLt a b = true ∧ opEq a b = false ∧ opGt a b = false) ∨
      (opLt a b = false ∧ opEq a b = true ∧ opGt a b = false) ∨
      (opLt a b = false ∧ opEq a b = false ∧ opGt a b = true)) ∧
    opLe a b = !opGt a b ∧ opGe a b = !opLt a b ∧ opNe a b = !opEq a b ∧
    (opLe a b = true ↔ a.val ≤ b.val) ∧ (opGe a b = true ↔ b.val ≤ a.val) ∧
    (opNe a b = true ↔ a.val ≠ b.val) := by
  have hlt := opLt_spec ha hb
  have hgt : opGt a b = true ↔ b.val < a.val := opLt_spec hb ha
  have heq := opEq_spec ha hb
  refine ⟨hlt, heq, hgt, ?_, rfl, rfl, rfl, ?_, ?_, ?_⟩
  · rcases lt_trichotomy a.val b.val with h | h | h
    · left
      refine ⟨hlt.2 h, ?_, ?_⟩
      · cases h1 : opEq a b
        · rfl
        · have := heq.1 h1; omega
      · cases h1 : opGt a b
        · rfl
        · have := hgt.1 h1; omega
    · right; left
      refine ⟨?_, heq.2 h, ?_⟩
      · cases h1 : opLt a b
        · rfl
        · have := hlt.1 h1; omega
      · cases h1 : opGt a b
        · rfl
        · have := hgt.1 h1; omega
    · right; right
      refine ⟨?_, ?_, hgt.2 h⟩
      · cases h1 : opLt a b
        · rfl
        · have := hlt.1 h1; omega
      · cases h1 : opEq a b
        · rfl
        · have := heq.1 h1; omega
  · have : opLe a b = !opGt a b := rfl
    rw [this]
    cases h1 : opGt a b
    · simp only [Bool.not_false, true_iff]
      by_contra hc
      have := hgt.2 (by omega)
      rw [h1] at this
      exact absurd this (by decide)
    · have := hgt.1 h1
      simp only [Bool.not_true, Bool.false_eq_true, false_iff]
      omega
  · have : opGe a b = !opLt a b := rfl
    rw [this]
    cases h1 : opLt a b
    · simp only [Bool.not_false, true_iff]
      by_contra hc
      have := hlt.2 (by omega)
      rw [h1] at this
      exact absurd this (by decide)
    · have := hlt.1 h1
      simp only [Bool.not_true, Bool.false_eq_true, false_iff]
      omega
  · have : opNe a b = !opEq a b := rfl
    rw [this]
    cases h1 : opEq a b
    · simp only [Bool.not_false, true_iff]
      intro hc
      have := heq.2 hc
      rw [h1] at this
      exact absurd this (by decide)
    · have := heq.1 h1
      simp only [Bool.not_true, Bool.false_eq_true, false_iff]
      exact fun h => h this

theorem comparison_agrees_with_order_witness :
    (BigInt.lit true "7").WF ∧ (BigInt.lit false "3").WF ∧
    BigInt.opLt (BigInt.lit true "7") (BigInt.lit false "3") = true ∧
    (BigInt.opLt (BigInt.lit true "7") (BigInt.lit false "3") = true ↔
      (BigInt.lit true "7").val < (BigInt.lit false "3").val) :=
  ⟨by decide, by decide, by decide,
    (comparison_agrees_with_order (BigInt.lit true "7") (BigInt.lit false "3")
      (by decide) (by decide)).1⟩

/-! ## Short-circuit operators -/

theorem orLoop_single (F : FloatOps) (n : Nat) (b : AndTest) (st : State) :
    orLoop F (n + 1) [b] st = evalAndTest F n b st := by
  simp only [orLoop]
  rw [Exec.bind_apply]
  cases h : evalAndTest F n b st with
  | none => rfl
  | some r =>
    cases r with
    | thrown t s => rfl
    | ok v s =>
      simp only []
      split <;> rfl

theorem andLoop_single (F : FloatOps) (n : Nat) (y : NotTest) (st : State) :
    andLoop F (n + 1) [y] st = evalNotTest F n y st := by
  simp only [andLoop]
  rw [Exec.bind_apply]
  cases h : evalNotTest F n y st with
  | none => rfl
  | some r =>
    cases r with
    | thrown t s => rfl
    | ok v s =>
      simp only []
      split <;> rfl

theorem evalTest_andT (F : FloatOps) (n : Nat) (x y : NotTest) (st : State) :
    evalTest F (n + 4) (andT x y) st = andLoop F n [x, y] st := by
  simp only [andT, evalTest, evalOrTest]
  rw [orLoop_single]
  simp only [evalAndTest]

/-- C24: `a or b` gives the value of `a` itself when `a` is truthy, in the state `a` left
(nothing of `b` runs), and otherwise the outcome of `b`; `x and y` gives the value of `x`
itself when `x` is falsy, in the state `x` left, and otherwise the outcome of `y`. -/
theorem short_circuit_value_preserving (F : FloatOps) (fuel : Nat) (a b : AndTest)
    (x y : NotTest) (st st1 st2 : State) (va vx : Value)
    (ha : evalAndTest F (fuel + 1) a st = some (.ok va st1))
    (hx : evalNotTest F (fuel + 1) x st = some (.ok vx st2)) :
    (isTrue F va = true → evalTest F (fuel + 4) (orT a b) st = some (.ok va st1)) ∧
    (isTrue F va = false → evalTest F (fuel + 4) (orT a b) st = evalAndTest F fuel b st1) ∧
    (isTrue F vx = false → evalTest F (fuel + 6) (andT x y) st = some (.ok vx st2)) ∧
    (isTrue F vx = true → evalTest F (fuel + 6) (andT x y) st = evalNotTest F fuel y st2) := by
  have hor : evalTest F (fuel + 4) (orT a b) st =
      (if isTrue F va = true then some (.ok va st1) else orLoop F (fuel + 1) [b] st1) := by
    simp only [orT, evalTest, evalOrTest]
    rw [orLoop, Exec.bind_ok ha]
    split <;> rfl
  have hand : evalTest F (fuel + 6) (andT x y) st =
      (if (!isTrue F vx) = true then some (.ok vx st2) else andLoop F (fuel + 1) [y] st2) := by
    rw [evalTest_andT, andLoop, Exec.bind_ok hx]
    split <;> rfl
  refine ⟨?_, ?_, ?_, ?_⟩
  · intro h; rw [hor, if_pos h]
  · intro h; rw [hor, if_neg (by simp [h]), orLoop_single]
  · intro h; rw [hand, if_pos (by simp [h])]
  · intro h; rw [hand, if_neg (by simp [h]), andLoop_single]

theorem short_circuit_value_preserving_witness :
    (∀ F : FloatOps,
      evalTest F 24 (orT (numA "5").toAndTest (callA "print" [posArg (numT "7")]).toAndTest)
          State.module = some (.ok (.int (BigInt.lit false "5")) State.module)) ∧
    (∀ F : FloatOps,
      evalTest F 26 (andT (numA "0").toNotTest (callA "print" [posArg (numT "7")]).toNotTest)
          State.module = some (.ok (.int (BigInt.lit false "0")) State.module)) :=
  ⟨fun F => (short_circuit_value_preserving F 20
      (numA "5").toAndTest (callA "print" [posArg (numT "7")]).toAndTest
      (numA "0").toNotTest (callA "print" [posArg (numT "7")]).toNotTest
      State.module State.module State.module
      (.int (BigInt.lit false "5")) (.int (BigInt.lit false "0")) rfl rfl).1 rfl,
   fun F => (short_circuit_value_preserving F 20
      (numA "5").toAndTest (callA "print" [posArg (numT "7")]).toAndTest
      (numA "0").toNotTest (callA "print" [posArg (numT "7")]).toNotTest
      State.module State.module State.module
      (.int (BigInt.lit false "5")) (.int (BigInt.lit false "0")) rfl rfl).2.2.1 rfl⟩

/-! ## Default values -/

theorem findFunc_setFunc_eq : ∀ (fs : List (String × FuncDef)) (name : String) (d : FuncDef),
    findFunc (setFunc fs name d) name = some d
  | [], name, d => by simp [setFunc, findFunc]
  | (k, x) :: rest, name, d => by
    by_cases h : k = name
    · simp [setFunc, findFunc, h]
    · simp [setFunc, findFunc, h, findFunc_setFunc_eq rest name d]

theorem bindParams_default (names : List String) (defaults args1 : List Value) (kwargs : Frame)
    (scopes : List Frame) (hs : scopes ≠ []) (hnd : names.Nodup) (hlen : names.length < 2 ^ 64)
    (hdl : defaults.length ≤ names.length) (i : Nat) (hi : i < names.length)
    (hp : args1.length ≤ i) (hv : kwargs.find (names.get ⟨i, hi⟩) = none)
    (hd : names.length - defaults.length ≤ i) :
    getVar (bindParams names defaults args1 kwargs scopes) (names.get ⟨i, hi⟩)
      = .ok (defaults.get ⟨i - (names.length - defaults.length), by omega⟩) := by
  have hds : (names.length + 2 ^ 64 - defaults.length) % 2 ^ 64
      = names.length - defaults.length := by
    have : names.length + 2 ^ 64 - defaults.length
        = (names.length - defaults.length) + 2 ^ 64 := by omega
    rw [this, Nat.add_mod_right]
    exact Nat.mod_eq_of_lt (by omega)
  have hget := bindLoop_get (names.length - defaults.length) defaults args1 kwargs
    names 0 scopes i hi hs hnd
  simp only [Nat.zero_add] at hget
  simp only [bindParams, hds]
  rw [hget]
  have c1 : ¬ (i < args1.length) := by omega
  have c3 : i ≥ names.length - defaults.length := hd
  have hlt : i - (names.length - defaults.length) < defaults.length := by omega
  simp only [c1, if_false, hv, c3, if_true]
  rw [List.getD_eq_getElem _ _ hlt]
  rfl

/-- C25: executing `def name(names..., defaults)` evaluates the default expressions once,
in order, and stores the values; a later call that omits a parameter with a default reads
the stored value, whatever the state is by then. -/
theorem defaults_evaluated_once (F : FloatOps) (fuel : Nat) (name : String)
    (names : List String) (defaults : List Test) (suite : Suite) (st st1 : State)
    (vals : List Value)
    (hev : evalTests F fuel defaults st = some (.ok vals st1)) :
    execStmt F (fuel + 1) ( Stmt.funcdef name names defaults suite) st
      = some (.ok () { st1 with functions := setFunc st1.functions name ⟨names, vals, suite⟩ }) ∧
    findFunc (setFunc st1.functions name ⟨names, vals, suite⟩) name = some ⟨names, vals, suite⟩ ∧
    (∀ (fuel2 : Nat) (args : List Argument) (st2 st3 : State) (args1 : List Value)
        (kwargs : Frame),
      findFunc st2.functions name = some ⟨names, vals, suite⟩ →
      callArgs F fuel2 args [] [] st2 = some (.ok (args1, kwargs) st3) →
      findFunc st3.functions name = some ⟨names, vals, suite⟩ →
      names.Nodup → names.length < 2 ^ 64 → vals.length ≤ names.length →
      evalTrailer F (fuel2 + 1) (.name name) args st2 =
          callResult (execSuite F fuel2 suite
            { st3 with scopes := bindParams names vals args1 kwargs ([] :: st3.scopes) }) ∧
        ∀ (i : Nat) (hi : i < names.length), args1.length ≤ i →
          kwargs.find (names.get ⟨i, hi⟩) = none →
          ∀ (hd : names.length - vals.length ≤ i),
            getVar (bindParams names vals args1 kwargs ([] :: st3.scopes)) (names.get ⟨i, hi⟩)
              = .ok (vals.get ⟨i - (names.length - vals.length), by omega⟩)) ∧
    outAfter (execStmts F 60 progDefaultOnce State.module) = some "7\n".toList ∧
    outAfter (execStmts F 60
        (progDefaultOnce ++ [.simple (callS "print" [posArg (callA "f" []).toTest]),
          .simple (callS "print" [posArg (callA "f" []).toTest])]) State.module)
      = some "7\n1\n1\n".toList ∧
    callAfter F progDefaultStale "f" [] = some (BigInt.lit false "1") := by
  refine ⟨?_, findFunc_setFunc_eq _ _ _, ?_, rfl, rfl, rfl⟩
  · simp only [execStmt]
    rw [Exec.bind_ok hev]
  · intro fuel2 args st2 st3 args1 kwargs h0 hargs h1 hnd hlen hdl
    refine ⟨evalTrailer_call F fuel2 name args st2 st3 _ _ args1 kwargs h0 hargs h1, ?_⟩
    intro i hi hp hv hd
    exact bindParams_default names vals args1 kwargs _ (by simp) hnd hlen hdl i hi hp hv hd

theorem defaults_evaluated_once_witness :
    (∀ F : FloatOps,
      execStmt F 31 ( Stmt.funcdef "f" ["x"] [numT "4"] (.simple (.returnStmt none))) State.module
        = some (.ok () { State.module with
            functions := setFunc State.module.functions "f"
              ⟨["x"], [.int (BigInt.lit false "4")], .simple (.returnStmt none)⟩ })) ∧
    (∀ F : FloatOps, callAfter F progDefaultStale "f" [] = some (BigInt.lit false "1")) :=
  ⟨fun F => (defaults_evaluated_once F 30 "f" ["x"] [numT "4"] (.simple (.returnStmt none))
      State.module State.module [.int (BigInt.lit false "4")] rfl).1,
   fun F => (defaults_evaluated_once F 30 "f" ["x"] [numT "4"] (.simple (.returnStmt none))
      State.module State.module [.int (BigInt.lit false "4")] rfl).2.2.2.2.2⟩

/-! ## Tuple unpacking -/

theorem evalTests_length (F : FloatOps) : ∀ (es : List Test) (fuel : Nat) (st st1 : State)
    (vals : List Value), evalTests F fuel es st = some (.ok vals st1) → vals.length = es.length
  | _, 0, _, _, _, h => by simp [evalTests, Exec.outOfFuel] at h
  | [], fuel + 1, st, st1, vals, h => by
    simp only [evalTests, Exec.pure_apply, Option.some.injEq, Res.ok.injEq] at h
    rw [← h.1]
    rfl
  | t :: rest, fuel + 1, st, st1, vals, h => by
    simp only [evalTests] at h
    rw [Exec.bind_apply] at h
    cases h1 : evalTest F fuel t st with
    | none => rw [h1] at h; simp at h
    | some r =>
      cases r with
      | thrown e s => rw [h1] at h; simp at h
      | ok v s =>
        rw [h1] at h
        simp only [] at h
        rw [Exec.bind_apply] at h
        cases h2 : evalTests F fuel rest s with
        | none => rw [h2] at h; simp at h
        | some r2 =>
          cases r2 with
          | thrown e s2 => rw [h2] at h; simp at h
          | ok vs s2 =>
            rw [h2] at h
            simp only [Exec.pure_apply, Option.some.injEq, Res.ok.injEq] at h
            rw [← h.1]
            simp [evalTests_length F rest fuel s s2 vs h2]

theorem targetName_nameT (n : String) : (nameT n).targetName = some n := rfl

/-- Binding a list of distinct names to as many values: every name reads its value
afterwards and other names are untouched. -/
theorem assignTargets_names : ∀ (names : List String) (vals : List Value) (scopes : List Frame),
    names.length = vals.length → scopes ≠ [] →
    ∃ s1, assignTargets (names.map nameT) vals scopes = some s1 ∧ s1 ≠ [] ∧
      (∀ y, y ∉ names → getVar s1 y = getVar scopes y) ∧
      (names.Nodup → ∀ (k : Nat) (hk : k < names.length) (hv : k < vals.length),
        getVar s1 (names.get ⟨k, hk⟩) = .ok (vals.get ⟨k, hv⟩))
  | [], vals, scopes, _, hs =>
    ⟨scopes, rfl, hs, fun _ _ => rfl, fun _ k hk => by simp at hk⟩
  | n :: rest, [], scopes, hl, _ => by simp at hl
  | n :: rest, v :: vs, scopes, hl, hs => by
    have hl1 : rest.length = vs.length := by simpa using hl
    obtain ⟨s1, h1, h2, h3, h4⟩ :=
      assignTargets_names rest vs (setVar scopes n v) hl1 (setVar_ne_nil n v hs)
    refine ⟨s1, ?_, h2, ?_, ?_⟩
    · simp only [List.map_cons, assignTargets, targetName_nameT, List.tail_cons, List.headD_cons]
      exact h1
    · intro y hy
      have hyn : y ≠ n := fun h => hy (by simp [h])
      have hyr : y ∉ rest := fun h => hy (by simp [h])
      rw [h3 y hyr, getVar_setVar_ne _ _ _ _ hyn]
    · intro hnd k hk hv
      have hn : n ∉ rest := (List.nodup_cons.1 hnd).1
      cases k with
      | zero =>
        simp only [List.get_eq_getElem, List.getElem_cons_zero]
        rw [h3 n hn, getVar_setVar_eq n v hs]
      | succ k =>
        have := h4 (List.nodup_cons.1 hnd).2 k (by simpa using hk) (by simpa using hv)
        simpa using this

theorem assign_single (F : FloatOps) (fuel : Nat) (name : String) (e : Test) (v : Value)
    (s0 s1 : State) (he : evalTest F fuel e s0 = some (.ok v s1))
    (hv : ∀ elts, v ≠ .tuple elts) :
    execSmall F (fuel + 2) (assignS name e) s0
      = some (.ok () { s1 with scopes := setVar s1.scopes name v }) := by
  have htl : evalTestlist F (fuel + 1) (.mk [e]) s0 = some (.ok v s1) := by
    simp only [evalTestlist]
    exact he
  simp only [assignS, execSmall, Test.toTestlist, List.getLast_singleton]
  rw [Exec.bind_ok htl]
  cases v with
  | tuple elts => exact absurd rfl (hv elts)
  | none => rfl
  | int b => rfl
  | float d => rfl
  | bool b => rfl
  | str t => rfl

/-- C26: `t1, ..., tn = e1, ..., en` for distinct names and `n ≥ 2` evaluates the whole right
side first and then binds each name to the value of its expression. -/
theorem tuple_unpacking_elementwise (F : FloatOps) (fuel : Nat) (names : List String)
    (es : List Test) (st st1 : State) (vals : List Value)
    (hnd : names.Nodup) (hlen : names.length = es.length) (h2 : 2 ≤ es.length)
    (hs : st1.scopes ≠ [])
    (hev : evalTests F fuel es st = some (.ok vals st1)) :
    vals.length = es.length ∧
    (∃ scopes,
      execSmall F (fuel + 2) (.exprStmt (.mk (names.map nameT)) [.mk es]) st
        = some (.ok () { st1 with scopes := scopes }) ∧
      (∀ (k : Nat) (hk : k < names.length) (hv : k < vals.length),
        getVar scopes (names.get ⟨k, hk⟩) = .ok (vals.get ⟨k, hv⟩)) ∧
      (∀ y, y ∉ names → getVar scopes y = getVar st1.scopes y)) ∧
    (∀ (name : String) (e : Test) (v : Value) (s0 s1 : State),
      evalTest F fuel e s0 = some (.ok v s1) → (∀ elts, v ≠ .tuple elts) →
      execSmall F (fuel + 2) (assignS name e) s0
        = some (.ok () { s1 with scopes := setVar s1.scopes name v })) ∧
    intAfter (execStmts F 40 progSwap State.module) "a" = some (BigInt.lit false "2") ∧
    intAfter (execStmts F 40 progSwap State.module) "b" = some (BigInt.lit false "1") ∧
    outAfter (execStmts F 60
        (progSwap ++ [.simple (callS "print" [posArg (nameT "a"), posArg (nameT "b")])])
        State.module) = some "2 1\n".toList := by
  have hvl := evalTests_length F es fuel st st1 vals hev
  refine ⟨hvl, ?_, assign_single F fuel, rfl, rfl, rfl⟩
  obtain ⟨s1, h1, _, h3, h4⟩ := assignTargets_names names vals st1.scopes (by omega) hs
  refine ⟨s1, ?_, h4 hnd, h3⟩
  match es, h2, hev with
  | e1 :: e2 :: rest, _, hev =>
    have htl : evalTestlist F (fuel + 1) (.mk (e1 :: e2 :: rest)) st
        = some (.ok (.tuple vals) st1) := by
      simp only [evalTestlist]
      rw [Exec.bind_ok hev]
      rfl
    simp only [execSmall, List.getLast_singleton]
    rw [Exec.bind_ok htl]
    simp only [List.dropLast_single, List.map_cons, List.map_nil, Testlist.tests,
      List.flatten_cons, List.flatten_nil, List.append_nil, List.length_map]
    have hl : names.length = vals.length := by omega
    simp only [hl, if_true]
    rw [Exec.bind_ok (Exec.get_apply st1)]
    simp only [h1]
    rfl

theorem tuple_unpacking_elementwise_witness :
    ["a", "b"].Nodup ∧
    (∀ F : FloatOps, ∃ scopes,
      execSmall F 32 (.exprStmt (.mk (["a", "b"].map nameT)) [.mk [nameT "b", nameT "a"]])
          ⟨[[("a", .int (BigInt.lit false "1")), ("b", .int (BigInt.lit false "2"))]], [], []⟩
        = some (.ok () ⟨scopes, [], []⟩) ∧
      (∀ (k : Nat) (hk : k < ["a", "b"].length)
          (hv : k < [Value.int (BigInt.lit false "2"), Value.int (BigInt.lit false "1")].length),
        getVar scopes (["a", "b"].get ⟨k, hk⟩)
          = .ok ([Value.int (BigInt.lit false "2"), Value.int (BigInt.lit false "1")].get
              ⟨k, hv⟩))) :=
  ⟨by decide, fun F =>
    match (tuple_unpacking_elementwise F 30 ["a", "b"] [nameT "b", nameT "a"]
      ⟨[[("a", .int (BigInt.lit false "1")), ("b", .int (BigInt.lit false "2"))]], [], []⟩
      ⟨[[("a", .int (BigInt.lit false "1")), ("b", .int (BigInt.lit false "2"))]], [], []⟩
      [.int (BigInt.lit false "2"), .int (BigInt.lit false "1")]
      (by decide) rfl (by decide) (by simp) rfl).2.1 with
    | ⟨scopes, h1, h2, _⟩ => ⟨scopes, h1, h2⟩⟩

/-! ## String repetition -/

theorem wrap32_of_range {x : Int} (h1 : -2 ^ 31 ≤ x) (h2 : x < 2 ^ 31) : wrap32 x = x := by
  unfold wrap32
  have e1 : (2 : Int) ^ 31 = 2147483648 := by norm_num
  have e2 : (2 : Int) ^ 32 = 4294967296 := by norm_num
  rw [e1, e2] at *
  omega

namespace BigInt

theorem toLong_fold (s : Str) (h : IsDigits s) (hb : (toNum s : Int) < 2 ^ 63) :
    s.foldl (fun r c => wrap64 (r * 10 + ((c.toNat : Int) - 48))) 0 = (toNum s : Int) := by
  induction s using List.reverseRecOn with
  | nil => rfl
  | append_singleton s c ih =>
    rw [isDigits_append] at h
    have hc := h.2 c (List.mem_singleton.2 rfl)
    rw [toNum_snoc] at hb ⊢
    have hd : ((c.toNat : Int) - 48) = (dval c : Int) := by
      unfold dval
      omega
    have hs : (toNum s : Int) < 2 ^ 63 := by push_cast at hb; omega
    rw [List.foldl_append, ih h.1 hs]
    simp only [List.foldl_cons, List.foldl_nil]
    rw [hd, wrap64_of_range]
    · push_cast; ring
    · have e1 : (2 : Int) ^ 63 = 9223372036854775808 := by norm_num
      rw [e1]; omega
    · push_cast at hb; omega

theorem toLong_spec {a : BigInt} (h : IsDigits a.digits) (hb : (toNum a.digits : Int) < 2 ^ 63) :
    toLong a = val a := by
  unfold toLong val
  simp only [toLong_fold a.digits h hb]
  split
  · apply wrap64_of_range
    · have e1 : (2 : Int) ^ 63 = 9223372036854775808 := by norm_num
      rw [e1] at *; omega
    · have e1 : (2 : Int) ^ 63 = 9223372036854775808 := by norm_num
      rw [e1] at *; omega
  · rfl

end BigInt

theorem repeatStr_eq_flatten (n : Nat) (s : Str) :
    repeatStr n s = (List.replicate n s).flatten := by
  induction n with
  | zero => rfl
  | succ n ih => simp [repeatStr, ih, List.replicate_succ]

theorem strTimes_spec (s : Str) (n : BigInt) (hn : n.WF) (h1 : -2 ^ 31 ≤ n.val)
    (h2 : n.val < 2 ^ 31) : strTimes s n = (List.replicate n.val.toNat s).flatten := by
  have e1 : (2 : Int) ^ 31 = 2147483648 := by norm_num
  have e3 : (2 : Int) ^ 63 = 9223372036854775808 := by norm_num
  have hb : (toNum n.digits : Int) < 2 ^ 63 := by
    rw [e1] at h1 h2
    rw [e3]
    cases hneg : n.negative
    · rw [BigInt.val_of_nonneg hneg] at h1 h2; omega
    · rw [BigInt.val_of_neg hneg] at h1 h2; omega
  unfold strTimes
  rw [BigInt.toLong_spec hn.1.2.1 hb, wrap32_of_range h1 h2, repeatStr_eq_flatten]

/-- C27: a negative repeat count outside the 32-bit range can narrow to a positive one. -/
theorem str_times_far_negative_counterexample :
    (BigInt.lit true "4294967295").WF ∧ (BigInt.lit true "4294967295").val < 0 ∧
    (∀ F : FloatOps, termOp F .star (.str "ab".toList) (.int (BigInt.lit true "4294967295"))
      = .ok (.str "ab".toList)) ∧
    "ab".toList ≠ [] :=
  ⟨by decide, by decide,
    fun _ => congrArg (fun x => Except.ok (Value.str x))
      (by decide! : strTimes "ab".toList (BigInt.lit true "4294967295") = "ab".toList),
    by decide⟩

/-- C27: with the count in the range of a 32-bit integer, `s * n` is empty for negative `n`
and is `n` copies of `s` otherwise. -/
theorem str_times_in_int_range (F : FloatOps) (s : Str) (n : BigInt) (hn : n.WF) :
    (-2 ^ 31 ≤ n.val → n.val < 0 → termOp F .star (.str s) (.int n) = .ok (.str [])) ∧
    (0 ≤ n.val → n.val < 2 ^ 31 →
      termOp F .star (.str s) (.int n) = .ok (.str (List.replicate n.val.toNat s).flatten)) := by
  have e1 : (2 : Int) ^ 31 = 2147483648 := by norm_num
  constructor
  · intro h1 h2
    have h := strTimes_spec s n hn h1 (by rw [e1]; omega)
    have h0 : n.val.toNat = 0 := by omega
    rw [h0] at h
    simp only [termOp, h]
    rfl
  · intro h1 h2
    have h := strTimes_spec s n hn (by rw [e1]; omega) h2
    simp only [termOp, h]

theorem str_times_in_int_range_witness :
    (BigInt.lit false "3").WF ∧
    ∀ F : FloatOps, termOp F .star (.str "ab".toList) (.int (BigInt.lit false "3"))
      = .ok (.str (List.replicate (BigInt.lit false "3").val.toNat "ab".toList).flatten) :=
  ⟨by decide, fun F =>
    (str_times_in_int_range F "ab".toList (BigInt.lit false "3") (by decide)).2
      (by decide) (by decide)⟩

/-! ## Format strings -/

theorem appendFStrLiteral_double (s : Str) : appendFStrLiteral (doubleBraces s) = s := by
  induction s with
  | nil => rfl
  | cons c s ih =>
    unfold doubleBraces
    by_cases h1 : c = '{'
    · subst h1
      simp only [true_or, if_true]
      simp only [appendFStrLiteral, beq_self_eq_true, Bool.and_self, if_true, ih]
    · by_cases h2 : c = '}'
      · subst h2
        simp only [or_true, if_true]
        simp [appendFStrLiteral, ih]
      · simp only [h1, h2, or_self, if_false]
        cases hd : doubleBraces s with
        | nil =>
          rw [hd] at ih
          rw [← ih]
          rfl
        | cons d rest =>
          rw [hd] at ih
          simp only [appendFStrLiteral, beq_iff_eq, h1, h2, false_and, Bool.false_eq_true,
            if_false, ih]
          simp [h1, h2, ih]

theorem doubleBraces_no_brace (s : Str) (h : ∀ c ∈ s, c ≠ '{' ∧ c ≠ '}') : doubleBraces s = s := by
  induction s with
  | nil => rfl
  | cons c s ih =>
    have hc := h c (List.mem_cons_self _ _)
    unfold doubleBraces
    simp only [hc.1, hc.2, or_self, if_false]
    rw [ih (fun d hd => h d (List.mem_cons_of_mem _ hd))]

/-- C28: `appendFStrLiteral` undoes the doubling of braces and leaves a brace-free literal
unchanged; the f-string of the example evaluates to `x=3, y={ok}, b=True`. -/
theorem fstring_literal_unescapes (F : FloatOps) :
    (∀ s : Str, appendFStrLiteral (doubleBraces s) = s) ∧
    (∀ s : Str, (∀ c ∈ s, c ≠ '{' ∧ c ≠ '}') → appendFStrLiteral s = s) ∧
    (∀ (fuel : Nat) (text : Str) (rest : List FPart) (st st1 : State) (s : Str),
      formatLoop F fuel rest st = some (.ok s st1) →
      formatLoop F (fuel + 1) (.literal text :: rest) st
        = some (.ok (appendFStrLiteral text ++ s) st1)) ∧
    valueOf (evalTest F 40 fstrExample ⟨[[("x", .int (BigInt.lit false "3"))]], [], []⟩)
      = some (.str "x=3, y=\x7bok\x7d, b=True".toList) ∧
    outAfter (execStmts F 60 progFstr State.module)
      = some "x=3, y=\x7bok\x7d, b=True\n".toList := by
  refine ⟨appendFStrLiteral_double, ?_, ?_, rfl, rfl⟩
  · intro s h
    have := appendFStrLiteral_double s
    rwa [doubleBraces_no_brace s h] at this
  · intro fuel text rest st st1 s h
    simp only [formatLoop]
    rw [Exec.bind_ok h]
    rfl

/-! ## Recursion: the factorial example -/

theorem evalFactor_name (F : FloatOps) (m : Nat) (x : String) (st : State) (v : Value)
    (h : getVar st.scopes x = .ok v) :
    evalFactor F (m + 3) (.atomExpr (nameA x)) st = some (.ok v st) := by
  simp only [nameA, evalFactor, evalAtomExpr, evalAtom]
  simp only [Exec.bind_apply, Exec.get_apply, h, Exec.lift, Exec.pure_apply]

theorem evalFactor_one (F : FloatOps) (m : Nat) (st : State) :
    evalFactor F (m + 3) (.atomExpr (numA "1")) st
      = some (.ok (.int (BigInt.lit false "1")) st) := rfl

theorem evalArith_name (F : FloatOps) (m : Nat) (x : String) (st : State) (v : Value)
    (h : getVar st.scopes x = .ok v) :
    evalArith F (m + 5) (nameA x).toArith st = some (.ok v st) := by
  simp only [AtomExpr.toArith, AtomExpr.toTerm, evalArith, evalTerm]
  rw [Exec.bind_apply, Exec.bind_apply, evalFactor_name F m x st v h]
  rfl

theorem evalArith_one (F : FloatOps) (m : Nat) (st : State) :
    evalArith F (m + 5) (numA "1").toArith st
      = some (.ok (.int (BigInt.lit false "1")) st) := rfl

theorem evalTerm_name (F : FloatOps) (m : Nat) (x : String) (st : State) (v : Value)
    (h : getVar st.scopes x = .ok v) :
    evalTerm F (m + 4) (nameA x).toTerm st = some (.ok v st) := by
  simp only [AtomExpr.toTerm, evalTerm]
  rw [Exec.bind_apply, evalFactor_name F m x st v h]
  rfl

theorem evalTerm_one (F : FloatOps) (m : Nat) (st : State) :
    evalTerm F (m + 4) (numA "1").toTerm st
      = some (.ok (.int (BigInt.lit false "1")) st) := rfl

theorem compareOp_le_int (F : FloatOps) {a b : BigInt} (ha : a.WF) (hb : b.WF) :
    compareOp F .le (.int a) (.int b) = decide (a.val ≤ b.val) := by
  have hlt := BigInt.opLt_spec ha hb
  have hgt : BigInt.opGt a b = true ↔ b.val < a.val := BigInt.opLt_spec hb ha
  simp only [compareOp, compareValues]
  rw [decide_eq_decide]
  by_cases h1 : BigInt.opLt a b = true
  · have := hlt.1 h1
    simp only [h1, if_true]
    constructor
    · intro _; omega
    · intro _; decide
  · have n1 : ¬ a.val < b.val := fun h => h1 (hlt.2 h)
    simp only [h1, if_false]
    by_cases h2 : BigInt.opGt a b = true
    · have := hgt.1 h2
      simp only [h2, if_true]
      constructor
      · intro h; exact absurd h (by decide)
      · intro h; omega
    · have n2 : ¬ b.val < a.val := fun h => h2 (hgt.2 h)
      simp only [h2, if_false]
      constructor
      · intro _; omega
      · intro _; decide

/-- A `test` that is a bare comparison gives what the comparison gives. -/
theorem evalTest_of_comparison (F : FloatOps) (fuel : Nat) (c : Comparison) (st st1 : State)
    (v : Value) (h : evalComparison F fuel c st = some (.ok v st1)) :
    evalTest F (fuel + 6) (.mk (.mk [.mk [.comparison c]])) st = some (.ok v st1) := by
  simp only [evalTest, evalOrTest]
  rw [orLoop_single]
  simp only [evalAndTest]
  rw [andLoop_single]
  simp only [evalNotTest]
  exact h

theorem evalTest_le_one (F : FloatOps) (m : Nat) (st : State) (a : BigInt) (ha : a.WF)
    (hn : getVar st.scopes "n" = .ok (.int a)) :
    evalTest F (m + 13) (compareT (nameA "n") [(.le, numA "1")]) st
      = some (.ok (.bool (decide (a.val ≤ 1))) st) := by
  have h1 : (BigInt.lit false "1").WF := by decide
  have hv : (BigInt.lit false "1").val = 1 := by decide
  apply evalTest_of_comparison F (m + 7)
  simp only [List.map_cons, List.map_nil, evalComparison, compLoop]
  rw [Exec.bind_ok (evalArith_name F m "n" st _ hn),
    Exec.bind_ok (evalArith_one F m st), compareOp_le_int F ha h1, hv]
  by_cases h : a.val ≤ 1
  · simp [h, Exec.pure_apply]
  · simp [h, Exec.pure_apply]

theorem evalTest_minus_one (F : FloatOps) (m : Nat) (st : State) (a : BigInt)
    (hn : getVar st.scopes "n" = .ok (.int a)) :
    evalTest F (m + 13) (minusT (nameA "n") (numA "1")) st
      = some (.ok (.int (BigInt.opSub a (BigInt.lit false "1"))) st) := by
  apply evalTest_toTest F (m + 6)
  simp only [evalArith, arithLoop]
  rw [Exec.bind_ok (evalTerm_name F (m + 1) "n" st _ hn),
    Exec.bind_ok (evalTerm_one F m st)]
  rfl

theorem callArgs_minus_one (F : FloatOps) (m : Nat) (st : State) (a : BigInt)
    (hn : getVar st.scopes "n" = .ok (.int a)) :
    callArgs F (m + 15) [posArg (minusT (nameA "n") (numA "1"))] [] [] st
      = some (.ok ([.int (BigInt.opSub a (BigInt.lit false "1"))], []) st) := by
  simp only [posArg, callArgs]
  rw [Exec.bind_ok (evalTest_minus_one F (m + 1) st a hn)]
  rfl

theorem evalTest_times_call (F : FloatOps) (m : Nat) (args : List Argument) (st st2 : State)
    (a r : BigInt) (hn : getVar st.scopes "n" = .ok (.int a))
    (hcall : evalTrailer F (m + 1) (.name "fact") args st = some (.ok (some (.int r)) st2)) :
    evalTest F (m + 13) (termT (nameA "n") .star (callA "fact" args)) st
      = some (.ok (.int (BigInt.opMul a r)) st2) := by
  have hf : evalFactor F (m + 3) (.atomExpr (callA "fact" args)) st
      = some (.ok (.int r) st2) := by
    simp only [callA, evalFactor, evalAtomExpr]
    rw [Exec.bind_ok hcall]
    rfl
  apply evalTest_toTest F (m + 6)
  simp only [evalArith, evalTerm, termLoop]
  rw [Exec.bind_apply, Exec.bind_ok (evalFactor_name F (m + 1) "n" st _ hn), Exec.bind_ok hf]
  rfl

theorem isTrue_bool (F : FloatOps) (b : Bool) : isTrue F (.bool b) = b := rfl

/-- The body of `fact` when `n <= 1`: it returns `1`. -/
theorem factBody_base (F : FloatOps) (m : Nat) (st : State) (a : BigInt) (ha : a.WF)
    (hle : a.val ≤ 1) (hn : getVar st.scopes "n" = .ok (.int a)) :
    execSuite F (m + 30) factBody st
      = some (.thrown (.flowReturn (.int (BigInt.lit false "1"))) st) := by
  simp only [factBody, execSuite, execStmts, execStmt, ifLoop]
  rw [Exec.bind_apply, Exec.bind_ok (evalTest_le_one F (m + 13) st a ha hn)]
  simp only [hle, decide_True, isTrue_bool, if_true]
  rfl

/-- The body of `fact` when `n > 1`: it returns `n` times what the call `fact(n-1)` returns. -/
theorem factBody_step (F : FloatOps) (m : Nat) (st st2 : State) (a r : BigInt) (ha : a.WF)
    (hgt : 1 < a.val) (hn : getVar st.scopes "n" = .ok (.int a))
    (hcall : evalTrailer F (m + 1) (.name "fact") [posArg (minusT (nameA "n") (numA "1"))] st
      = some (.ok (some (.int r)) st2)) :
    execSuite F (m + 19) factBody st
      = some (.thrown (.flowReturn (.int (BigInt.opMul a r))) st2) := by
  have hnle : ¬ a.val ≤ 1 := by omega
  simp only [factBody, execSuite, execStmts, execStmt, ifLoop]
  rw [Exec.bind_apply, Exec.bind_ok (evalTest_le_one F (m + 2) st a ha hn)]
  simp only [hnle, decide_False, isTrue_bool, Bool.false_eq_true, if_false, Exec.pure_apply]
  simp only [execSmall, Test.toTestlist, evalTestlist]
  rw [Exec.bind_apply, Exec.bind_ok (evalTest_times_call F m _ st st2 a r hn hcall)]
  rfl

theorem getVar_replicate_nil (j : Nat) (s : List Frame) (x : String) :
    getVar (List.replicate j ([] : Frame) ++ s) x = getVar s x := by
  induction j with
  | zero => rfl
  | succ j ih => rw [List.replicate_succ, List.cons_append, getVar_cons_nil, ih]

theorem setVar_replicate_nil (j : Nat) (s : List Frame) (x : String) (v w : Value)
    (h : getVar s x = .ok w) :
    setVar (List.replicate j ([] : Frame) ++ s) x v = List.replicate j [] ++ setVar s x v := by
  induction j with
  | zero => rfl
  | succ j ih =>
    rw [List.replicate_succ, List.cons_append,
      setVar_cons_outer [] _ x v w rfl (by rw [getVar_replicate_nil]; exact h), ih]
    rfl

theorem setVar_frame_single (s : List Frame) (x : String) (v w : Value) :
    setVar ([(x, w)] :: s) x v = [(x, v)] :: s := by
  simp [setVar, setVarLoop, Frame.find, Frame.set]

theorem getVar_frame_single (s : List Frame) (x : String) (v : Value) :
    getVar ([(x, v)] :: s) x = .ok v := by
  simp [getVar, Frame.find]

theorem bindParams_single (x : String) (v : Value) (scopes : List Frame) :
    bindParams [x] [] [v] [] scopes = setVar scopes x v := rfl

theorem val_lit_one : (BigInt.lit false "1").val = 1 := by decide

theorem wf_lit_one : (BigInt.lit false "1").WF := by decide

/-- The body of `fact` run with `n` bound to `k` in the frame below `j` empty frames: it
returns `k!`, and the frames are as before except for the value of `n`. -/
theorem factBody_spec (F : FloatOps) : ∀ (k : Nat) (a : BigInt) (j : Nat) (s : List Frame)
    (st : State), a.WF → a.val = k →
    findFunc st.functions "fact" = some ⟨["n"], [], factBody⟩ →
    st.scopes = List.replicate j [] ++ ([("n", .int a)] :: s) →
    ∃ (r : BigInt) (y : Value), r.WF ∧ r.val = k.factorial ∧
      execSuite F (19 * k + 30) factBody st
        = some (.thrown (.flowReturn (.int r))
            { st with scopes := List.replicate j [] ++ ([("n", y)] :: s) })
  | 0, a, j, s, st, ha, hk, _, hs => by
    have hn : getVar st.scopes "n" = .ok (.int a) := by
      rw [hs, getVar_replicate_nil, getVar_frame_single]
    refine ⟨BigInt.lit false "1", .int a, wf_lit_one, by rw [val_lit_one]; rfl, ?_⟩
    rw [factBody_base F (19 * 0) st a ha (by omega) hn, ← hs]
  | 1, a, j, s, st, ha, hk, _, hs => by
    have hn : getVar st.scopes "n" = .ok (.int a) := by
      rw [hs, getVar_replicate_nil, getVar_frame_single]
    refine ⟨BigInt.lit false "1", .int a, wf_lit_one, by rw [val_lit_one]; rfl, ?_⟩
    rw [factBody_base F (19 * 1) st a ha (by omega) hn, ← hs]
  | i + 2, a, j, s, st, ha, hk, hf, hs => by
    have hn : getVar st.scopes "n" = .ok (.int a) := by
      rw [hs, getVar_replicate_nil, getVar_frame_single]
    have hargs := callArgs_minus_one F (19 * (i + 1) + 15) st a hn
    obtain ⟨hw1, hv1⟩ := BigInt.opSub_spec ha wf_lit_one
    rw [val_lit_one, hk] at hv1
    generalize BigInt.opSub a (BigInt.lit false "1") = b at hargs hw1 hv1
    have hv1 : b.val = ((i + 1 : Nat) : Int) := by
      rw [hv1]; push_cast; ring
    have hsc : bindParams ["n"] [] [.int b] [] ([] :: st.scopes)
        = List.replicate (j + 1) [] ++ ([("n", .int b)] :: s) := by
      rw [bindParams_single, hs]
      have := setVar_replicate_nil (j + 1) ([("n", .int a)] :: s) "n" (.int b) (.int a)
        (getVar_frame_single _ _ _)
      rw [List.replicate_succ, List.cons_append] at this
      rw [this, setVar_frame_single]
      rfl
    obtain ⟨r, y, hr1, hr2, hr3⟩ := factBody_spec F (i + 1) b (j + 1) s
      { st with scopes := bindParams ["n"] [] [.int b] [] ([] :: st.scopes) } hw1 hv1 hf hsc
    have hcall := evalTrailer_call F (19 * (i + 1) + 30) "fact"
      [posArg (minusT (nameA "n") (numA "1"))] st st _ ⟨["n"], [], factBody⟩ _ _ hf hargs hf
    simp only [] at hcall
    rw [hr3] at hcall
    simp only [callResult, List.replicate_succ, List.cons_append, List.tail_cons] at hcall
    obtain ⟨hw2, hv2⟩ := BigInt.opMul_spec ha hr1
    refine ⟨BigInt.opMul a r, y, hw2, ?_, ?_⟩
    · rw [hv2, hk, hr2, Nat.factorial_succ (i + 1)]
      push_cast; ring
    · have hfuel : 19 * (i + 2) + 30 = (19 * (i + 1) + 30) + 19 := by ring
      rw [hfuel]
      exact factBody_step F (19 * (i + 1) + 30) st _ a r ha (by rw [hk]; push_cast; omega)
        hn hcall

theorem state_scopes_eta (st : State) : { st with scopes := st.scopes } = st := by
  cases st; rfl

/-- A call of `fact` from a state in which no scope binds `n`: it returns `k!` and leaves
the state as the evaluation of the argument left it. -/
theorem fact_call_spec (F : FloatOps) (k : Nat) (a : BigInt) (st st1 : State)
    (args : List Argument) (ha : a.WF) (hk : a.val = k)
    (h0 : findFunc st.functions "fact" = some ⟨["n"], [], factBody⟩)
    (hargs : callArgs F (19 * k + 30) args [] [] st = some (.ok ([.int a], []) st1))
    (h1 : findFunc st1.functions "fact" = some ⟨["n"], [], factBody⟩)
    (hn : ∀ f ∈ st1.scopes, f.find "n" = none) :
    ∃ r : BigInt, r.WF ∧ r.val = k.factorial ∧
      evalTrailer F (19 * k + 31) (.name "fact") args st = some (.ok (some (.int r)) st1) := by
  have hsc : bindParams ["n"] [] [.int a] [] ([] :: st1.scopes)
      = List.replicate 0 [] ++ ([("n", .int a)] :: st1.scopes) := by
    rw [bindParams_single,
      setVar_cons_fresh [] st1.scopes "n" (.int a) rfl ((getVar_error_iff _ _).1 hn)]
    rfl
  obtain ⟨r, y, hr1, hr2, hr3⟩ := factBody_spec F k a 0 st1.scopes
    { st1 with scopes := bindParams ["n"] [] [.int a] [] ([] :: st1.scopes) } ha hk h1 hsc
  refine ⟨r, hr1, hr2, ?_⟩
  have hcall := evalTrailer_call F (19 * k + 30) "fact" args st st1 _ ⟨["n"], [], factBody⟩ _ _
    h0 hargs h1
  simp only [] at hcall
  rw [hr3] at hcall
  simp only [callResult, List.replicate_zero, List.nil_append, List.tail_cons,
    state_scopes_eta] at hcall
  exact hcall

/-- A call of `fact` with an argument that is at most `1`, negative ones included. -/
theorem fact_call_small (F : FloatOps) (m : Nat) (a : BigInt) (st st1 : State)
    (args : List Argument) (ha : a.WF) (hle : a.val ≤ 1)
    (h0 : findFunc st.functions "fact" = some ⟨["n"], [], factBody⟩)
    (hargs : callArgs F (m + 30) args [] [] st = some (.ok ([.int a], []) st1))
    (h1 : findFunc st1.functions "fact" = some ⟨["n"], [], factBody⟩)
    (hn : ∀ f ∈ st1.scopes, f.find "n" = none) :
    evalTrailer F (m + 31) (.name "fact") args st
      = some (.ok (some (.int (BigInt.lit false "1"))) st1) := by
  have hsc : bindParams ["n"] [] [.int a] [] ([] :: st1.scopes)
      = [("n", .int a)] :: st1.scopes := by
    rw [bindParams_single,
      setVar_cons_fresh [] st1.scopes "n" (.int a) rfl ((getVar_error_iff _ _).1 hn)]
    rfl
  have hcall := evalTrailer_call F (m + 30) "fact" args st st1 _ ⟨["n"], [], factBody⟩ _ _
    h0 hargs h1
  simp only [] at hcall
  rw [factBody_base F m _ a ha hle (by simp only [hsc]; exact getVar_frame_single _ _ _)] at hcall
  simp only [callResult, hsc, List.tail_cons, state_scopes_eta] at hcall
  exact hcall

/-- The `test` of a call gives what the call returns. -/
theorem evalTest_of_call (F : FloatOps) (m : Nat) (f : String) (args : List Argument)
    (st st1 : State) (v : Value)
    (h : evalTrailer F m (.name f) args st = some (.ok (some v) st1)) :
    evalTest F (m + 11) (callA f args).toTest st = some (.ok v st1) := by
  apply evalTest_toTest F (m + 4)
  simp only [callA, AtomExpr.toTerm, evalArith, evalTerm, evalFactor, evalAtomExpr]
  rw [Exec.bind_apply, Exec.bind_apply, Exec.bind_ok h]
  rfl

/-- The call `print(t)` writes the text of the value of `t` and a newline. -/
theorem evalTrailer_print_one (F : FloatOps) (m : Nat) (t : Test) (st st1 : State) (v : Value)
    (hp : findFunc st.functions "print" = none)
    (h : evalTest F (m + 1) t st = some (.ok v st1)) :
    evalTrailer F (m + 3) (.name "print") [posArg t] st
      = some (.ok (some .none) { st1 with out := st1.out ++ (toStr F v ++ ['\n']) }) := by
  simp only [evalTrailer]
  rw [Exec.bind_ok (Exec.get_apply st)]
  simp only [hp, if_true, posArg, printArgs]
  rw [Exec.bind_apply, Exec.bind_ok h]
  rfl

/-- An expression statement that is a call runs the call and drops its value. -/
theorem execStmt_callS (F : FloatOps) (m : Nat) (f : String) (args : List Argument)
    (st st1 : State) (v : Value)
    (h : evalTrailer F m (.name f) args st = some (.ok (some v) st1)) :
    execStmt F (m + 14) (.simple (callS f args)) st = some (.ok () st1) := by
  simp only [execStmt, callS, execSmall, Test.toTestlist, evalTestlist]
  rw [Exec.bind_ok (evalTest_of_call F m f args st st1 v h)]
  rfl

theorem execStmts_two (F : FloatOps) (m : Nat) (s1 s2 : Stmt) (st st1 st2 : State)
    (h1 : execStmt F (m + 2) s1 st = some (.ok () st1))
    (h2 : execStmt F (m + 1) s2 st1 = some (.ok () st2)) :
    execStmts F (m + 3) [s1, s2] st = some (.ok () st2) := by
  simp only [execStmts]
  rw [Exec.bind_ok h1, Exec.bind_ok h2]
  rfl

theorem module_no_binding (x : String) : ∀ f ∈ stateFact.scopes, f.find x = none := by
  intro f hf
  cases hf with
  | head => rfl
  | tail _ h => cases h

theorem val_lit_fact25 :
    (BigInt.lit false "15511210043330985984000000").val = ((25 : Nat).factorial : Int) := by
  decide

/-- The run of `def fact(n): ...`, `print(fact(25))`. -/
theorem progFact25_run (F : FloatOps) :
    execStmts F 535 progFact25 State.module
      = some (.ok () { stateFact with out := "15511210043330985984000000\n".toList }) := by
  obtain ⟨r, hr1, hr2, hr3⟩ := fact_call_spec F 25 (BigInt.lit false "25") stateFact stateFact
    [posArg (numT "25")] (by decide) (by decide) rfl rfl rfl (module_no_binding "n")
  have hr : r = BigInt.lit false "15511210043330985984000000" :=
    BigInt.val_inj hr1 (by decide) (hr2.trans val_lit_fact25.symm)
  subst hr
  have ht := evalTest_of_call F _ "fact" _ stateFact stateFact _ hr3
  have hp := evalTrailer_print_one F _ _ stateFact stateFact _ rfl ht
  have hs := execStmt_callS F _ "print" _ stateFact _ _ hp
  exact execStmts_two F 532 _ _ State.module stateFact _ rfl hs

/-- C29: for `def fact(n): if n <= 1: return 1; return n * fact(n-1)`, a call of `fact`
from a state in which no scope binds `n`, with an argument denoting `k ≥ 0`, returns the Int
denoting `k!` and leaves the state as the evaluation of the argument left it; with an
argument at most `1` it returns `1`; and `print(fact(25))` writes
`15511210043330985984000000`. -/
theorem factorial_exact (F : FloatOps) (k : Nat) (a : BigInt) (st st1 : State)
    (args : List Argument) (ha : a.WF) (hk : a.val = k)
    (h0 : findFunc st.functions "fact" = some ⟨["n"], [], factBody⟩)
    (hargs : callArgs F (19 * k + 30) args [] [] st = some (.ok ([.int a], []) st1))
    (h1 : findFunc st1.functions "fact" = some ⟨["n"], [], factBody⟩)
    (hn : ∀ f ∈ st1.scopes, f.find "n" = none) :
    execStmts F 10 progFact State.module = some (.ok () stateFact) ∧
    (∃ r : BigInt, r.WF ∧ r.val = k.factorial ∧
      evalTrailer F (19 * k + 31) (.name "fact") args st = some (.ok (some (.int r)) st1)) ∧
    (k ≤ 1 → evalTrailer F (19 * k + 31) (.name "fact") args st
      = some (.ok (some (.int (BigInt.lit false "1"))) st1)) ∧
    (∀ (m : Nat) (b : BigInt) (s0 s1 : State) (args0 : List Argument), b.WF → b.val ≤ 1 →
      findFunc s0.functions "fact" = some ⟨["n"], [], factBody⟩ →
      callArgs F (m + 30) args0 [] [] s0 = some (.ok ([.int b], []) s1) →
      findFunc s1.functions "fact" = some ⟨["n"], [], factBody⟩ →
      (∀ f ∈ s1.scopes, f.find "n" = none) →
      evalTrailer F (m + 31) (.name "fact") args0 s0
        = some (.ok (some (.int (BigInt.lit false "1"))) s1)) ∧
    outAfter (execStmts F 535 progFact25 State.module)
      = some "15511210043330985984000000\n".toList := by
  refine ⟨rfl, fact_call_spec F k a st st1 args ha hk h0 hargs h1 hn, ?_, ?_, ?_⟩
  · intro hle
    exact fact_call_small F (19 * k) a st st1 args ha (by rw [hk]; exact_mod_cast hle)
      h0 hargs h1 hn
  · intro m b s0 s1 args0 hb hle g0 hargs0 g1 gn
    exact fact_call_small F m b s0 s1 args0 hb hle g0 hargs0 g1 gn
  · rw [progFact25_run]
    rfl

theorem factorial_exact_witness :
    (BigInt.lit false "3").WF ∧
    (∀ F : FloatOps, ∃ r : BigInt, r.WF ∧ r.val = (3 : Nat).factorial ∧
      evalTrailer F (19 * 3 + 31) (.name "fact") [posArg (numT "3")] stateFact
        = some (.ok (some (.int r)) stateFact)) :=
  ⟨by decide, fun F => (factorial_exact F 3 (BigInt.lit false "3") stateFact stateFact
    [posArg (numT "3")] (by decide) (by decide) rfl rfl rfl (module_no_binding "n")).2.1⟩
